import Mathlib

/-!
# Verification of the pizzafest bid-war attribution and tally engine

This file is a shallow embedding, in Lean 4, of the core of the
`github.com/aerionblue/pizzafest` repository: the bid-war option catalog,
the alias matcher (`bidwar.ChoiceFromMessage`), the ledger assignment
(`bidwar.makeChoice` / `bidwar.AssignFromMessage`), the totals reader
(`bidwar.GetTotals`), the rank computation and summary formatting
(`bidwar.computeRanks`, `bidwar.Totals.Describe`), the contest totals query
(`bidwar.TotalsForContest`), and the pending-bid preference cache of
`bot.go` (`getChoice` / `rememberPref`).

Modelling conventions, used throughout:

* Go machine integers are modelled as `Int` or `Nat` (no overflow is
  relevant to any claim: all quantities are small counts or cent values).
* Go `interface\x7b\x7d` cell values coming from the spreadsheet API are
  modelled by the inductive type `Cell` (a string, a number, or null).
  `float64` payloads are modelled as exact scaled decimals;
  `math.Round` is modelled as rounding half away from zero, which agrees
  with `math.Round` on all values representable exactly.
* `strconv.ParseFloat` is modelled by `parseDec`, which accepts exactly the
  plain decimal literals (optional sign, digits, optional fractional part).
  The ledger and the totals row store plain decimals such as "5.00", so
  this is faithful on the data domain of the program; the exotic forms
  accepted by `ParseFloat` (exponents, hex floats, inf, NaN) do not occur.
* A compiled alias regexp `(?i)\bA\bz` (for an alias pattern A; z here
  stands for nothing) is modelled by `findStringIndex`, a case-insensitive
  whole-word search returning the first (leftmost) match offset.  This is
  faithful for alias patterns that are literal words, which is the shape of
  every alias in the repository data; offsets are character offsets, equal
  to Go byte offsets on ASCII messages.
* `rand.Intn` is modelled by an explicit random source `rnd : Nat → Nat`
  (the value used is `rnd n % n`); `rand.Intn 0` panics in Go, and the
  embedding of `ChoiceFromMessage` returns `none` to model that panic.
* Go maps are modelled as association lists with overwrite-on-insert and
  delete-all-occurrences (keys are unique, so this agrees with Go).
* `strings.EqualFold` and the regexp flag `(?i)` are modelled with
  `Char.toLower`, which agrees with Go simple case folding on ASCII data.
-/

namespace Pizzafest

/-! ## Dynamic cell values (Go `interface` values from the Sheets API) -/

/-- A dynamically typed spreadsheet cell, as delivered by the Google Sheets
API: a JSON string, a JSON number, or null/absent.  A number is modelled
as the exact decimal `man / 10 ^ exp` (the numbers in the ledger are
decimal dollar amounts, all exactly representable this way). -/
inductive Cell where
  | str (s : String)
  | num (man : Int) (exp : Nat)
  | null
deriving DecidableEq

/-- `n / d` rounded half away from zero (`d > 0`): the model of Go
`math.Round` applied to the exact quotient. -/
def roundHalfAway (n : Int) (d : Nat) : Int :=
  if 0 ≤ n then (2 * n + d) / (2 * (d : Int)) else -((2 * (-n) + d) / (2 * (d : Int)))

/-- `math.Round (x * 100)` for the decimal `x = man / 10 ^ exp`: the cent
value of a dollar amount. -/
def roundCents (man : Int) (exp : Nat) : Int :=
  roundHalfAway (man * 100) (10 ^ exp)

/-- All characters are decimal digits. -/
def allDigits (cs : List Char) : Bool := cs.all (fun c => c.isDigit)

/-- Numeric value of a digit string. -/
def digitsVal (cs : List Char) : Nat :=
  cs.foldl (fun n c => n * 10 + (c.toNat - 48)) 0

/-- Model of `strconv.ParseFloat` restricted to plain decimal literals:
optional sign, then digits with at most one decimal point and at least one
digit overall.  Returns the exact value as a scaled decimal
`(man, exp)` meaning `man / 10 ^ exp`. -/
def parseDec (s : String) : Option (Int × Nat) :=
  let cs := s.data
  let signAndRest : Int × List Char :=
    match cs with
    | '-' :: t => (-1, t)
    | '+' :: t => (1, t)
    | t => (1, t)
  let sign := signAndRest.1
  let rest := signAndRest.2
  let ip := rest.takeWhile (fun c => c ≠ '.')
  let rest2 := rest.dropWhile (fun c => c ≠ '.')
  let fp : Option (List Char) :=
    match rest2 with
    | [] => some []
    | '.' :: t => if t.all (fun c => c ≠ '.') then some t else none
    | _ => none
  match fp with
  | none => none
  | some f =>
      if allDigits ip ∧ allDigits f ∧ (ip ≠ [] ∨ f ≠ []) then
        some (sign * ((digitsVal ip : Int) * 10 ^ f.length + (digitsVal f : Int)), f.length)
      else none

/-! ## The bid war data model (`bidwar.go`) -/

/-- Embeds Go `bidwar.Option` (named `BWOption` because `Option` is taken
by Lean).  `aliases` holds the raw alias patterns. -/
structure BWOption where
  displayName : String
  shortCode : String
  aliases : List String
  closed : Bool
deriving DecidableEq

/-- The zero value of `bidwar.Option`. -/
def BWOption.zero : BWOption := ⟨"", "", [], false⟩

/-- Embeds `Option.IsZero`: true iff the short code is empty. -/
def BWOption.IsZero (o : BWOption) : Bool := o.shortCode = ""

/-- Embeds Go `bidwar.Choice`. -/
structure Choice where
  option : BWOption
  reason : String
deriving DecidableEq

/-- The zero value of `bidwar.Choice`. -/
def Choice.zero : Choice := ⟨BWOption.zero, ""⟩

/-- Embeds Go `bidwar.ChoiceReason`. -/
inductive ChoiceReason where
  | FromChatMessage
  | FromDonationMessage
  | FromSubMessage
  | FromBidCommand
deriving DecidableEq

/-- Embeds Go `bidwar.Contest`. -/
structure Contest where
  name : String
  summaryStyle : String
  numberOfWinners : Int
  options : List BWOption
  closed : Bool
deriving DecidableEq

/-- Embeds Go `bidwar.Collection`. -/
structure Collection where
  contests : List Contest
  requireExplicitBid : Bool
deriving DecidableEq

/-- Embeds `Collection.AllOpenOptions`: all open options of all open
contests, in catalog order. -/
def AllOpenOptions (c : Collection) : List BWOption :=
  (c.contests.filter (fun con => !con.closed)).flatMap
    (fun con => con.options.filter (fun o => !o.closed))

/-- Embeds `bidwar.reasonString`.  The Go switch statement has no case for
`FromBidCommand`, so control falls through to the final `return ""`. -/
def reasonString (reason : ChoiceReason) (msg : String) : String :=
  if msg = "" then ""
  else
    match reason with
    | .FromChatMessage => "[chat] " ++ msg
    | .FromDonationMessage => "[donation msg] " ++ msg
    | .FromSubMessage => "[sub msg] " ++ msg
    | .FromBidCommand => ""

/-! ## The alias matcher -/

/-- Model of `strings.ToLower` (agrees with Go on ASCII data; defined by
mapping over the character list so that it evaluates by kernel
reduction). -/
def strToLower (s : String) : String := (s.data.map Char.toLower).asString

/-- A word character in the sense of the Go regexp `\bz` boundary
(ASCII letters, digits, underscore; z here stands for nothing). -/
def isWordChar (c : Char) : Bool := c.isAlpha || c.isDigit || c = '_'

/-- Case-insensitive character equality (`(?i)`). -/
def lowerEq (a b : Char) : Bool := a.toLower = b.toLower

/-- Does `msg` start with `pat`, case-insensitively? -/
def startsWithCI : List Char → List Char → Bool
  | [], _ => true
  | _ :: _, [] => false
  | p :: ps, m :: ms => lowerEq p m && startsWithCI ps ms

/-- Is the character at index `i` of `msg` a word character
(false when out of range)? -/
def wordAt (msg : List Char) (i : Nat) : Bool :=
  match msg[i]? with
  | some c => isWordChar c
  | none => false

/-- Is there an ASCII word boundary just before index `i`? -/
def boundaryAt (msg : List Char) (i : Nat) : Bool :=
  (if i = 0 then false else wordAt msg (i - 1)) ≠ wordAt msg i

/-- Does the whole-word pattern match at offset `i`? -/
def matchWordAt (pat msg : List Char) (i : Nat) : Bool :=
  startsWithCI pat (msg.drop i) && boundaryAt msg i && boundaryAt msg (i + pat.length)

/-- Model of `regexp.FindStringIndex` (first component) for the compiled
alias pattern: the smallest offset at which the case-insensitive whole-word
pattern matches, if any. -/
def findStringIndex (pat msg : String) : Option Nat :=
  (List.range (msg.data.length + 1)).find? (fun i => matchWordAt pat.data msg.data i)

/-- Model of `randomDirective.MatchString`, the regexp `(?i)random`:
case-insensitive substring search. -/
def containsRandom (msg : String) : Bool :=
  let low := (strToLower msg).data
  (List.range (low.length + 1)).any (fun i => List.isPrefixOf "random".data (low.drop i))

/-- One step of the minimum-offset scan of `ChoiceFromMessage`, for a
single alias `a` of option `opt`: adopt the match if it is strictly
earlier than the current best (or if there is no current best,
`minIndex < 0`). -/
def scanAlias (msg : String) (opt : BWOption) (st : Int × BWOption) (a : String) :
    Int × BWOption :=
  match findStringIndex a msg with
  | some idx => if st.1 > (idx : Int) ∨ st.1 < 0 then ((idx : Int), opt) else st
  | none => st

/-- The nested loop of `ChoiceFromMessage` over all open options and their
aliases, carrying `(minIndex, minOpt)` with `minIndex = -1` meaning
"no match yet". -/
def scanOptions (openOptions : List BWOption) (msg : String) : Int × BWOption :=
  openOptions.foldl
    (fun st opt => opt.aliases.foldl (scanAlias msg opt) st)
    (-1, BWOption.zero)

/-- Embeds `Collection.ChoiceFromMessage`.  `rnd` is the random source for
`rand.Intn` (the drawn index is `rnd n % n`).  The result `none` models the
Go panic raised by `rand.Intn 0` when the random directive fires with no
open options. -/
def ChoiceFromMessage (c : Collection) (msg : String) (reason : ChoiceReason)
    (rnd : Nat → Nat) : Option Choice :=
  if c.requireExplicitBid ∧ reason ≠ .FromBidCommand then some Choice.zero
  else
    let openOptions := AllOpenOptions c
    let scan := scanOptions openOptions msg
    if scan.1 < 0 ∧ containsRandom msg then
      match openOptions.length with
      | 0 => none
      | n + 1 =>
          some ⟨openOptions.getD (rnd (n + 1) % (n + 1)) BWOption.zero,
                reasonString reason msg⟩
    else some ⟨scan.2, reasonString reason msg⟩

/-- All (offset, option) alias matches of a message, in catalog iteration
order (first contest, first option, first alias).  Used to specify the
behaviour of the scan. -/
def allMatches (c : Collection) (msg : String) : List (Nat × BWOption) :=
  (AllOpenOptions c).flatMap
    (fun o => o.aliases.filterMap (fun a => (findStringIndex a msg).map (fun i => (i, o))))

/-- One step of the specification-side selection: a later match replaces
the current best only when its offset is strictly smaller. -/
def stepMin (best : Option (Nat × BWOption)) (m : Nat × BWOption) :
    Option (Nat × BWOption) :=
  match best with
  | none => some m
  | some b => if m.1 < b.1 then some m else some b

/-- Specification-side selection: the first element of the list attaining
the minimal offset (later elements with an equal offset do not replace an
earlier one). -/
def argminFirst (ms : List (Nat × BWOption)) : Option (Nat × BWOption) :=
  ms.foldl stepMin none

/-- The scan state as an encoding of an optional best match
(`minIndex = -1` encodes "none yet"). -/
def encodeScan : Option (Nat × BWOption) → Int × BWOption
  | none => (-1, BWOption.zero)
  | some m => ((m.1 : Int), m.2)

/-! ## Ledger rows and `makeChoice` (`bidwar.go`) -/

/-- Embeds `bidwar.donationRow`: one spreadsheet row of dynamic cells. -/
abbrev Row := List Cell

/-- Embeds `donationRow.column`: the cell at index `n` as a string; empty
when the index is out of range or the cell is not a string (the failed Go
type assertion yields the zero string). -/
def Row.column (d : Row) (n : Nat) : String :=
  match d[n]? with
  | some (Cell.str s) => s
  | _ => ""

/-- Embeds `donationRow.Contributor` (column 0). -/
def Row.Contributor (d : Row) : String := d.column 0

/-- Embeds `donationRow.Choice` (column 3). -/
def Row.Choice (d : Row) : String := d.column 3

/-- Embeds `donationRow.Cents`: rows shorter than 3 cells are worth 0; a
string cell is parsed as a decimal dollar amount (0 on parse failure); a
numeric cell is used directly; any other cell is worth 0. -/
def Row.Cents (d : Row) : Int :=
  if d.length < 3 then 0
  else
    match d[2]? with
    | some (Cell.str s) =>
        match parseDec s with
        | some f => roundCents f.1 f.2
        | none => 0
    | some (Cell.num man exp) => roundCents man exp
    | _ => 0

/-- Model of `strings.EqualFold` (ASCII-faithful). -/
def equalFold (a b : String) : Bool := strToLower a = strToLower b

/-- Embeds `sheets.ValueRange` (the fields the code touches). -/
structure ValueRange where
  majorDimension : String
  range : String
  values : List Row
deriving DecidableEq

/-- Embeds `bidwar.rowForChoice`: the sparse replacement row carrying the
chosen option short code and the reason. -/
def rowForChoice (choice : Choice) : Row :=
  [Cell.null, Cell.null, Cell.null, Cell.str choice.option.shortCode, Cell.str choice.reason]

/-- Whether `makeChoice` updates this row: the contributor matches the
donor case-insensitively and the choice column is still blank. -/
def rowMatches (donor : String) (row : Row) : Bool :=
  equalFold row.Contributor donor && row.Choice = ""

/-- The loop body of `makeChoice`, accumulating the new values (one entry
per input row: a replacement row or an empty delta) and the original
values of the updated rows. -/
def makeChoiceLoop (donor : String) (choice : Choice) (rows : List Row) :
    List Row × List Row :=
  rows.foldl
    (fun acc row =>
      if rowMatches donor row then
        (acc.1 ++ [rowForChoice choice], acc.2 ++ [row])
      else
        (acc.1 ++ [([] : Row)], acc.2))
    ([], [])

/-- Embeds `bidwar.makeChoice`: returns the `ValueRange` to write back
(same dimension and range, sparse new values) and the original matched
rows. -/
def makeChoice (vr : ValueRange) (donor : String) (choice : Choice) :
    ValueRange × List Row :=
  let res := makeChoiceLoop donor choice vr.values
  (⟨vr.majorDimension, vr.range, res.1⟩, res.2)

/-! ## `AssignFromMessage` (`bidwar.go`) -/

/-- Embeds `bidwar.UpdateStats`. -/
structure UpdateStats where
  choice : Choice
  count : Nat
  totalValue : Int
deriving DecidableEq

/-- The zero value of `bidwar.UpdateStats`. -/
def UpdateStats.zero : UpdateStats := ⟨Choice.zero, 0, 0⟩

/-- Embeds `Tallier.AssignFromMessage`.  The two external ledger calls are
made explicit inputs: `tableRes` is the outcome of `t.table.GetTable()`
and `writeRes` the outcome of `t.table.WriteTable(...)` (only consulted
when at least one row matched, exactly as in the code).  The result `none`
models a panic propagated out of `ChoiceFromMessage`. -/
def AssignFromMessage (c : Collection) (donor msg : String) (rnd : Nat → Nat)
    (tableRes : Except String ValueRange) (writeRes : Except String Nat) :
    Option (Except String UpdateStats) :=
  if donor = "" then some (Except.error "donor must not be empty")
  else
    match ChoiceFromMessage c msg .FromBidCommand rnd with
    | none => none
    | some choice =>
        if choice.option.IsZero then some (Except.ok UpdateStats.zero)
        else
          match tableRes with
          | Except.error e => some (Except.error ("error reading donation table: " ++ e))
          | Except.ok vr =>
              let res := makeChoice vr donor choice
              let matchedRows := res.2
              let stats : UpdateStats :=
                ⟨choice, matchedRows.length, (matchedRows.map Row.Cents).sum⟩
              if 0 < matchedRows.length then
                match writeRes with
                | Except.error e =>
                    some (Except.error ("error updating spreadsheet: " ++ e))
                | Except.ok _ => some (Except.ok stats)
              else some (Except.ok stats)

/-! ## The pending-bid preference cache (`bot.go`) -/

/-- Embeds `bidPreference` of `bot.go`; time is modelled in seconds. -/
structure BidPreference where
  choice : Choice
  expiration : Nat
deriving DecidableEq

/-- `bidPrefTTL = 3 * time.Minute`, in seconds. -/
def bidPrefTTL : Nat := 180

/-- Delete every entry under key `k` (a Go map holds at most one). -/
def eraseKey {β : Type} (k : String) (m : List (String × β)) : List (String × β) :=
  m.filter (fun e => e.1 ≠ k)

/-- Embeds the `pendingBids` consumption step of `bot.getChoice`
(the body between taking the lock and returning): look up the lower-cased
donor, always delete the entry, and return the remembered choice only if
the entry exists and has not expired. -/
def consumePendingBid (pendingBids : List (String × BidPreference))
    (owner : String) (now : Nat) : Choice × List (String × BidPreference) :=
  let donor := strToLower owner
  let pref? := List.lookup donor pendingBids
  let m := eraseKey donor pendingBids
  match pref? with
  | none => (Choice.zero, m)
  | some pref => if now > pref.expiration then (Choice.zero, m) else (pref.choice, m)

/-- Embeds `bot.rememberPref`: store the choice under the lower-cased
username with expiration `now + bidPrefTTL`, overwriting any prior
entry. -/
def rememberPref (pendingBids : List (String × BidPreference))
    (username : String) (choice : Choice) (now : Nat) :
    List (String × BidPreference) :=
  (strToLower username, ⟨choice, now + bidPrefTTL⟩) ::
    eraseKey (strToLower username) pendingBids

/-! ## `GetTotals` (`bidwar.go`) -/

/-- Embeds `bidwar.Total`: the money total for one option, in cents. -/
structure Total where
  option : BWOption
  value : Int
deriving DecidableEq

/-- Overwriting insert into an association list (Go map assignment). -/
def insertKey {β : Type} (k : String) (v : β) (m : List (String × β)) :
    List (String × β) :=
  (k, v) :: eraseKey k m

/-- Embeds the `optsMap` construction in `GetTotals`: every option of
every contest, keyed by short code (later duplicates overwrite). -/
def optsMap (c : Collection) : List (String × BWOption) :=
  c.contests.foldl
    (fun m contest =>
      contest.options.foldl (fun m option => insertKey option.shortCode option m) m)
    []

/-- The parsing loop of `GetTotals` over the parallel name/total cells
(already zipped, modelling `i < len(rawNames) && i < len(rawTotals)`):
an entry whose total cell is the empty string is skipped; a non-string
name or total cell is a hard error; an unknown (unmapped) name is
silently skipped; an unparseable total is a hard error. -/
def getTotalsLoop (om : List (String × BWOption)) :
    List (Cell × Cell) → Except String (List Total)
  | [] => Except.ok []
  | (nc, tc) :: rest =>
      if tc = Cell.str "" then getTotalsLoop om rest
      else
        match nc with
        | Cell.str n =>
            match tc with
            | Cell.str v =>
                match List.lookup n om with
                | none => getTotalsLoop om rest
                | some opt =>
                    match parseDec v with
                    | none => Except.error ("invalid total for " ++ n ++ ": " ++ v)
                    | some dollars =>
                        (getTotalsLoop om rest).map
                          (fun ts => ⟨opt, roundCents dollars.1 dollars.2⟩ :: ts)
            | _ => Except.error "expected string total cell"
        | _ => Except.error "expected string name cell"

/-- Embeds `Tallier.GetTotals`, with the two metadata-keyed cell columns
(bid war names and totals) as explicit inputs. -/
def GetTotals (c : Collection) (rawNames rawTotals : List Cell) :
    Except String (List Total) :=
  getTotalsLoop (optsMap c) (rawNames.zip rawTotals)

/-! ## Example data (used by witnesses and counterexamples) -/

/-- The bid war catalog of `bidwar_test.go` (short codes added; the test
data leaves them empty, but every claim about short codes needs them). -/
def exCatalog : Collection :=
  ⟨[⟨"Mario Kart track", "ALL", 1,
      [⟨"Moo Moo Meadows", "moo", ["moo", "moomoo"], false⟩,
       ⟨"Neo Bowser City", "neo", ["neo", "nbc"], false⟩], false⟩,
    ⟨"Featuring Dante From The Devil May Cry Series", "ALL", 1,
      [⟨"Devil May Cry", "dmc", ["dmc", "dmc1"], false⟩,
       ⟨"Devil May Cry 2", "dmc2", ["dmc2"], false⟩,
       ⟨"Devil May Cry 3", "dmc3", ["dmc3"], false⟩], false⟩], false⟩

/-- A catalog with zero open options: the only option of the open contest
is closed, and the other contest is closed. -/
def closedCatalog : Collection :=
  ⟨[⟨"open contest with closed option", "ALL", 1, [⟨"A", "a", ["alpha"], true⟩], false⟩,
    ⟨"closed contest", "ALL", 1, [⟨"B", "b", ["beta"], false⟩], true⟩], false⟩

/-! ## Support lemmas -/

theorem lookup_eraseKey {β : Type} (k : String) (m : List (String × β)) :
    List.lookup k (eraseKey k m) = none := by
  induction m with
  | nil => rfl
  | cons e rest ih =>
      simp only [eraseKey, List.filter_cons] at ih ⊢
      split
      · next h =>
          have hk : (k == e.1) = false := by
            simp only [ne_eq, decide_eq_true_eq] at h
            simpa using fun hh => h hh.symm
          simpa [List.lookup, hk] using ih
      · exact ih

/-! ## Claim C9 -/

/-- C9: consuming a pending preference (the `pendingBids` lookup in
`bot.getChoice`) returns not-found (the zero `Choice`) both when no entry
exists under the lower-cased donor key and when an entry exists but its
expiration time has passed; in both cases, and also on a successful
consume, the entry is removed from the map on that read, so no residual
entry remains and a preference is consulted at most once. -/
theorem consumePendingBid_spec (m : List (String × BidPreference)) (owner : String)
    (now : Nat) (res : Choice) (m2 : List (String × BidPreference))
    (h : consumePendingBid m owner now = (res, m2)) :
    List.lookup (strToLower owner) m2 = none
    ∧ (List.lookup (strToLower owner) m = none → res = Choice.zero)
    ∧ (∀ p, List.lookup (strToLower owner) m = some p → now > p.expiration →
        res = Choice.zero)
    ∧ (∀ p, List.lookup (strToLower owner) m = some p → ¬ now > p.expiration →
        res = p.choice) := by
  rcases hl : List.lookup (strToLower owner) m with _ | p
  · simp only [consumePendingBid, hl] at h
    obtain ⟨rfl, rfl⟩ := Prod.mk.injEq .. ▸ h
    refine ⟨lookup_eraseKey _ _, fun _ => rfl, ?_, ?_⟩
    · intro p hp; simp [hl] at hp
    · intro p hp; simp [hl] at hp
  · by_cases hexp : now > p.expiration
    · simp only [consumePendingBid, hl, if_pos hexp] at h
      obtain ⟨rfl, rfl⟩ := Prod.mk.injEq .. ▸ h
      refine ⟨lookup_eraseKey _ _, fun hc => by simp [hl] at hc, ?_, ?_⟩
      · intro q hq _; rfl
      · intro q hq hle; cases hq; exact absurd hexp hle
    · simp only [consumePendingBid, hl, if_neg hexp] at h
      obtain ⟨rfl, rfl⟩ := Prod.mk.injEq .. ▸ h
      refine ⟨lookup_eraseKey _ _, fun hc => by simp [hl] at hc, ?_, ?_⟩
      · intro q hq hgt; cases hq; exact absurd hgt hexp
      · intro q hq _; cases hq; rfl

/-- Witness for C9: a concrete expired entry under key "bob", consumed by
owner "BOB" after its expiration. -/
theorem consumePendingBid_spec_witness :
    List.lookup (strToLower "BOB") ([] : List (String × BidPreference)) = none
    ∧ (List.lookup (strToLower "BOB") [("bob", BidPreference.mk Choice.zero 100)] = none →
        Choice.zero = Choice.zero)
    ∧ (∀ p, List.lookup (strToLower "BOB")
          [("bob", BidPreference.mk Choice.zero 100)] = some p →
        150 > p.expiration → Choice.zero = Choice.zero)
    ∧ (∀ p, List.lookup (strToLower "BOB")
          [("bob", BidPreference.mk Choice.zero 100)] = some p →
        ¬ 150 > p.expiration → Choice.zero = p.choice) :=
  consumePendingBid_spec [("bob", BidPreference.mk Choice.zero 100)] "BOB" 150
    Choice.zero [] (by decide)

/-! ## Claim C8 -/

/-- C8: `AssignFromMessage` returns an error for an empty donor id without
reading or writing the ledger (the result does not depend on `tableRes` or
`writeRes`), and when the donor id is non-empty but the message resolves
to no option, it returns the zero `UpdateStats` with no error, again
without consulting the ledger: a no-op outcome distinguishable from
failure. -/
theorem assignFromMessage_earlyOut (c : Collection) (donor msg : String)
    (rnd : Nat → Nat) (tableRes : Except String ValueRange)
    (writeRes : Except String Nat) :
    (donor = "" →
      AssignFromMessage c donor msg rnd tableRes writeRes =
        some (Except.error "donor must not be empty"))
    ∧ (∀ ch, donor ≠ "" →
        ChoiceFromMessage c msg .FromBidCommand rnd = some ch →
        ch.option.IsZero = true →
        AssignFromMessage c donor msg rnd tableRes writeRes =
          some (Except.ok UpdateStats.zero)) := by
  constructor
  · intro hd
    simp [AssignFromMessage, hd]
  · intro ch hd hch hz
    simp [AssignFromMessage, hd, hch, hz]

/-- Witness for C8: the empty donor, and the donor "someone" whose message
"hello" resolves to no option of the example catalog; in both cases the
outcome ignores the (erroring) ledger inputs. -/
theorem assignFromMessage_earlyOut_witness :
    AssignFromMessage exCatalog "" "hello" (fun _ => 0) (Except.error "net down")
        (Except.error "net down") = some (Except.error "donor must not be empty")
    ∧ AssignFromMessage exCatalog "someone" "hello" (fun _ => 0) (Except.error "net down")
        (Except.error "net down") = some (Except.ok UpdateStats.zero) :=
  ⟨(assignFromMessage_earlyOut exCatalog "" "hello" (fun _ => 0) (Except.error "net down")
      (Except.error "net down")).1 rfl,
   (assignFromMessage_earlyOut exCatalog "someone" "hello" (fun _ => 0)
      (Except.error "net down") (Except.error "net down")).2
      ⟨BWOption.zero, ""⟩ (by decide) (by decide) (by decide)⟩

/-! ## Claim C10 -/

/-- C10: `ChoiceFromMessage` is not total at its public interface: on a
catalog in which every option or contest is closed (zero open options), a
message that matches no alias but contains the token "random" reaches
`rand.Intn 0`, which panics (modelled by the result `none`) — for every
random source. -/
theorem choiceFromMessage_random_panics (rnd : Nat → Nat) :
    ChoiceFromMessage closedCatalog "random" .FromChatMessage rnd = none := by
  rfl

/-! ## Claim C7 -/

/-- Specification predicate: an aggregate entry that makes the `GetTotals`
loop fail hard.  The total cell must be non-empty; then either cell of the
entry is not a string, or the name resolves in the catalog but the total
fails to parse.  (An unknown string key is dropped before its total is
parsed, so it is not a hard error.) -/
def entryBad (om : List (String × BWOption)) : Cell × Cell → Bool
  | (nc, tc) =>
      if tc = Cell.str "" then false
      else
        match nc, tc with
        | Cell.str n, Cell.str v =>
            match List.lookup n om with
            | some _ => (parseDec v).isNone
            | none => false
        | _, _ => true

/-- Specification function: the total produced by one aggregate entry when
no entry is bad (empty totals and unknown keys yield nothing). -/
def goodTotal (om : List (String × BWOption)) : Cell × Cell → Option Total
  | (nc, tc) =>
      match nc, tc with
      | Cell.str n, Cell.str v =>
          if v = "" then none
          else
            match List.lookup n om with
            | some opt => (parseDec v).map (fun q => Total.mk opt (roundCents q.1 q.2))
            | none => none
      | _, _ => none

theorem getTotalsLoop_ok (om : List (String × BWOption)) (ps : List (Cell × Cell))
    (h : ∀ p ∈ ps, entryBad om p = false) :
    getTotalsLoop om ps = Except.ok (ps.filterMap (goodTotal om)) := by
  induction ps with
  | nil => rfl
  | cons p rest ih =>
      obtain ⟨nc, tc⟩ := p
      have hbad := h (nc, tc) (List.mem_cons_self _ _)
      have hrest := ih (fun q hq => h q (List.mem_cons_of_mem _ hq))
      by_cases hempty : tc = Cell.str ""
      · subst hempty
        cases nc with
        | str n => simp [getTotalsLoop, List.filterMap_cons, goodTotal, hrest]
        | num x => simp [getTotalsLoop, List.filterMap_cons, goodTotal, hrest]
        | null => simp [getTotalsLoop, List.filterMap_cons, goodTotal, hrest]
      · simp only [entryBad, hempty] at hbad
        cases nc with
        | str n =>
            cases tc with
            | str v =>
                have hv : v ≠ "" := fun hh => hempty (by rw [hh])
                rcases hlk : List.lookup n om with _ | opt
                · simp only [hlk] at hbad
                  simp [getTotalsLoop, hempty, hlk, List.filterMap_cons,
                    goodTotal, if_neg hv, hrest]
                · simp only [hlk] at hbad
                  rcases hpd : parseDec v with _ | q
                  · simp only [hpd] at hbad; simp at hbad
                  · simp [getTotalsLoop, hempty, hlk, hpd, Except.map,
                      List.filterMap_cons, goodTotal, if_neg hv, hrest]
            | num x => simp at hbad
            | null => simp at hbad
        | num x => simp at hbad
        | null => simp at hbad

theorem getTotalsLoop_bad (om : List (String × BWOption)) (ps : List (Cell × Cell))
    (h : ∃ p ∈ ps, entryBad om p = true) :
    ∃ e, getTotalsLoop om ps = Except.error e := by
  induction ps with
  | nil => simp at h
  | cons p rest ih =>
      obtain ⟨nc, tc⟩ := p
      by_cases hbad : entryBad om (nc, tc) = true
      · by_cases hempty : tc = Cell.str ""
        · simp [entryBad, hempty] at hbad
        · simp only [entryBad, hempty] at hbad
          cases nc with
          | str n =>
              cases tc with
              | str v =>
                  rcases hlk : List.lookup n om with _ | opt
                  · simp only [hlk] at hbad; simp at hbad
                  · simp only [hlk] at hbad
                    rcases hpd : parseDec v with _ | q
                    · exact ⟨"invalid total for " ++ n ++ ": " ++ v,
                        by simp [getTotalsLoop, hempty, hlk, hpd]⟩
                    · simp only [hpd] at hbad; simp at hbad
              | num x => exact ⟨"expected string total cell", by simp [getTotalsLoop, hempty]⟩
              | null => exact ⟨"expected string total cell", by simp [getTotalsLoop, hempty]⟩
          | num x =>
              cases tc with
              | str v => exact ⟨"expected string name cell", by simp [getTotalsLoop, hempty]⟩
              | num x2 => exact ⟨"expected string name cell", by simp [getTotalsLoop, hempty]⟩
              | null => exact ⟨"expected string name cell", by simp [getTotalsLoop, hempty]⟩
          | null =>
              cases tc with
              | str v => exact ⟨"expected string name cell", by simp [getTotalsLoop, hempty]⟩
              | num x2 => exact ⟨"expected string name cell", by simp [getTotalsLoop, hempty]⟩
              | null => exact ⟨"expected string name cell", by simp [getTotalsLoop, hempty]⟩
      · have hrest : ∃ p ∈ rest, entryBad om p = true := by
          rcases h with ⟨q, hq, hqb⟩
          rcases List.mem_cons.mp hq with rfl | hmem
          · exact absurd hqb hbad
          · exact ⟨q, hmem, hqb⟩
        obtain ⟨e, he⟩ := ih hrest
        by_cases hempty : tc = Cell.str ""
        · exact ⟨e, by simpa [getTotalsLoop, hempty] using he⟩
        · simp only [entryBad, hempty] at hbad
          cases nc with
          | str n =>
              cases tc with
              | str v =>
                  rcases hlk : List.lookup n om with _ | opt
                  · exact ⟨e, by simp [getTotalsLoop, hempty, hlk, he]⟩
                  · simp only [hlk] at hbad
                    rcases hpd : parseDec v with _ | q
                    · simp only [hpd] at hbad; simp at hbad
                    · exact ⟨e, by simp [getTotalsLoop, hempty, hlk, hpd, Except.map, he]⟩
              | num x => simp at hbad
              | null => simp at hbad
          | num x => simp at hbad
          | null => simp at hbad

/-- C7 (counterexample to the claim as stated): an aggregate entry with
the non-empty total "abc" — a numeric field that fails to parse — under a
key "zzz" that resolves to no catalog option is silently dropped, and the
whole call succeeds with no totals; the claim as stated requires an error
for this call. -/
theorem getTotals_unknownKey_malformed_ok :
    GetTotals exCatalog [Cell.str "zzz"] [Cell.str "abc"] = Except.ok []
    ∧ parseDec "abc" = none := by
  constructor
  · rfl
  · rfl

/-- C7 (amended): `GetTotals` succeeds, skipping (without error) every
entry whose total is empty or whose string key does not resolve to a
catalog option, exactly when no entry is bad; and it fails for the whole
call — producing no totals at all — as soon as some entry with a
non-empty total has a non-string cell, or a catalog-resolvable key whose
numeric field fails to parse. -/
theorem getTotals_spec (c : Collection) (rawNames rawTotals : List Cell) :
    ((∀ p ∈ rawNames.zip rawTotals, entryBad (optsMap c) p = false) →
      GetTotals c rawNames rawTotals =
        Except.ok ((rawNames.zip rawTotals).filterMap (goodTotal (optsMap c))))
    ∧ ((∃ p ∈ rawNames.zip rawTotals, entryBad (optsMap c) p = true) →
      ∃ e, GetTotals c rawNames rawTotals = Except.error e) :=
  ⟨fun h => getTotalsLoop_ok _ _ h, fun h => getTotalsLoop_bad _ _ h⟩

/-- Witness for C7 (amended): a good column pair (a known key "moo" worth
10.00, an unknown key skipped, an empty total skipped), and a bad column
pair (known key "neo" with the unparseable total "abc"). -/
theorem getTotals_spec_witness :
    GetTotals exCatalog [Cell.str "moo", Cell.str "zzz", Cell.str "neo"]
        [Cell.str "10.00", Cell.str "7.77", Cell.str ""] =
      Except.ok [⟨⟨"Moo Moo Meadows", "moo", ["moo", "moomoo"], false⟩, 1000⟩]
    ∧ (∃ e, GetTotals exCatalog [Cell.str "neo"] [Cell.str "abc"] = Except.error e) := by
  constructor
  · have h := (getTotals_spec exCatalog [Cell.str "moo", Cell.str "zzz", Cell.str "neo"]
      [Cell.str "10.00", Cell.str "7.77", Cell.str ""]).1 (by decide)
    rw [h]
    congr 1
  · exact (getTotals_spec exCatalog [Cell.str "neo"] [Cell.str "abc"]).2
      ⟨(Cell.str "neo", Cell.str "abc"), by decide, by decide⟩

/-! ## Claim C1 -/

theorem makeChoiceLoop_foldl (donor : String) (choice : Choice) (rows : List Row)
    (a b : List Row) :
    rows.foldl
      (fun acc row =>
        if rowMatches donor row then
          (acc.1 ++ [rowForChoice choice], acc.2 ++ [row])
        else
          (acc.1 ++ [([] : Row)], acc.2)) (a, b) =
      (a ++ rows.map (fun row => if rowMatches donor row then rowForChoice choice else []),
       b ++ rows.filter (rowMatches donor)) := by
  induction rows generalizing a b with
  | nil => simp
  | cons r rest ih =>
      by_cases h : rowMatches donor r
      · simp [h, ih, List.filter_cons]
      · simp [h, ih, List.filter_cons]

theorem makeChoiceLoop_eq (donor : String) (choice : Choice) (rows : List Row) :
    makeChoiceLoop donor choice rows =
      (rows.map (fun row => if rowMatches donor row then rowForChoice choice else []),
       rows.filter (rowMatches donor)) := by
  simpa [makeChoiceLoop] using makeChoiceLoop_foldl donor choice rows [] []

/-- C1: `makeChoice` writes the choice (its option short code and its
reason, via `rowForChoice`) into exactly those rows whose contributor
column equals the donor case-insensitively and whose choice column is the
empty string; every other row — in particular every row with a non-empty
choice column — is emitted as an empty delta and left untouched; the
matched rows are returned in order; and on the success path
`AssignFromMessage` returns an `UpdateStats` whose `count` is the number
of matched rows and whose `totalValue` is the sum of the matched rows'
cent values. -/
theorem makeChoice_assignment (c : Collection) (vr : ValueRange)
    (donor msg : String) (choice : Choice) :
    ((makeChoice vr donor choice).1.values.length = vr.values.length)
    ∧ (∀ (i : Nat) (row : Row), vr.values[i]? = some row →
        (makeChoice vr donor choice).1.values[i]? =
          some (if equalFold row.Contributor donor ∧ row.Choice = "" then
                  rowForChoice choice
                else []))
    ∧ ((makeChoice vr donor choice).2 = vr.values.filter (rowMatches donor))
    ∧ (∀ (rnd : Nat → Nat) (ch : Choice) (wn : Nat), donor ≠ "" →
        ChoiceFromMessage c msg .FromBidCommand rnd = some ch →
        ch.option.IsZero = false →
        AssignFromMessage c donor msg rnd (Except.ok vr) (Except.ok wn) =
          some (Except.ok
            ⟨ch, (vr.values.filter (rowMatches donor)).length,
             ((vr.values.filter (rowMatches donor)).map Row.Cents).sum⟩)) := by
  have hmc := makeChoiceLoop_eq donor choice vr.values
  refine ⟨?_, ?_, ?_, ?_⟩
  · simp [makeChoice, hmc]
  · intro i row hrow
    have : (makeChoice vr donor choice).1.values[i]? =
        some (if rowMatches donor row then rowForChoice choice else []) := by
      simp [makeChoice, hmc, List.getElem?_map, hrow]
    rw [this]
    by_cases h : equalFold row.Contributor donor ∧ row.Choice = ""
    · rw [if_pos h, if_pos]
      simp [rowMatches, h.1, h.2]
    · rw [if_neg h, if_neg]
      intro hb
      simp only [rowMatches, Bool.and_eq_true, decide_eq_true_eq] at hb
      exact h ⟨hb.1, hb.2⟩
  · simp [makeChoice, hmc]
  · intro rnd ch wn hd hch hz
    have hmc2 := makeChoiceLoop_eq donor ch vr.values
    simp only [AssignFromMessage, if_neg hd, hch, hz, Bool.false_eq_true, if_false,
      makeChoice, hmc2]
    split
    · rfl
    · rfl

/-- The ledger of `bidwar_test.go`: a header row, two rows with no choice
column, one row with a blank choice, and one already-assigned row. -/
def exVR : ValueRange :=
  ⟨"ROWS", "Tracker!A:E",
   [[Cell.str "Contributor", Cell.str "What", Cell.str "Points", Cell.str "Choice",
     Cell.str "Message"],
    [Cell.str "aerionblue", Cell.str "resub", Cell.str "5.00"],
    [Cell.str "AEWC20XX", Cell.str "resub", Cell.str "5.00"],
    [Cell.str "aerionblue", Cell.str "200 bits", Cell.str "2.00", Cell.str "", Cell.str ""],
    [Cell.str "aerionblue", Cell.str "donation", Cell.str "5.01", Cell.str "Leon",
     Cell.str "put this towards Leon"]]⟩

/-- Witness for C1: donor "aerionblue" bidding "!bid moo please" against
the example ledger updates the two blank rows (the header, the
other-donor row, and the already-assigned row are untouched) for a total
of 700 cents. -/
theorem makeChoice_assignment_witness :
    AssignFromMessage exCatalog "aerionblue" "!bid moo please" (fun _ => 0)
        (Except.ok exVR) (Except.ok 2) =
      some (Except.ok
        ⟨⟨⟨"Moo Moo Meadows", "moo", ["moo", "moomoo"], false⟩, ""⟩, 2, 700⟩) := by
  have h := (makeChoice_assignment exCatalog exVR "aerionblue" "!bid moo please"
      Choice.zero).2.2.2 (fun _ => 0)
      ⟨⟨"Moo Moo Meadows", "moo", ["moo", "moomoo"], false⟩, ""⟩ 2
      (by decide) (by decide) (by decide)
  rw [h]
  rfl

/-! ## Claim C3 -/

/-- C3 (counterexample to the claim as stated): the non-empty message
"hello" matches no option of the example catalog and contains no random
directive, and in the explicit `!bid` context (`FromBidCommand`) the
returned `Choice` has the zero option and an *empty* reason — Go
`reasonString` has no switch case for `FromBidCommand` and falls through
to `return ""`. -/
theorem choiceFromMessage_bid_reason_empty :
    ChoiceFromMessage exCatalog "hello" .FromBidCommand (fun _ => 0) =
      some ⟨BWOption.zero, ""⟩ := by
  decide

theorem scanAliases_no_match (msg : String) (o : BWOption) (aliases : List String)
    (h : ∀ a ∈ aliases, findStringIndex a msg = none) (st : Int × BWOption) :
    aliases.foldl (scanAlias msg o) st = st := by
  induction aliases generalizing st with
  | nil => rfl
  | cons a as ih =>
      rw [List.foldl_cons,
        show scanAlias msg o st a = st by
          simp [scanAlias, h a (List.mem_cons_self _ _)]]
      exact ih (fun a2 ha => h a2 (List.mem_cons_of_mem _ ha)) st

theorem scanOptions_no_match (opts : List BWOption) (msg : String)
    (h : ∀ o ∈ opts, ∀ a ∈ o.aliases, findStringIndex a msg = none) :
    scanOptions opts msg = (-1, BWOption.zero) := by
  unfold scanOptions
  induction opts with
  | nil => rfl
  | cons o rest ih =>
      rw [List.foldl_cons,
        scanAliases_no_match msg o o.aliases (h o (List.mem_cons_self _ _)) _]
      exact ih (fun o2 ho2 a ha => h o2 (List.mem_cons_of_mem _ ho2) a ha)

theorem append_ne_empty_of_left (p q : String) (hp : p.data ≠ []) : p ++ q ≠ "" := by
  intro hc
  have : (p ++ q).data = ("" : String).data := by rw [hc]
  rw [String.data_append] at this
  rcases List.append_eq_nil.mp this with ⟨h1, _⟩
  exact hp h1

/-- C3 (amended): when the scan is not suppressed by explicit-only mode,
the message is non-empty, no alias of any open option matches, and the
random directive is absent, `ChoiceFromMessage` returns the zero option
with the provenance reason string — which is non-empty for the chat,
donation-message and sub-message contexts, but empty for the explicit
`!bid` command context (`reasonString` has no case for it). -/
theorem choiceFromMessage_reason_provenance (c : Collection) (msg : String)
    (reason : ChoiceReason) (rnd : Nat → Nat)
    (hexp : c.requireExplicitBid = false)
    (hmsg : msg ≠ "")
    (hmatch : allMatches c msg = [])
    (hrand : containsRandom msg = false) :
    ChoiceFromMessage c msg reason rnd = some ⟨BWOption.zero, reasonString reason msg⟩
    ∧ (reason ≠ .FromBidCommand → reasonString reason msg ≠ "")
    ∧ (reason = .FromBidCommand → reasonString reason msg = "") := by
  have hnone : ∀ o ∈ AllOpenOptions c, ∀ a ∈ o.aliases, findStringIndex a msg = none := by
    intro o ho a ha
    rcases hf : findStringIndex a msg with _ | idx
    · rfl
    · exfalso
      have hmem : (idx, o) ∈ allMatches c msg := by
        unfold allMatches
        refine List.mem_flatMap.mpr ⟨o, ho, ?_⟩
        refine List.mem_filterMap.mpr ⟨a, ha, ?_⟩
        rw [hf]; rfl
      rw [hmatch] at hmem
      exact List.not_mem_nil _ hmem
  have hscan := scanOptions_no_match (AllOpenOptions c) msg hnone
  refine ⟨?_, ?_, ?_⟩
  · unfold ChoiceFromMessage
    rw [if_neg (by simp [hexp])]
    simp only [hscan, hrand]
    norm_num
  · intro hr
    cases reason with
    | FromChatMessage =>
        simp only [reasonString, if_neg hmsg]
        exact append_ne_empty_of_left _ _ (by decide)
    | FromDonationMessage =>
        simp only [reasonString, if_neg hmsg]
        exact append_ne_empty_of_left _ _ (by decide)
    | FromSubMessage =>
        simp only [reasonString, if_neg hmsg]
        exact append_ne_empty_of_left _ _ (by decide)
    | FromBidCommand => exact absurd rfl hr
  · intro hr
    subst hr
    simp [reasonString, hmsg]

/-- Witness for C3 (amended): the message "hello" against the example
catalog, in the sub-message context (non-empty reason) and in the `!bid`
context (empty reason). -/
theorem choiceFromMessage_reason_provenance_witness :
    (ChoiceFromMessage exCatalog "hello" .FromSubMessage (fun _ => 0) =
        some ⟨BWOption.zero, reasonString .FromSubMessage "hello"⟩
      ∧ (ChoiceReason.FromSubMessage ≠ .FromBidCommand →
          reasonString .FromSubMessage "hello" ≠ "")
      ∧ (ChoiceReason.FromSubMessage = .FromBidCommand →
          reasonString .FromSubMessage "hello" = ""))
    ∧ (ChoiceFromMessage exCatalog "hello" .FromBidCommand (fun _ => 0) =
        some ⟨BWOption.zero, reasonString .FromBidCommand "hello"⟩
      ∧ (ChoiceReason.FromBidCommand ≠ .FromBidCommand →
          reasonString .FromBidCommand "hello" ≠ "")
      ∧ (ChoiceReason.FromBidCommand = .FromBidCommand →
          reasonString .FromBidCommand "hello" = "")) :=
  ⟨choiceFromMessage_reason_provenance exCatalog "hello" .FromSubMessage (fun _ => 0)
      (by decide) (by decide) (by decide) (by decide),
   choiceFromMessage_reason_provenance exCatalog "hello" .FromBidCommand (fun _ => 0)
      (by decide) (by decide) (by decide) (by decide)⟩

/-! ## Claim C4 -/

/-- The matches contributed by the aliases of a single option, in alias
order. -/
def optMatches (msg : String) (o : BWOption) : List (Nat × BWOption) :=
  o.aliases.filterMap (fun a => (findStringIndex a msg).map (fun i => (i, o)))

theorem allMatches_eq (c : Collection) (msg : String) :
    allMatches c msg = (AllOpenOptions c).flatMap (optMatches msg) := rfl

theorem scanAlias_encode (msg : String) (opt : BWOption)
    (best : Option (Nat × BWOption)) (a : String) :
    scanAlias msg opt (encodeScan best) a =
      encodeScan ((findStringIndex a msg).map (fun i => (i, opt))
        |>.elim best (stepMin best)) := by
  rcases hf : findStringIndex a msg with _ | idx
  · simp [scanAlias, hf, Option.elim]
  · cases best with
    | none =>
        simp [scanAlias, hf, encodeScan, stepMin, Option.elim]
    | some b =>
        by_cases h : idx < b.1
        · have hcond : ((b.1 : Int) > (idx : Int) ∨ (b.1 : Int) < 0) :=
            Or.inl (by exact_mod_cast h)
          simp [scanAlias, hf, stepMin, h, encodeScan, Option.elim, hcond]
        · have hcond : ¬((b.1 : Int) > (idx : Int) ∨ (b.1 : Int) < 0) := by
            push_neg
            exact ⟨by exact_mod_cast Nat.le_of_not_lt h, Int.natCast_nonneg _⟩
          simp [scanAlias, hf, stepMin, h, encodeScan, Option.elim, hcond]

theorem scanAliases_encode (msg : String) (opt : BWOption) (aliases : List String)
    (best : Option (Nat × BWOption)) :
    aliases.foldl (scanAlias msg opt) (encodeScan best) =
      encodeScan ((aliases.filterMap
        (fun a => (findStringIndex a msg).map (fun i => (i, opt)))).foldl stepMin best) := by
  induction aliases generalizing best with
  | nil => rfl
  | cons a rest ih =>
      rw [List.foldl_cons, scanAlias_encode, List.filterMap_cons]
      rcases hf : findStringIndex a msg with _ | idx
      · simp only [hf, Option.map_none, Option.elim]
        exact ih best
      · simp only [hf, Option.map_some, Option.elim, List.foldl_cons]
        exact ih (stepMin best (idx, opt))

theorem scanOptions_encode (opts : List BWOption) (msg : String)
    (best : Option (Nat × BWOption)) :
    opts.foldl (fun st opt => opt.aliases.foldl (scanAlias msg opt) st) (encodeScan best) =
      encodeScan ((opts.flatMap (optMatches msg)).foldl stepMin best) := by
  induction opts generalizing best with
  | nil => rfl
  | cons o rest ih =>
      rw [List.foldl_cons, scanAliases_encode, List.flatMap_cons, List.foldl_append]
      exact ih _

theorem scanOptions_eq_argmin (c : Collection) (msg : String) :
    scanOptions (AllOpenOptions c) msg = encodeScan (argminFirst (allMatches c msg)) := by
  have := scanOptions_encode (AllOpenOptions c) msg none
  simpa [scanOptions, encodeScan, argminFirst, allMatches_eq] using this

theorem foldl_stepMin_spec (l : List (Nat × BWOption)) (b : Nat × BWOption) :
    ∃ r, List.foldl stepMin (some b) l = some r ∧
      ((r = b ∧ ∀ x ∈ l, b.1 ≤ x.1) ∨
       (∃ pre post, l = pre ++ r :: post ∧ r.1 < b.1 ∧ (∀ x ∈ pre, r.1 < x.1) ∧
         (∀ x ∈ l, r.1 ≤ x.1))) := by
  induction l generalizing b with
  | nil => exact ⟨b, rfl, Or.inl ⟨rfl, by simp⟩⟩
  | cons x xs ih =>
      by_cases h : x.1 < b.1
      · obtain ⟨r, hr, hspec⟩ := ih x
        refine ⟨r, ?_, ?_⟩
        · rw [List.foldl_cons, show stepMin (some b) x = some x by simp [stepMin, h]]
          exact hr
        · rcases hspec with ⟨rfl, hmin⟩ | ⟨pre, post, hdec, hlt, hpre, hmin⟩
          · refine Or.inr ⟨[], xs, rfl, h, by simp, ?_⟩
            intro y hy
            rcases List.mem_cons.mp hy with rfl | hy
            · exact le_refl _
            · exact hmin y hy
          · refine Or.inr ⟨x :: pre, post, by rw [hdec]; rfl, hlt.trans h, ?_, ?_⟩
            · intro y hy
              rcases List.mem_cons.mp hy with rfl | hy
              · exact hlt
              · exact hpre y hy
            · intro y hy
              rcases List.mem_cons.mp hy with rfl | hy
              · exact le_of_lt hlt
              · exact hmin y hy
      · obtain ⟨r, hr, hspec⟩ := ih b
        refine ⟨r, ?_, ?_⟩
        · rw [List.foldl_cons, show stepMin (some b) x = some b by simp [stepMin, h]]
          exact hr
        · rcases hspec with ⟨rfl, hmin⟩ | ⟨pre, post, hdec, hlt, hpre, hmin⟩
          · refine Or.inl ⟨rfl, ?_⟩
            intro y hy
            rcases List.mem_cons.mp hy with rfl | hy
            · exact le_of_not_lt h
            · exact hmin y hy
          · refine Or.inr ⟨x :: pre, post, by rw [hdec]; rfl, hlt, ?_, ?_⟩
            · intro y hy
              rcases List.mem_cons.mp hy with rfl | hy
              · exact hlt.trans_le (le_of_not_lt h)
              · exact hpre y hy
            · intro y hy
              rcases List.mem_cons.mp hy with rfl | hy
              · exact le_of_lt (hlt.trans_le (le_of_not_lt h))
              · exact hmin y hy

theorem argminFirst_spec (l : List (Nat × BWOption)) (hne : l ≠ []) :
    ∃ m, argminFirst l = some m ∧
      (∀ x ∈ l, m.1 ≤ x.1) ∧
      (∃ pre post, l = pre ++ m :: post ∧ ∀ x ∈ pre, m.1 < x.1) := by
  rcases l with _ | ⟨x, xs⟩
  · exact absurd rfl hne
  · obtain ⟨r, hr, hspec⟩ := foldl_stepMin_spec xs x
    refine ⟨r, by simpa [argminFirst, stepMin] using hr, ?_, ?_⟩
    · rcases hspec with ⟨rfl, hmin⟩ | ⟨pre, post, hdec, hlt, hpre, hmin⟩
      · intro y hy
        rcases List.mem_cons.mp hy with rfl | hy
        · exact le_refl _
        · exact hmin y hy
      · intro y hy
        rcases List.mem_cons.mp hy with rfl | hy
        · exact le_of_lt hlt
        · exact hmin y hy
    · rcases hspec with ⟨rfl, hmin⟩ | ⟨pre, post, hdec, hlt, hpre, hmin⟩
      · exact ⟨[], xs, rfl, by simp⟩
      · refine ⟨x :: pre, post, by rw [hdec]; rfl, ?_⟩
        intro y hy
        rcases List.mem_cons.mp hy with rfl | hy
        · exact hlt
        · exact hpre y hy

/-- C4: when at least one alias of an open option matches the message (and
the scan is not suppressed by explicit-only mode), `ChoiceFromMessage`
returns the option whose matching alias starts at the smallest offset;
among matches at the same smallest offset, the first in catalog iteration
order (first contest, first option, first alias) wins and is not
overwritten by later equal-offset matches: the returned option is the
first element of the match list attaining the minimal offset. -/
theorem choiceFromMessage_earliest (c : Collection) (msg : String)
    (reason : ChoiceReason) (rnd : Nat → Nat)
    (hexp : ¬(c.requireExplicitBid = true ∧ reason ≠ .FromBidCommand))
    (hne : allMatches c msg ≠ []) :
    ∃ m, argminFirst (allMatches c msg) = some m ∧
      (∀ x ∈ allMatches c msg, m.1 ≤ x.1) ∧
      (∃ pre post, allMatches c msg = pre ++ m :: post ∧ ∀ x ∈ pre, m.1 < x.1) ∧
      ChoiceFromMessage c msg reason rnd = some ⟨m.2, reasonString reason msg⟩ := by
  obtain ⟨m, hm, hmin, hfirst⟩ := argminFirst_spec (allMatches c msg) hne
  refine ⟨m, hm, hmin, hfirst, ?_⟩
  unfold ChoiceFromMessage
  rw [if_neg (by simpa using hexp)]
  have hscan : scanOptions (AllOpenOptions c) msg = ((m.1 : Int), m.2) := by
    rw [scanOptions_eq_argmin, hm]; rfl
  simp only [hscan]
  rw [if_neg]
  intro hcontra
  exact absurd hcontra.1 (Int.natCast_nonneg m.1).not_lt

/-- Witness for C4: "nbc, no i meant moo moo" matches the alias "nbc" of
Neo Bowser City at offset 0 and "moo" of Moo Moo Meadows at offset 16; the
earliest (offset 0) match wins. -/
theorem choiceFromMessage_earliest_witness :
    ∃ m, argminFirst (allMatches exCatalog "nbc, no i meant moo moo") = some m ∧
      (∀ x ∈ allMatches exCatalog "nbc, no i meant moo moo", m.1 ≤ x.1) ∧
      (∃ pre post, allMatches exCatalog "nbc, no i meant moo moo" = pre ++ m :: post ∧
        ∀ x ∈ pre, m.1 < x.1) ∧
      ChoiceFromMessage exCatalog "nbc, no i meant moo moo" .FromChatMessage (fun _ => 0) =
        some ⟨m.2, reasonString .FromChatMessage "nbc, no i meant moo moo"⟩ :=
  choiceFromMessage_earliest exCatalog "nbc, no i meant moo moo" .FromChatMessage
    (fun _ => 0) (by decide) (by decide)

/-! ## The Go 1.16 `sort.Sort` algorithm

`TotalsForContest` and `computeRanks` sort with
`sort.Sort(sort.Reverse(byCents(...)))`.  Go 1.16 `sort.Sort` is the
classic introsort of `sort.go`: quicksort with median-of-three (or
median-of-nine) pivoting, a depth limit falling back to heapsort, and a
gap-6 shell pass followed by insertion sort for ranges of at most 12
elements.  It is embedded below, faithfully, on lists with index-based
swaps.  `less` is the element-level comparator (`data.Less i j` is
`less l[i] l[j]`) and `dflt` a default element for out-of-range reads
(never used by in-range executions). -/

section GoSort

variable {α : Type} (less : α → α → Bool) (dflt : α)

/-- `data.Swap i j` on a list (identity when an index is out of range). -/
def aswap (l : List α) (i j : Nat) : List α :=
  match l[i]?, l[j]? with
  | some x, some y => (l.set i y).set j x
  | _, _ => l

/-- Read the element at index `i`. -/
def aget (l : List α) (i : Nat) : α := l.getD i dflt

/-- The inner loop of `insertionSort`:
`for j := i; j > a && data.Less(j, j-1); j-- \x7b data.Swap(j, j-1) \x7d`. -/
def insInner (a : Nat) : List α → Nat → List α
  | l, 0 => l
  | l, j + 1 =>
      if a < j + 1 ∧ less (aget dflt l (j + 1)) (aget dflt l j) then
        insInner a (aswap l (j + 1) j) j
      else l

/-- Go `insertionSort(data, a, b)`; the outer `for i := a + 1; i < b; i++`
loop is a fold over the index range. -/
def insertionSort (l : List α) (a b : Nat) : List α :=
  (List.range' (a + 1) (b - (a + 1))).foldl (fun l i => insInner less dflt a l i) l

/-- The child selected by the `siftDown` loop: the left child `2*root+1`,
or the right child when it exists and is larger
(`if child+1 < hi && data.Less(first+child, first+child+1) \x7b child++ \x7d`). -/
def sdChild (l : List α) (hi first root : Nat) : Nat :=
  if 2 * root + 1 + 1 < hi ∧
      less (aget dflt l (first + (2 * root + 1))) (aget dflt l (first + (2 * root + 1) + 1))
  then 2 * root + 1 + 1 else 2 * root + 1

/-- The loop of Go `siftDown(data, lo, hi, first)`, with current `root`. -/
def siftDownLoop (hi first : Nat) (l : List α) (root : Nat) : List α :=
  if h : 2 * root + 1 ≥ hi then l
  else
    if less (aget dflt l (first + root)) (aget dflt l (first + sdChild less dflt l hi first root))
    then
      siftDownLoop hi first (aswap l (first + root) (first + sdChild less dflt l hi first root))
        (sdChild less dflt l hi first root)
    else l
termination_by hi - root
decreasing_by
  simp only [ge_iff_le, not_le] at h
  unfold sdChild
  split <;> omega

/-- Go `siftDown(data, lo, hi, first)`. -/
def siftDown (l : List α) (lo hi first : Nat) : List α :=
  siftDownLoop less dflt hi first l lo

/-- The heap-construction loop of `heapSort`, iterating `i` from
`(hi-1)/2` down to `0`. -/
def heapBuild (hi first : Nat) : List α → Nat → List α
  | l, 0 => siftDown less dflt l 0 hi first
  | l, i + 1 => heapBuild hi first (siftDown less dflt l (i + 1) hi first) i

/-- The pop loop of `heapSort`, iterating `i` from `hi-1` down to `0`:
`data.Swap(first, first+i); siftDown(data, lo, i, first)` with `lo = 0`. -/
def heapPop (first : Nat) : List α → Nat → List α
  | l, 0 => siftDown less dflt (aswap l first first) 0 0 first
  | l, i + 1 =>
      heapPop first (siftDown less dflt (aswap l first (first + (i + 1))) 0 (i + 1) first) i

/-- Go `heapSort(data, a, b)`: build the heap (`first := a`,
`hi := b - a`), then pop `hi` elements, largest first. -/
def heapSort (l : List α) (a b : Nat) : List α :=
  match b - a with
  | 0 => heapBuild less dflt (b - a) a l ((b - a - 1) / 2)
  | h + 1 => heapPop less dflt a (heapBuild less dflt (b - a) a l ((b - a - 1) / 2)) h

/-- `if data.Less(m1, m0) \x7b data.Swap(m1, m0) \x7d`: the conditional swap
used by `medianOfThree`. -/
def med3c (l : List α) (m1 m0 : Nat) : List α :=
  if less (aget dflt l m1) (aget dflt l m0) then aswap l m1 m0 else l

/-- The second half of `medianOfThree`: `if data.Less(m2, m1) \x7b
data.Swap(m2, m1); if data.Less(m1, m0) \x7b data.Swap(m1, m0) \x7d \x7d`. -/
def med3b (l : List α) (m1 m0 m2 : Nat) : List α :=
  if less (aget dflt l m2) (aget dflt l m1) then med3c less dflt (aswap l m2 m1) m1 m0
  else l

/-- Go `medianOfThree(data, m1, m0, m2)`: sorts the three elements so that
`data[m0] <= data[m1] <= data[m2]`. -/
def medianOfThree (l : List α) (m1 m0 m2 : Nat) : List α :=
  med3b less dflt (med3c less dflt l m1 m0) m1 m0 m2

/-- The first scan of `doPivot`:
`for ; a < c && data.Less(a, pivot); a++`. -/
def scanLt (l : List α) (pivot c a : Nat) : Nat :=
  if h : a < c ∧ less (aget dflt l a) (aget dflt l pivot) then scanLt l pivot c (a + 1)
  else a
termination_by c - a
decreasing_by omega

/-- The `b` scan of the `doPivot` main loop:
`for ; b < c && !data.Less(pivot, b); b++`. -/
def scanLe (l : List α) (pivot c b : Nat) : Nat :=
  if h : b < c ∧ ¬ less (aget dflt l pivot) (aget dflt l b) then scanLe l pivot c (b + 1)
  else b
termination_by c - b
decreasing_by omega

/-- The `c` scan of the `doPivot` main loop:
`for ; b < c && data.Less(pivot, c-1); c--`. -/
def scanGt (l : List α) (pivot b c : Nat) : Nat :=
  if h : b < c ∧ less (aget dflt l pivot) (aget dflt l (c - 1)) then scanGt l pivot b (c - 1)
  else c
termination_by c
decreasing_by omega

/-- The `b` scan of the protection loop of `doPivot`:
`for ; a < b && !data.Less(b-1, pivot); b--`. -/
def scanEqRight (l : List α) (pivot a b : Nat) : Nat :=
  if h : a < b ∧ ¬ less (aget dflt l (b - 1)) (aget dflt l pivot) then
    scanEqRight l pivot a (b - 1)
  else b
termination_by b
decreasing_by omega

/-- The `a` scan of the protection loop of `doPivot`:
`for ; a < b && data.Less(a, pivot); a++`. -/
def scanLtLeft (l : List α) (pivot b a : Nat) : Nat :=
  if h : a < b ∧ less (aget dflt l a) (aget dflt l pivot) then scanLtLeft l pivot b (a + 1)
  else a
termination_by b - a
decreasing_by omega

theorem scanLe_le (l : List α) (pivot c b : Nat) : b ≤ scanLe less dflt l pivot c b := by
  unfold scanLe
  split
  · next h => exact le_trans (Nat.le_succ b) (scanLe_le l pivot c (b + 1))
  · exact le_refl b
termination_by c - b
decreasing_by omega

theorem scanGt_le (l : List α) (pivot b c : Nat) : scanGt less dflt l pivot b c ≤ c := by
  unfold scanGt
  split
  · next h => exact le_trans (scanGt_le l pivot b (c - 1)) (Nat.sub_le c 1)
  · exact le_refl c
termination_by c
decreasing_by omega

theorem scanEqRight_le (l : List α) (pivot a b : Nat) :
    scanEqRight less dflt l pivot a b ≤ b := by
  unfold scanEqRight
  split
  · next h => exact le_trans (scanEqRight_le l pivot a (b - 1)) (Nat.sub_le b 1)
  · exact le_refl b
termination_by b
decreasing_by omega

theorem scanLtLeft_le (l : List α) (pivot b a : Nat) :
    a ≤ scanLtLeft less dflt l pivot b a := by
  unfold scanLtLeft
  split
  · next h => exact le_trans (Nat.le_succ a) (scanLtLeft_le l pivot b (a + 1))
  · exact le_refl a
termination_by b - a
decreasing_by omega

/-- The main partition loop of `doPivot`; returns the final state and the
final `b` and `c`.  Each round runs the two scans, then either swaps
`data[b], data[c-1]` and continues with `b+1, c-1`, or stops. -/
def partLoop (pivot : Nat) (l : List α) (b c : Nat) : List α × Nat × Nat :=
  if h : scanLe less dflt l pivot c b <
      scanGt less dflt l pivot (scanLe less dflt l pivot c b) c then
    partLoop pivot
      (aswap l (scanLe less dflt l pivot c b)
        (scanGt less dflt l pivot (scanLe less dflt l pivot c b) c - 1))
      (scanLe less dflt l pivot c b + 1)
      (scanGt less dflt l pivot (scanLe less dflt l pivot c b) c - 1)
  else (l, scanLe less dflt l pivot c b,
    scanGt less dflt l pivot (scanLe less dflt l pivot c b) c)
termination_by c - b
decreasing_by
  have hb : b ≤ scanLe less dflt l pivot c b := scanLe_le ..
  have hc : scanGt less dflt l pivot (scanLe less dflt l pivot c b) c ≤ c := scanGt_le ..
  omega

/-- The duplicate-protection loop of `doPivot`; returns the final state
and the final `a` and `b`. -/
def protLoop (pivot : Nat) (l : List α) (a b : Nat) : List α × Nat × Nat :=
  if h : scanLtLeft less dflt l pivot (scanEqRight less dflt l pivot a b) a <
      scanEqRight less dflt l pivot a b then
    protLoop pivot
      (aswap l (scanLtLeft less dflt l pivot (scanEqRight less dflt l pivot a b) a)
        (scanEqRight less dflt l pivot a b - 1))
      (scanLtLeft less dflt l pivot (scanEqRight less dflt l pivot a b) a + 1)
      (scanEqRight less dflt l pivot a b - 1)
  else (l, scanLtLeft less dflt l pivot (scanEqRight less dflt l pivot a b) a,
    scanEqRight less dflt l pivot a b)
termination_by b - a
decreasing_by
  have hb : scanEqRight less dflt l pivot a b ≤ b := scanEqRight_le ..
  have ha : a ≤ scanLtLeft less dflt l pivot (scanEqRight less dflt l pivot a b) a :=
    scanLtLeft_le ..
  omega

/-- The median-of-nine pivot refinement of `doPivot`, applied when
`hi - lo > 40` (with `s := (hi-lo)/8` and `m := (lo+hi)/2`). -/
def ninther (l : List α) (lo hi : Nat) : List α :=
  if hi - lo > 40 then
    medianOfThree less dflt
      (medianOfThree less dflt
        (medianOfThree less dflt l lo (lo + (hi - lo) / 8) (lo + 2 * ((hi - lo) / 8)))
        ((lo + hi) / 2) ((lo + hi) / 2 - (hi - lo) / 8) ((lo + hi) / 2 + (hi - lo) / 8))
      (hi - 1) (hi - 1 - (hi - lo) / 8) (hi - 1 - 2 * ((hi - lo) / 8))
  else l

/-- First point test of the duplicate block, on state `(data, c, b, dups)`:
`if !data.Less(pivot, hi-1) \x7b data.Swap(c, hi-1); c++; dups++ \x7d`. -/
def dupStep1 (pivot hi : Nat) (s : List α × Nat × Nat × Nat) : List α × Nat × Nat × Nat :=
  if less (aget dflt s.1 pivot) (aget dflt s.1 (hi - 1)) = false then
    (aswap s.1 s.2.1 (hi - 1), s.2.1 + 1, s.2.2.1, s.2.2.2 + 1)
  else s

/-- Second point test of the duplicate block:
`if !data.Less(b-1, pivot) \x7b b--; dups++ \x7d`. -/
def dupStep2 (pivot : Nat) (s : List α × Nat × Nat × Nat) : List α × Nat × Nat × Nat :=
  if less (aget dflt s.1 (s.2.2.1 - 1)) (aget dflt s.1 pivot) = false then
    (s.1, s.2.1, s.2.2.1 - 1, s.2.2.2 + 1)
  else s

/-- Third point test of the duplicate block:
`if !data.Less(m, pivot) \x7b data.Swap(m, b-1); b--; dups++ \x7d`. -/
def dupStep3 (pivot m : Nat) (s : List α × Nat × Nat × Nat) : List α × Nat × Nat × Nat :=
  if less (aget dflt s.1 m) (aget dflt s.1 pivot) = false then
    (aswap s.1 m (s.2.2.1 - 1), s.2.1, s.2.2.1 - 1, s.2.2.2 + 1)
  else s

/-- Repackage the duplicate-block state `(data, c, b, dups)` as
`(data, b, c, protect)` with `protect = dups > 1`. -/
def dupFinish (t : List α × Nat × Nat × Nat) : List α × Nat × Nat × Bool :=
  (t.1, t.2.2.1, t.2.1, decide (t.2.2.2 > 1))

/-- The duplicate-protection decision of `doPivot`, on the partition-loop
result `s = (data, b, c)`: when `protect` is not already forced by
`hi-c < 5` and `hi-c < (hi-lo)/4`, test three points for equality to the
pivot and protect when at least two are equal; returns
`(data, b, c, protect)`. -/
def doPivotDup (pivot lo hi m : Nat) (s : List α × Nat × Nat) : List α × Nat × Nat × Bool :=
  if ¬ (hi - s.2.2 < 5) ∧ hi - s.2.2 < (hi - lo) / 4 then
    dupFinish
      (dupStep3 less dflt pivot m
        (dupStep2 less dflt pivot (dupStep1 less dflt pivot hi (s.1, s.2.2, s.2.1, 0))))
  else (s.1, s.2.1, s.2.2, decide (hi - s.2.2 < 5))

/-- The tail of `doPivot` after the duplicate block, on state
`(data, b, c, protect)`: run the protection loop when `protect`, then
`data.Swap(pivot, b-1); return b-1, c`. -/
def doPivotFinal (pivot a : Nat) (s : List α × Nat × Nat × Bool) : Nat × Nat × List α :=
  if s.2.2.2 then
    ((protLoop less dflt pivot s.1 a s.2.1).2.2 - 1, s.2.2.1,
      aswap (protLoop less dflt pivot s.1 a s.2.1).1 pivot
        ((protLoop less dflt pivot s.1 a s.2.1).2.2 - 1))
  else (s.2.1 - 1, s.2.2.1, aswap s.1 pivot (s.2.1 - 1))

/-- Go `doPivot(data, lo, hi)`: returns `(midlo, midhi)` and the
partitioned data.  Translated clause for clause from Go 1.16 `sort.go`:
median-of-nine refinement for long ranges, `medianOfThree(lo, m, hi-1)`,
`pivot := lo`, the initial `a` scan, the partition loop, the duplicate
block and the protection loop, and the final swap of the pivot into the
middle. -/
def doPivot (l : List α) (lo hi : Nat) : Nat × Nat × List α :=
  doPivotFinal less dflt lo
    (scanLt less dflt
      (medianOfThree less dflt (ninther less dflt l lo hi) lo ((lo + hi) / 2) (hi - 1))
      lo (hi - 1) (lo + 1))
    (doPivotDup less dflt lo lo hi ((lo + hi) / 2)
      (partLoop less dflt lo
        (medianOfThree less dflt (ninther less dflt l lo hi) lo ((lo + hi) / 2) (hi - 1))
        (scanLt less dflt
          (medianOfThree less dflt (ninther less dflt l lo hi) lo ((lo + hi) / 2) (hi - 1))
          lo (hi - 1) (lo + 1))
        (hi - 1)))

/-- The gap-6 shell pass of `quickSort` for ranges of at most 12
elements: `for i := a + 6; i < b; i++ \x7b if data.Less(i, i-6) \x7b
data.Swap(i, i-6) \x7d \x7d`. -/
def shellPass (a b : Nat) (l : List α) : List α :=
  (List.range' (a + 6) (b - (a + 6))).foldl
    (fun l i => if less (aget dflt l i) (aget dflt l (i - 6)) then aswap l i (i - 6) else l) l

/-- Go `quickSort(data, a, b, maxDepth)`.  The Go `for b-a > 12` loop
with its in-place narrowing of `[a,b)` is rendered as the two recursive
calls at the decremented depth (the loop continues with the already
decremented `maxDepth`). -/
def quickSort : List α → Nat → Nat → Nat → List α
  | l, a, b, d =>
    if b - a > 12 then
      match d with
      | 0 => heapSort less dflt l a b
      | d + 1 =>
          if (doPivot less dflt l a b).1 - a < b - (doPivot less dflt l a b).2.1 then
            quickSort (quickSort (doPivot less dflt l a b).2.2 a
              (doPivot less dflt l a b).1 d) (doPivot less dflt l a b).2.1 b d
          else
            quickSort (quickSort (doPivot less dflt l a b).2.2
              (doPivot less dflt l a b).2.1 b d) a (doPivot less dflt l a b).1 d
    else if b - a > 1 then
      insertionSort less dflt (shellPass less dflt a b l) a b
    else l

/-- The number of binary digits of `n`, with explicit structural fuel
(`fuel = n` always suffices). -/
def bitCountAux : Nat → Nat → Nat
  | 0, _ => 0
  | _ + 1, 0 => 0
  | fuel + 1, n + 1 => bitCountAux fuel ((n + 1) / 2) + 1

/-- Go `sort.maxDepth(n)` is `2 * bitCount n`: the loop
`for i := n; i > 0; i >>= 1 \x7b depth++ \x7d` counts the bits of `n`. -/
def bitCount (n : Nat) : Nat := bitCountAux n n

/-- Go `sort.Sort`: quicksort the whole list with depth limit
`maxDepth n`. -/
def goSort (l : List α) : List α :=
  quickSort less dflt l 0 l.length (2 * bitCount l.length)

end GoSort

/-! ## Totals, ranks and summaries (`bidwar.go`) -/

/-- The element-level comparator of `sort.Reverse(byCents(...))`:
`Less(i, j) = byCents.Less(j, i) = cents(j) < cents(i)`. -/
def revByCents (x y : Total) : Bool := y.value < x.value

/-- A default `Total` for out-of-range reads (never hit in-range). -/
def dfltTotal : Total := ⟨BWOption.zero, 0⟩

/-- `sort.Sort(sort.Reverse(byCents(l)))`: sort descending by cent value
with Go 1.16 `sort.Sort`. -/
def sortTotalsDesc (l : List Total) : List Total :=
  goSort revByCents dfltTotal l

/-- Embeds Go `bidwar.Totals`. -/
structure Totals where
  totals : List Total
  summaryStyle : String
  numberOfWinners : Int
deriving DecidableEq

/-- Embeds `Totals.openTotals`: the totals whose option is not closed. -/
def Totals.openTotals (tt : Totals) : List Total :=
  tt.totals.filter (fun t => !t.option.closed)

/-- Embeds `bidwar.optionRank`. -/
structure OptionRank where
  rank : Nat
  options : List BWOption
  value : Int
deriving DecidableEq

/-- Apply `f` to the last element of the list (the Go code mutates the
pointee `ranks[len(ranks)-1]`). -/
def modifyLast (f : OptionRank → OptionRank) : List OptionRank → List OptionRank
  | [] => []
  | [x] => [f x]
  | x :: y :: xs => x :: modifyLast f (y :: xs)

/-- One iteration of the `computeRanks` loop at index `idx` with total
`t`: open a new rank bucket when the list is empty or the last bucket's
value differs, then append the option to the last bucket. -/
def crStep (st : List OptionRank) (p : Nat × Total) : List OptionRank :=
  let st2 :=
    match st.getLast? with
    | none => st ++ [⟨p.1 + 1, [], p.2.value⟩]
    | some last => if last.value ≠ p.2.value then st ++ [⟨p.1 + 1, [], p.2.value⟩] else st
  modifyLast (fun r => ⟨r.rank, r.options ++ [p.2.option], r.value⟩) st2

/-- Embeds `Totals.computeRanks`: sort the open totals descending, then
group equal values into rank buckets (`rank = idx + 1` at the bucket's
first index). -/
def computeRanks (tt : Totals) : List OptionRank :=
  let openTotals := tt.openTotals
  if openTotals.length = 0 then []
  else ((sortTotalsDesc openTotals).enum.foldl crStep [])

/-- Decimal digits of a positive number, with explicit structural fuel
(`fuel = n` always suffices). -/
def natDigitsAux : Nat → Nat → List Char
  | 0, _ => []
  | _ + 1, 0 => []
  | fuel + 1, n + 1 => natDigitsAux fuel ((n + 1) / 10) ++ [Char.ofNat (48 + (n + 1) % 10)]

/-- Decimal digits of a positive number. -/
def natDigits (n : Nat) : List Char := natDigitsAux n n

/-- Decimal rendering of a natural number. -/
def natToString (n : Nat) : String :=
  if n = 0 then "0" else (natDigits n).asString

/-- Decimal rendering of an integer (Go `%d`). -/
def intToString (i : Int) : String :=
  if i < 0 then "-" ++ natToString i.natAbs else natToString i.natAbs

/-- Embeds `CentsValue.String()`: `fmt.Sprintf("%0.2f", cents/100)`. -/
def centsString (c : Int) : String :=
  (if c < 0 then "-" else "") ++ natToString (c.natAbs / 100) ++ "." ++
    (if c.natAbs % 100 < 10 then "0" else "") ++ natToString (c.natAbs % 100)

/-- Embeds `findRankForBid`: the first rank bucket containing an option
with the bid's short code. -/
def findRankForBid (ranks : List OptionRank) (bid : BWOption) : Option OptionRank :=
  ranks.find? (fun r => r.options.any (fun o => o.shortCode = bid.shortCode))

/-- Embeds `Totals.describeAll`. -/
def describeAll (tt : Totals) : String :=
  let maxValue := tt.openTotals.foldl (fun mv t => if mv < t.value then t.value else mv) 0
  String.intercalate ", "
    (tt.openTotals.map (fun t =>
      t.option.displayName ++ ": " ++ centsString t.value ++
        (if t.value < maxValue then " (down by " ++ centsString (maxValue - t.value) ++ ")"
         else "")))

/-- Embeds `Totals.describeLastPlace`. -/
def describeLastPlace (tt : Totals) (lastBid : BWOption) : String :=
  match hr : computeRanks tt with
  | [] => ""
  | r0 :: rrest =>
      let ranks := r0 :: rrest
      if rrest = [] ∧ r0.options.length = 1 then
        (r0.options.headD BWOption.zero).displayName ++ ": " ++ centsString r0.value
      else
        let lastPlaceRank := ranks.getLast (by simp)
        let diff : Int :=
          if ranks.length > 1 then
            (ranks.getD (ranks.length - 2) ⟨0, [], 0⟩).value - lastPlaceRank.value
          else 0
        let desc :=
          (if lastPlaceRank.options.length > 1 then "Tie for last place: " else "Last place: ")
            ++ String.intercalate ", " (lastPlaceRank.options.map (fun o => o.displayName))
            ++ " (down by " ++ centsString diff ++ ")"
        if lastBid.IsZero then desc
        else
          match findRankForBid ranks lastBid with
          | none => desc
          | some lastBidRank =>
              if lastPlaceRank.options.length = 1 ∧ lastBidRank.rank = lastPlaceRank.rank then
                lastBid.displayName ++ " is still in last place (down by " ++
                  centsString diff ++ ") usedShame"
              else if lastBidRank.rank = lastPlaceRank.rank then desc
              else
                lastBid.displayName ++ " is currently #" ++ natToString lastBidRank.rank ++
                  ". " ++ desc

/-- Embeds `Totals.describeFirstPlace`. -/
def describeFirstPlace (tt : Totals) (lastBid : BWOption) : String :=
  match computeRanks tt with
  | [] => ""
  | r0 :: rrest =>
      let ranks := r0 :: rrest
      if rrest = [] ∧ r0.options.length = 1 then
        (r0.options.headD BWOption.zero).displayName ++ ": " ++ centsString r0.value
      else
        let firstPlaceRank := r0
        let diff : Int :=
          match rrest with
          | [] => 0
          | r1 :: _ => r0.value - r1.value
        let desc :=
          (if firstPlaceRank.options.length > 1 then "Tie for first place: "
           else "First place: ")
            ++ String.intercalate ", " (firstPlaceRank.options.map (fun o => o.displayName))
            ++ " (up by " ++ centsString diff ++ ")"
        if lastBid.IsZero then desc
        else
          match findRankForBid ranks lastBid with
          | none => desc
          | some lastBidRank =>
              if firstPlaceRank.options.length = 1 ∧ lastBidRank.rank = firstPlaceRank.rank then
                lastBid.displayName ++ " is in first place (up by " ++ centsString diff ++
                  ") usedU"
              else if lastBidRank.rank = firstPlaceRank.rank then desc
              else
                lastBid.displayName ++ " is currently #" ++ natToString lastBidRank.rank ++
                  ". " ++ desc

/-- The collection loop of `describeWinners`: append each bucket's
display names; stop as soon as the cumulative count reaches
`numberOfWinners` (a whole tied bucket is never truncated). -/
def collectWinners (n : Int) : List OptionRank → List String → List String
  | [], acc => acc
  | r :: rest, acc =>
      let acc2 := acc ++ r.options.map (fun o => o.displayName)
      if (acc2.length : Int) ≥ n then acc2 else collectWinners n rest acc2

/-- Embeds `Totals.describeWinners`. -/
def describeWinners (tt : Totals) (lastBid : BWOption) : String :=
  match computeRanks tt with
  | [] => ""
  | r0 :: rrest =>
      let ranks := r0 :: rrest
      if rrest = [] ∧ r0.options.length = 1 then
        (r0.options.headD BWOption.zero).displayName ++ ": " ++ centsString r0.value
      else
        let desc := "Current top " ++ intToString tt.numberOfWinners ++ ": " ++
          String.intercalate ", " (collectWinners tt.numberOfWinners ranks [])
        if lastBid.IsZero then desc
        else
          match findRankForBid ranks lastBid with
          | none => desc
          | some lastBidRank =>
              lastBid.displayName ++ " is currently #" ++ natToString lastBidRank.rank ++
                ". " ++ desc

/-- Embeds `Totals.Describe`: dispatch on the summary style; WINNERS with
`numberOfWinners = 1` is reported as FIRST_PLACE; every other style
(including "ALL" and unknown styles) falls through to `describeAll`. -/
def Describe (tt : Totals) (lastBid : BWOption) : String :=
  if tt.summaryStyle = "LAST_PLACE" then describeLastPlace tt lastBid
  else if tt.summaryStyle = "FIRST_PLACE" then describeFirstPlace tt lastBid
  else if tt.summaryStyle = "WINNERS" then
    if tt.numberOfWinners = 1 then describeFirstPlace tt lastBid
    else describeWinners tt lastBid
  else describeAll tt

/-- Embeds `Tallier.TotalsForContest`, with the `GetTotals` result as an
explicit input: filter to the contest's options (by short code), sort
descending, and attach the contest's summary style and number of
winners. -/
def TotalsForContest (contest : Contest) (totals : List Total) : Totals :=
  let optsByName :=
    contest.options.foldl (fun m opt => insertKey opt.shortCode opt m) []
  let totalsForContest :=
    totals.filter (fun tot => (List.lookup tot.option.shortCode optsByName).isSome)
  ⟨sortTotalsDesc totalsForContest, contest.summaryStyle, contest.numberOfWinners⟩

/-! ## Claim C6 -/

/-- An example total used by the rank and summary claims. -/
def mkT (name : String) (v : Int) : Total := ⟨⟨name, name, [], false⟩, v⟩

/-- C6 (counterexample to the claim as stated): under WINNERS with
`numberOfWinners = 1` and totals A:200, B:100, C:300, `Describe` does not
render "Current top 1: C" — the dispatch sends `numberOfWinners == 1` to
`describeFirstPlace`, producing the first-place phrasing instead. -/
theorem describe_winners_one_counterexample :
    Describe ⟨[mkT "A" 200, mkT "B" 100, mkT "C" 300], "WINNERS", 1⟩ BWOption.zero =
      "First place: C (up by 1.00)" := by
  decide

theorem collectWinners_spec (n : Int) (ranks : List OptionRank) (acc : List String) :
    ∃ k, k ≤ ranks.length ∧
      collectWinners n ranks acc =
        acc ++ (ranks.take k).flatMap (fun r => r.options.map (fun o => o.displayName)) ∧
      (∀ j, 0 < j → j < k →
        ((acc.length : Int) + (((ranks.take j).flatMap (fun r => r.options)).length : Int) < n)) ∧
      (k = ranks.length ∨
        (0 < k ∧
          (acc.length : Int) + (((ranks.take k).flatMap (fun r => r.options)).length : Int) ≥ n)) ∧
      (ranks ≠ [] → 0 < k) := by
  induction ranks generalizing acc with
  | nil =>
      refine ⟨0, le_refl _, by simp [collectWinners], ?_, Or.inl rfl, fun h => absurd rfl h⟩
      intro j hj hjk
      omega
  | cons r rest ih =>
      by_cases hge : ((acc ++ r.options.map (fun o => o.displayName)).length : Int) ≥ n
      · refine ⟨1, by simp, ?_, ?_, ?_, fun _ => one_pos⟩
        · simp only [collectWinners]
          rw [if_pos hge]
          simp
        · intro j hj hjk; omega
        · refine Or.inr ⟨one_pos, ?_⟩
          simpa using hge
      · obtain ⟨k, hkle, heq, hmin, hfin, _⟩ := ih (acc ++ r.options.map (fun o => o.displayName))
        refine ⟨k + 1, by simpa using Nat.succ_le_succ hkle, ?_, ?_, ?_, fun _ => Nat.succ_pos k⟩
        · have hstep : collectWinners n (r :: rest) acc =
              collectWinners n rest (acc ++ r.options.map (fun o => o.displayName)) := by
            simp only [collectWinners]
            rw [if_neg hge]
          rw [hstep, heq]
          simp [List.take_succ_cons, List.flatMap_cons, List.append_assoc]
        · intro j hj hjk
          match j, hj with
          | 1, _ =>
              simp only [List.take_succ_cons, List.take_zero, List.flatMap_cons,
                List.flatMap_nil, List.append_nil, List.length_append]
              simp only [List.length_append, List.length_map, not_le] at hge
              push_cast
              push_cast at hge
              omega
          | j + 2, _ =>
              have := hmin (j + 1) (Nat.succ_pos j) (by omega)
              simp only [List.take_succ_cons, List.flatMap_cons, List.length_append] at this ⊢
              simp only [List.length_append, List.length_map] at this
              push_cast at this ⊢
              omega
        · rcases hfin with hfin | ⟨hk0, hfin⟩
          · exact Or.inl (by simp [hfin])
          · refine Or.inr ⟨Nat.succ_pos k, ?_⟩
            simp only [List.take_succ_cons, List.flatMap_cons, List.length_append] at hfin ⊢
            simp only [List.length_append, List.length_map] at hfin
            push_cast at hfin ⊢
            omega

/-- C6 (amended): for every `Totals` under the WINNERS style whose
`numberOfWinners` is not 1 (with exactly 1 the dispatch reports
FIRST_PLACE phrasing instead), with no subject option, and whose rank list
does not trigger the single-rank single-option short circuit, `Describe`
renders "Current top <N>: <names>" where the names are collected
bucket-by-bucket from the top rank until the cumulative count reaches
`numberOfWinners` — a whole tied bucket is included even if it pushes the
count past the threshold, and never truncated mid-bucket. -/
theorem describe_winners_amended (tt : Totals) (lastBid : BWOption)
    (hstyle : tt.summaryStyle = "WINNERS")
    (hn : tt.numberOfWinners ≠ 1)
    (hz : lastBid.IsZero = true)
    (r0 : OptionRank) (rrest : List OptionRank)
    (hranks : computeRanks tt = r0 :: rrest)
    (hshort : ¬(rrest = [] ∧ r0.options.length = 1)) :
    ∃ k, 0 < k ∧ k ≤ (r0 :: rrest).length ∧
      (∀ j, 0 < j → j < k →
        ((((r0 :: rrest).take j).flatMap (fun r => r.options)).length : Int) <
          tt.numberOfWinners) ∧
      (k = (r0 :: rrest).length ∨
        ((((r0 :: rrest).take k).flatMap (fun r => r.options)).length : Int) ≥
          tt.numberOfWinners) ∧
      Describe tt lastBid =
        "Current top " ++ intToString tt.numberOfWinners ++ ": " ++
          String.intercalate ", "
            (((r0 :: rrest).take k).flatMap
              (fun r => r.options.map (fun o => o.displayName))) := by
  obtain ⟨k, hkle, heq, hmin, hfin, hne⟩ :=
    collectWinners_spec tt.numberOfWinners (r0 :: rrest) []
  have hk0 : 0 < k := hne (by simp)
  refine ⟨k, hk0, hkle, ?_, ?_, ?_⟩
  · intro j hj hjk
    have := hmin j hj hjk
    simpa using this
  · rcases hfin with hfin | ⟨_, hfin⟩
    · exact Or.inl hfin
    · exact Or.inr (by simpa using hfin)
  · have hdispatch : Describe tt lastBid = describeWinners tt lastBid := by
      unfold Describe
      rw [hstyle]
      rw [if_neg (by decide), if_neg (by decide), if_pos rfl, if_neg hn]
    rw [hdispatch]
    simp only [describeWinners, hranks]
    rw [if_neg hshort, if_pos hz, heq]
    simp

/-- The WINNERS example of the spec: totals A:200, B:100, C:300 with two
winners. -/
def c6tt : Totals := ⟨[mkT "A" 200, mkT "B" 100, mkT "C" 300], "WINNERS", 2⟩

def c6r0 : OptionRank := ⟨1, [⟨"C", "C", [], false⟩], 300⟩

def c6rrest : List OptionRank :=
  [⟨2, [⟨"A", "A", [], false⟩], 200⟩, ⟨3, [⟨"B", "B", [], false⟩], 100⟩]

/-- Witness for C6 (amended): the spec example — two winners over totals
A:200, B:100, C:300 render as "Current top 2: C, A". -/
theorem describe_winners_amended_witness :
    (∃ k, 0 < k ∧ k ≤ (c6r0 :: c6rrest).length ∧
      (∀ j, 0 < j → j < k →
        ((((c6r0 :: c6rrest).take j).flatMap (fun r => r.options)).length : Int) <
          c6tt.numberOfWinners) ∧
      (k = (c6r0 :: c6rrest).length ∨
        ((((c6r0 :: c6rrest).take k).flatMap (fun r => r.options)).length : Int) ≥
          c6tt.numberOfWinners) ∧
      Describe c6tt BWOption.zero =
        "Current top " ++ intToString c6tt.numberOfWinners ++ ": " ++
          String.intercalate ", "
            (((c6r0 :: c6rrest).take k).flatMap
              (fun r => r.options.map (fun o => o.displayName))))
    ∧ Describe c6tt BWOption.zero = "Current top 2: C, A" :=
  ⟨describe_winners_amended c6tt BWOption.zero rfl (by decide) (by decide) c6r0 c6rrest
      (by decide) (by decide),
   by decide⟩

/-! ## Claim C2 -/

/-- A contest whose option set covers the short codes A..G. -/
def c2contest : Contest :=
  ⟨"seven options", "ALL", 1,
   [⟨"A", "A", [], false⟩, ⟨"B", "B", [], false⟩, ⟨"C", "C", [], false⟩,
    ⟨"D", "D", [], false⟩, ⟨"E", "E", [], false⟩, ⟨"F", "F", [], false⟩,
    ⟨"G", "G", [], false⟩], false⟩

/-- Seven totals as returned by `getTotals`: A worth 5 cents followed by
six totals B..G all worth 9 cents. -/
def c2list : List Total :=
  [mkT "A" 5, mkT "B" 9, mkT "C" 9, mkT "D" 9, mkT "E" 9, mkT "F" 9, mkT "G" 9]

/-- C2 (counterexample to the claim as stated): `TotalsForContest` sorts
with Go `sort.Sort`, which is not stable.  On seven totals
`[A:5, B:9, C:9, D:9, E:9, F:9, G:9]` the gap-6 shell pass swaps
positions 0 and 6 before the insertion sort, so the equal-valued totals
B..G come out in the order G, B, C, D, E, F — not in their original
`getTotals` order B, C, D, E, F, G, as stable tie-ordering would
require. -/
theorem totalsForContest_unstable :
    (TotalsForContest c2contest c2list).totals.map (fun t => t.option.shortCode) =
      ["G", "B", "C", "D", "E", "F", "A"]
    ∧ (["G", "B", "C", "D", "E", "F", "A"] : List String) ≠
        ["B", "C", "D", "E", "F", "G", "A"] :=
  ⟨by decide, by decide⟩

/-! ## Correctness of the Go 1.16 sort

The claims C2 and C5 assert that `TotalsForContest` and `computeRanks`
produce descending-sorted output.  This section proves that the embedded
Go sort returns a sorted permutation of its input, for any comparator
that is asymmetric and whose negation is transitive (both hold for
`revByCents`). -/

section GoSortProofs

variable {α : Type} (less : α → α → Bool) (dflt : α)

theorem aswap_length (l : List α) (i j : Nat) : (aswap l i j).length = l.length := by
  unfold aswap
  rcases hi : l[i]? with _ | x
  · rfl
  · rcases hj : l[j]? with _ | y
    · rfl
    · simp

theorem aswap_out_of_range (l : List α) (i j : Nat)
    (h : l.length ≤ i ∨ l.length ≤ j) : aswap l i j = l := by
  unfold aswap
  rcases h with h | h
  · rw [List.getElem?_eq_none h]
  · rw [List.getElem?_eq_none h]
    rcases l[i]? with _ | x
    · rfl
    · rfl

theorem aswap_getElem? (l : List α) (i j k : Nat) (hi : i < l.length)
    (hj : j < l.length) :
    (aswap l i j)[k]? =
      if k = i then l[j]? else if k = j then l[i]? else l[k]? := by
  unfold aswap
  rw [List.getElem?_eq_getElem hi, List.getElem?_eq_getElem hj]
  by_cases hki : k = i
  · subst hki
    rw [if_pos rfl]
    by_cases hkj : k = j
    · subst hkj
      rw [List.getElem?_set_self (by simpa using hj)]
    · rw [List.getElem?_set_ne (fun hh => hkj hh.symm),
        List.getElem?_set_self (by simpa using hi)]
  · rw [if_neg hki]
    by_cases hkj : k = j
    · subst hkj
      rw [if_pos rfl, List.getElem?_set_self (by simpa using hj)]
    · rw [if_neg hkj, List.getElem?_set_ne (fun hh => hkj hh.symm),
        List.getElem?_set_ne (fun hh => hki hh.symm)]

theorem count_set [DecidableEq α] (l : List α) (i : Nat) (a x : α) (hi : i < l.length) :
    (l.set i a).count x =
      l.count x + (if a = x then 1 else 0) - (if l[i] = x then 1 else 0) := by
  have hdecomp : l.count x =
      (l.take i).count x + ((if l[i] = x then 1 else 0) + (l.drop (i + 1)).count x) := by
    conv_lhs => rw [← List.take_append_drop i l, List.drop_eq_getElem_cons hi]
    simp only [List.count_append, List.count_cons, beq_iff_eq]
    omega
  rw [List.set_eq_take_append_cons_drop, if_pos hi]
  simp only [List.count_append, List.count_cons, beq_iff_eq]
  rw [hdecomp]
  omega

theorem aswap_perm [DecidableEq α] (l : List α) (i j : Nat) : List.Perm (aswap l i j) l := by
  by_cases hi : i < l.length
  · by_cases hj : j < l.length
    · rw [List.perm_iff_count]
      intro x
      unfold aswap
      rw [List.getElem?_eq_getElem hi, List.getElem?_eq_getElem hj]
      have hjj : j < (l.set i l[j]).length := by simpa using hj
      have hget : (l.set i l[j])[j] = l[j] := by
        by_cases hij2 : i = j
        · subst hij2; simp
        · simp [List.getElem_set_ne hij2]
      rw [count_set _ j _ x hjj, count_set _ i _ x hi, hget]
      have p1 : l[i] = x → 0 < List.count x l := fun h =>
        List.count_pos_iff.mpr (h ▸ List.getElem_mem hi)
      by_cases e1 : l[i] = x
      · have q1 := p1 e1
        by_cases e2 : l[j] = x
        · simp only [if_pos e1, if_pos e2]
          omega
        · simp only [if_pos e1, if_neg e2]
          omega
      · by_cases e2 : l[j] = x
        · simp only [if_neg e1, if_pos e2]
          omega
        · simp only [if_neg e1, if_neg e2]
          omega
    · rw [aswap_out_of_range _ _ _ (Or.inr (le_of_not_lt hj))]
  · rw [aswap_out_of_range _ _ _ (Or.inl (le_of_not_lt hi))]

/-- The sub-list at positions `[a, b)`. -/
def seg (l : List α) (a b : Nat) : List α := (l.drop a).take (b - a)

/-- A transformation confined to `[a, b)`: length preserved, a
permutation, and unchanged outside `[a, b)`. -/
def RangeOp (l l2 : List α) (a b : Nat) : Prop :=
  l2.length = l.length ∧ List.Perm l2 l ∧ ∀ k, k < a ∨ b ≤ k → l2[k]? = l[k]?

theorem rangeOp_refl (l : List α) (a b : Nat) : RangeOp l l a b :=
  ⟨rfl, List.Perm.refl l, fun _ _ => rfl⟩

theorem rangeOp_trans {l l2 l3 : List α} {a b : Nat} (h1 : RangeOp l l2 a b)
    (h2 : RangeOp l2 l3 a b) : RangeOp l l3 a b :=
  ⟨h2.1.trans h1.1, h2.2.1.trans h1.2.1,
   fun k hk => (h2.2.2 k hk).trans (h1.2.2 k hk)⟩

theorem rangeOp_mono {l l2 : List α} {a b a2 b2 : Nat} (h : RangeOp l l2 a b)
    (ha : a2 ≤ a) (hb : b ≤ b2) : RangeOp l l2 a2 b2 :=
  ⟨h.1, h.2.1, fun k hk => h.2.2 k (by omega)⟩

theorem aswap_rangeOp [DecidableEq α] {l : List α} {a b i j : Nat}
    (hia : a ≤ i) (hib : i < b) (hja : a ≤ j) (hjb : j < b) (hb : b ≤ l.length) :
    RangeOp l (aswap l i j) a b := by
  have hi : i < l.length := lt_of_lt_of_le hib hb
  have hj : j < l.length := lt_of_lt_of_le hjb hb
  refine ⟨aswap_length .., aswap_perm .., ?_⟩
  intro k hk
  rw [aswap_getElem? _ _ _ _ hi hj, if_neg (by omega), if_neg (by omega)]

theorem rangeOp_getElem?_lt {l l2 : List α} {a b : Nat} (h : RangeOp l l2 a b)
    (k : Nat) (hk : k < a) : l2[k]? = l[k]? := h.2.2 k (Or.inl hk)

theorem rangeOp_getElem?_ge {l l2 : List α} {a b : Nat} (h : RangeOp l l2 a b)
    (k : Nat) (hk : b ≤ k) : l2[k]? = l[k]? := h.2.2 k (Or.inr hk)

theorem getElem?_seg (l : List α) (a b m : Nat) :
    (seg l a b)[m]? = if m < b - a then l[a + m]? else none := by
  unfold seg
  by_cases hm : m < b - a
  · rw [if_pos hm, List.getElem?_take_of_lt hm, List.getElem?_drop]
  · rw [if_neg hm, List.getElem?_eq_none]
    simp only [List.length_take, List.length_drop]
    omega

theorem seg_append (l : List α) (a b : Nat) (hab : a ≤ b) :
    l.drop a = seg l a b ++ l.drop b := by
  unfold seg
  conv_lhs => rw [← List.take_append_drop (b - a) (l.drop a)]
  rw [List.drop_drop]
  congr 1
  congr 1
  omega

theorem seg_perm [DecidableEq α] {l l2 : List α} {a b : Nat} (h : RangeOp l l2 a b)
    (hab : a ≤ b) : List.Perm (seg l2 a b) (seg l a b) := by
  have htake : l2.take a = l.take a := by
    apply List.ext_getElem?
    intro n
    by_cases hn : n < a
    · rw [List.getElem?_take_of_lt hn, List.getElem?_take_of_lt hn,
        rangeOp_getElem?_lt h n hn]
    · rw [List.getElem?_take, List.getElem?_take, if_neg hn, if_neg hn]
  have hdrop : l2.drop b = l.drop b := by
    apply List.ext_getElem?
    intro n
    rw [List.getElem?_drop, List.getElem?_drop, rangeOp_getElem?_ge h (b + n) (by omega)]
  rw [List.perm_iff_count]
  intro x
  have hcnt : l2.count x = l.count x := (h.2.1.count_eq x)
  have hl : l.count x = (l.take a).count x + ((seg l a b).count x + (l.drop b).count x) := by
    conv_lhs => rw [← List.take_append_drop a l, seg_append l a b hab]
    simp [List.count_append]
  have hl2 : l2.count x =
      (l2.take a).count x + ((seg l2 a b).count x + (l2.drop b).count x) := by
    conv_lhs => rw [← List.take_append_drop a l2, seg_append l2 a b hab]
    simp [List.count_append]
  rw [htake, hdrop] at hl2
  omega

/-- Transfer of a pointwise bound over a `RangeOp`: if every in-range
element of `l` satisfies `P`, so does every in-range element of `l2`. -/
theorem rangeOp_bound [DecidableEq α] {l l2 : List α} {a b : Nat} (h : RangeOp l l2 a b)
    (hab : a ≤ b) (hb : b ≤ l.length) (P : α → Prop)
    (hP : ∀ k, a ≤ k → k < b → ∀ x, l[k]? = some x → P x) :
    ∀ k, a ≤ k → k < b → ∀ x, l2[k]? = some x → P x := by
  intro k hka hkb x hx
  have hmem : x ∈ seg l2 a b := by
    have hseg : (seg l2 a b)[k - a]? = some x := by
      rw [getElem?_seg, if_pos (by omega), show a + (k - a) = k by omega]
      exact hx
    obtain ⟨hlt, heq⟩ := List.getElem?_eq_some_iff.mp hseg
    exact heq ▸ List.getElem_mem hlt
  have hmem2 : x ∈ seg l a b := (seg_perm h hab).subset hmem
  obtain ⟨m, hm, hmx⟩ := List.getElem_of_mem hmem2
  have hsome : (seg l a b)[m]? = some x := by
    rw [List.getElem?_eq_getElem hm, hmx]
  rw [getElem?_seg] at hsome
  by_cases hmlt : m < b - a
  · rw [if_pos hmlt] at hsome
    exact hP (a + m) (by omega) (by omega) x hsome
  · rw [if_neg hmlt] at hsome
    cases hsome

theorem aget_of_getElem? {l : List α} {i : Nat} {x : α} (h : l[i]? = some x) :
    aget dflt l i = x := by
  unfold aget
  rw [List.getD_eq_getElem?_getD, h]
  rfl

theorem getElem?_of_lt_length {l : List α} {i : Nat} (h : i < l.length) :
    l[i]? = some (aget dflt l i) := by
  rw [List.getElem?_eq_getElem h]
  unfold aget
  rw [List.getD_eq_getElem?_getD, List.getElem?_eq_getElem h]
  rfl

theorem aget_aswap {l : List α} {i j : Nat} (hi : i < l.length) (hj : j < l.length)
    (k : Nat) :
    aget dflt (aswap l i j) k =
      if k = i then aget dflt l j else if k = j then aget dflt l i else aget dflt l k := by
  unfold aget
  rw [List.getD_eq_getElem?_getD, aswap_getElem? _ _ _ _ hi hj]
  by_cases hki : k = i
  · rw [if_pos hki, if_pos hki, List.getD_eq_getElem?_getD]
  · rw [if_neg hki, if_neg hki]
    by_cases hkj : k = j
    · rw [if_pos hkj, if_pos hkj, List.getD_eq_getElem?_getD]
    · rw [if_neg hkj, if_neg hkj, List.getD_eq_getElem?_getD]

/-- `[a, b)` is sorted ascending for the comparator: no later element is
`less` than an earlier one. -/
def SortedRange (l : List α) (a b : Nat) : Prop :=
  ∀ i j, a ≤ i → i < j → j < b → less (aget dflt l j) (aget dflt l i) = false

theorem sortedRange_of_le {l : List α} {a b : Nat} (h : b ≤ a + 1) :
    SortedRange less dflt l a b := by
  intro i j hi hij hj
  exact absurd hij (by omega)

theorem sortedRange_mono {l : List α} {a b b2 : Nat} (h : SortedRange less dflt l a b)
    (hb : b2 ≤ b) : SortedRange less dflt l a b2 :=
  fun i j hi hij hj => h i j hi hij (lt_of_lt_of_le hj hb)

theorem insInner_spec [DecidableEq α]
    (hasymm : ∀ x y, less x y = true → less y x = false)
    (hletrans : ∀ x y z, less y x = false → less z y = false → less z x = false)
    (a : Nat) :
    ∀ (j : Nat) (l : List α), j < l.length → SortedRange less dflt l a j →
      SortedRange less dflt (insInner less dflt a l j) a (j + 1) ∧
      RangeOp l (insInner less dflt a l j) a (j + 1) := by
  intro j
  induction j with
  | zero =>
      intro l _ _
      exact ⟨sortedRange_of_le less dflt (by omega), rangeOp_refl l a 1⟩
  | succ j ih =>
      intro l hlen hsort
      by_cases hguard : a < j + 1 ∧ less (aget dflt l (j + 1)) (aget dflt l j) = true
      · have hstep : insInner less dflt a l (j + 1) =
            insInner less dflt a (aswap l (j + 1) j) j := by
          rw [show insInner less dflt a l (j + 1) =
            if a < j + 1 ∧ less (aget dflt l (j + 1)) (aget dflt l j) = true then
              insInner less dflt a (aswap l (j + 1) j) j
            else l from rfl, if_pos hguard]
        have hj : j < l.length := by omega
        have hlens : (aswap l (j + 1) j).length = l.length := aswap_length ..
        have hsortsw : SortedRange less dflt (aswap l (j + 1) j) a j := by
          intro i i2 hi hii hi2
          rw [aget_aswap dflt hlen hj, aget_aswap dflt hlen hj,
            if_neg (by omega), if_neg (by omega), if_neg (by omega), if_neg (by omega)]
          exact hsort i i2 hi hii (by omega)
        obtain ⟨ihsort, ihop⟩ := ih (aswap l (j + 1) j) (by omega) hsortsw
        rw [hstep]
        constructor
        · intro i i2 hi hii hi2
          by_cases hi2top : i2 = j + 1
          · subst hi2top
            have htop : aget dflt (insInner less dflt a (aswap l (j + 1) j) j) (j + 1) =
                aget dflt l j := by
              have h1 : (insInner less dflt a (aswap l (j + 1) j) j)[j + 1]? =
                  (aswap l (j + 1) j)[j + 1]? := rangeOp_getElem?_ge ihop (j + 1) (le_refl _)
              have h2 : (aswap l (j + 1) j)[j + 1]? = l[j]? :=
                by rw [aswap_getElem? _ _ _ _ hlen hj, if_pos rfl]
              exact (aget_of_getElem? dflt (h1.trans (h2.trans
                (getElem?_of_lt_length dflt hj)))).trans rfl
            rw [htop]
            have hbound := rangeOp_bound ihop (by omega) (by omega)
              (fun x => less (aget dflt l j) x = false) ?_ i hi (by omega)
            · exact hbound _ (getElem?_of_lt_length dflt
                (by rw [ihop.1, hlens]; omega))
            · intro k hka hkb x hx
              rw [aswap_getElem? _ _ _ _ hlen hj] at hx
              by_cases hkj1 : k = j + 1
              · exact absurd hkb (by omega)
              · rw [if_neg hkj1] at hx
                by_cases hkj : k = j
                · rw [if_pos hkj] at hx
                  have : x = aget dflt l (j + 1) := by
                    rw [aget_of_getElem? dflt hx]
                  rw [this]
                  exact hasymm _ _ hguard.2
                · rw [if_neg hkj] at hx
                  have : x = aget dflt l k := by rw [aget_of_getElem? dflt hx]
                  rw [this]
                  exact hsort k j hka (by omega) (by omega)
          · exact ihsort i i2 hi hii (by omega)
        · refine rangeOp_trans ?_ (rangeOp_mono ihop (le_refl a) (by omega))
          exact aswap_rangeOp (by omega) (by omega) (by omega) (by omega) (by omega)
      · have hstep : insInner less dflt a l (j + 1) = l := by
          rw [show insInner less dflt a l (j + 1) =
            if a < j + 1 ∧ less (aget dflt l (j + 1)) (aget dflt l j) = true then
              insInner less dflt a (aswap l (j + 1) j) j
            else l from rfl, if_neg hguard]
        rw [hstep]
        refine ⟨?_, rangeOp_refl ..⟩
        intro i i2 hi hii hi2
        by_cases hi2top : i2 = j + 1
        · subst hi2top
          by_cases ha : a < j + 1
          · have hnl : less (aget dflt l (j + 1)) (aget dflt l j) = false := by
              rcases Bool.eq_false_or_eq_true (less (aget dflt l (j + 1)) (aget dflt l j))
                with ht | hf
              · exact absurd ⟨ha, ht⟩ hguard
              · exact hf
            by_cases hij : i = j
            · subst hij; exact hnl
            · exact hletrans _ _ _ (hsort i j hi (by omega) (by omega)) hnl
          · exact absurd hii (by omega)
        · exact hsort i i2 hi hii (by omega)

theorem insFold_spec [DecidableEq α]
    (hasymm : ∀ x y, less x y = true → less y x = false)
    (hletrans : ∀ x y z, less y x = false → less z y = false → less z x = false)
    (a : Nat) :
    ∀ (n s : Nat) (l : List α), s + n ≤ l.length → SortedRange less dflt l a s →
      SortedRange less dflt
        ((List.range' s n).foldl (fun l i => insInner less dflt a l i) l) a (s + n) ∧
      RangeOp l ((List.range' s n).foldl (fun l i => insInner less dflt a l i) l)
        a (s + n) := by
  intro n
  induction n with
  | zero =>
      intro s l _ hsort
      exact ⟨hsort, rangeOp_refl ..⟩
  | succ n ih =>
      intro s l hlen hsort
      rw [List.range'_succ, List.foldl_cons]
      obtain ⟨hs1, hop1⟩ := insInner_spec less dflt hasymm hletrans a s l (by omega) hsort
      obtain ⟨hs2, hop2⟩ := ih (s + 1) (insInner less dflt a l s)
        (by rw [hop1.1]; omega) hs1
      refine ⟨by rw [show s + (n + 1) = s + 1 + n by omega]; exact hs2, ?_⟩
      refine rangeOp_trans (rangeOp_mono hop1 (le_refl a) (by omega))
        (rangeOp_mono hop2 (le_refl a) (by omega))

theorem insertionSort_spec [DecidableEq α]
    (hasymm : ∀ x y, less x y = true → less y x = false)
    (hletrans : ∀ x y z, less y x = false → less z y = false → less z x = false)
    (l : List α) (a b : Nat) (hb : b ≤ l.length) :
    SortedRange less dflt (insertionSort less dflt l a b) a b ∧
    RangeOp l (insertionSort less dflt l a b) a b := by
  unfold insertionSort
  by_cases hab : a + 1 ≤ b
  · have h := insFold_spec less dflt hasymm hletrans a (b - (a + 1)) (a + 1) l
      (by omega) (sortedRange_of_le less dflt (le_refl _))
    rw [show a + 1 + (b - (a + 1)) = b by omega] at h
    exact ⟨h.1, rangeOp_mono h.2 (le_refl a) (le_refl b)⟩
  · rw [show b - (a + 1) = 0 by omega, List.range'_zero, List.foldl_nil]
    exact ⟨sortedRange_of_le less dflt (by omega), rangeOp_refl ..⟩

theorem less_irrefl (hasymm : ∀ x y, less x y = true → less y x = false) (x : α) :
    less x x = false := by
  rcases Bool.eq_false_or_eq_true (less x x) with ht | hf
  · have hfx := hasymm x x ht
    rw [ht] at hfx
    exact absurd hfx (by simp)
  · exact hf

theorem rangeOp_aget_outside {l l2 : List α} {a b : Nat} (h : RangeOp l l2 a b)
    (k : Nat) (hk : k < a ∨ b ≤ k) : aget dflt l2 k = aget dflt l k := by
  unfold aget
  rw [List.getD_eq_getElem?_getD, List.getD_eq_getElem?_getD, h.2.2 k hk]

theorem sortedRange_congr {l l2 : List α} {a b : Nat}
    (heq : ∀ k, a ≤ k → k < b → aget dflt l2 k = aget dflt l k)
    (h : SortedRange less dflt l a b) : SortedRange less dflt l2 a b := by
  intro i j hi hij hj
  rw [heq i hi (by omega), heq j (by omega) hj]
  exact h i j hi hij hj

theorem rangeOp_bound_aget [DecidableEq α] {l l2 : List α} {a b : Nat}
    (h : RangeOp l l2 a b) (hab : a ≤ b) (hb : b ≤ l.length) (P : α → Prop)
    (hP : ∀ k, a ≤ k → k < b → P (aget dflt l k)) :
    ∀ k, a ≤ k → k < b → P (aget dflt l2 k) := by
  intro k hka hkb
  have hk2 : k < l2.length := by rw [h.1]; omega
  refine rangeOp_bound h hab hb P ?_ k hka hkb (aget dflt l2 k)
    (getElem?_of_lt_length dflt hk2)
  intro k2 hk2a hk2b x hx
  have := aget_of_getElem? dflt hx
  rw [← this]
  exact hP k2 hk2a hk2b

theorem foldl_rangeOp [DecidableEq α] (f : List α → Nat → List α) (a b : Nat) :
    ∀ (idxs : List Nat), (∀ l i, i ∈ idxs → b ≤ l.length → RangeOp l (f l i) a b) →
      ∀ l, b ≤ l.length → RangeOp l (idxs.foldl f l) a b := by
  intro idxs
  induction idxs with
  | nil => intro _ l _; exact rangeOp_refl ..
  | cons i is ih =>
      intro hf l hl
      have h1 : RangeOp l (f l i) a b := hf l i (List.mem_cons_self ..) hl
      have h2 := ih (fun l2 j hj hl2 => hf l2 j (List.mem_cons_of_mem _ hj) hl2) (f l i)
        (by rw [h1.1]; exact hl)
      rw [List.foldl_cons]
      exact rangeOp_trans h1 h2

theorem shellPass_rangeOp [DecidableEq α] (a b : Nat) (l : List α) (hb : b ≤ l.length) :
    RangeOp l (shellPass less dflt a b l) a b := by
  unfold shellPass
  refine foldl_rangeOp _ a b (List.range' (a + 6) (b - (a + 6))) ?_ l hb
  intro l2 i hi hl2
  have hmem := List.mem_range'_1.mp hi
  split
  · exact aswap_rangeOp (by omega) (by omega) (by omega) (by omega) hl2
  · exact rangeOp_refl ..

/-- The max-heap property on the index window `[first, first + hi)`, for
parents at offset at least `lo0`: no parent is `less` than a child. -/
def HeapFrom (l : List α) (first hi lo0 : Nat) : Prop :=
  ∀ p c, lo0 ≤ p → c < hi → (c = 2 * p + 1 ∨ c = 2 * p + 2) →
    less (aget dflt l (first + p)) (aget dflt l (first + c)) = false

/-- Every element at offset at least `j` dominates all elements at smaller
offsets (the sorted-suffix invariant of the heapsort pop phase). -/
def SufDom (l : List α) (first hi j : Nat) : Prop :=
  ∀ q k, j ≤ q → q < hi → k < q →
    less (aget dflt l (first + q)) (aget dflt l (first + k)) = false

theorem siftDownLoop_swap_pre [DecidableEq α]
    (hasymm : ∀ x y, less x y = true → less y x = false)
    (hi first lo0 r c2 : Nat) (l : List α)
    (hlen : first + hi ≤ l.length) (hr : lo0 ≤ r)
    (hc2mem : c2 = 2 * r + 1 ∨ c2 = 2 * r + 2) (hc2 : c2 < hi)
    (ha : ∀ p c, lo0 ≤ p → p ≠ r → c < hi → (c = 2 * p + 1 ∨ c = 2 * p + 2) →
      less (aget dflt l (first + p)) (aget dflt l (first + c)) = false)
    (hb : r ≠ lo0 → ∀ c, c < hi → (c = 2 * r + 1 ∨ c = 2 * r + 2) →
      less (aget dflt l (first + (r - 1) / 2)) (aget dflt l (first + c)) = false)
    (hdom : ∀ c, (c = 2 * r + 1 ∨ c = 2 * r + 2) → c < hi →
      less (aget dflt l (first + c2)) (aget dflt l (first + c)) = false)
    (hswap : less (aget dflt l (first + r)) (aget dflt l (first + c2)) = true) :
    (∀ p c, lo0 ≤ p → p ≠ c2 → c < hi → (c = 2 * p + 1 ∨ c = 2 * p + 2) →
      less (aget dflt (aswap l (first + r) (first + c2)) (first + p))
        (aget dflt (aswap l (first + r) (first + c2)) (first + c)) = false) ∧
    (c2 ≠ lo0 → ∀ c, c < hi → (c = 2 * c2 + 1 ∨ c = 2 * c2 + 2) →
      less (aget dflt (aswap l (first + r) (first + c2)) (first + (c2 - 1) / 2))
        (aget dflt (aswap l (first + r) (first + c2)) (first + c)) = false) := by
  have hir : first + r < l.length := by rcases hc2mem with h | h <;> omega
  have hic2 : first + c2 < l.length := by omega
  have hget := aget_aswap dflt hir hic2
  constructor
  · intro p c hp hpc2 hc hedge
    rw [hget, hget]
    by_cases hpr : p = r
    · subst hpr
      rw [if_pos rfl]
      have hcr : first + c ≠ first + p := by rcases hedge with h | h <;> omega
      rw [if_neg hcr]
      by_cases hcc2 : c = c2
      · rw [if_pos (by omega)]
        exact hasymm _ _ hswap
      · rw [if_neg (by omega)]
        exact hdom c hedge hc
    · rw [if_neg (by omega), if_neg (by omega)]
      by_cases hcr : c = r
      · rw [if_pos (by omega)]
        have hp2 : p = (r - 1) / 2 := by rcases hedge with h | h <;> omega
        have hrlo : r ≠ lo0 := by rcases hedge with h | h <;> omega
        rw [hp2]
        exact hb hrlo c2 hc2 hc2mem
      · have hcne : first + c ≠ first + r := by omega
        rw [if_neg hcne]
        by_cases hcc2 : c = c2
        · exfalso
          rcases hedge with h | h <;> rcases hc2mem with h2 | h2 <;> omega
        · rw [if_neg (by omega)]
          exact ha p c hp hpr hc hedge
  · intro _ c hc hcedge
    have hpc2 : (c2 - 1) / 2 = r := by rcases hc2mem with h | h <;> omega
    rw [hget, hget, hpc2, if_pos rfl]
    have h1 : first + c ≠ first + r := by
      rcases hcedge with h | h <;> rcases hc2mem with h2 | h2 <;> omega
    have h2 : first + c ≠ first + c2 := by rcases hcedge with h | h <;> omega
    rw [if_neg h1, if_neg h2]
    exact ha c2 c (by rcases hc2mem with h | h <;> omega)
      (by rcases hc2mem with h | h <;> omega) hc hcedge

theorem siftDownLoop_spec [DecidableEq α]
    (hasymm : ∀ x y, less x y = true → less y x = false)
    (hletrans : ∀ x y z, less y x = false → less z y = false → less z x = false)
    (hi first lo0 r : Nat) (l : List α)
    (hlen : first + hi ≤ l.length) (hr : lo0 ≤ r)
    (ha : ∀ p c, lo0 ≤ p → p ≠ r → c < hi → (c = 2 * p + 1 ∨ c = 2 * p + 2) →
      less (aget dflt l (first + p)) (aget dflt l (first + c)) = false)
    (hb : r ≠ lo0 → ∀ c, c < hi → (c = 2 * r + 1 ∨ c = 2 * r + 2) →
      less (aget dflt l (first + (r - 1) / 2)) (aget dflt l (first + c)) = false) :
    HeapFrom less dflt (siftDownLoop less dflt hi first l r) first hi lo0 ∧
    RangeOp l (siftDownLoop less dflt hi first l r) (first + r) (first + hi) := by
  unfold siftDownLoop
  by_cases hch : 2 * r + 1 ≥ hi
  · rw [dif_pos hch]
    refine ⟨?_, rangeOp_refl ..⟩
    intro p c hp hc hedge
    by_cases hpr : p = r
    · exact absurd hc (by rcases hedge with h | h <;> omega)
    · exact ha p c hp hpr hc hedge
  · rw [dif_neg hch]
    by_cases hsel : 2 * r + 1 + 1 < hi ∧
        less (aget dflt l (first + (2 * r + 1))) (aget dflt l (first + (2 * r + 1) + 1)) = true
    · have hc2 : sdChild less dflt l hi first r = 2 * r + 2 := by
        unfold sdChild
        rw [if_pos hsel]
      rw [hc2]
      have hdom : ∀ c, (c = 2 * r + 1 ∨ c = 2 * r + 2) → c < hi →
          less (aget dflt l (first + (2 * r + 2))) (aget dflt l (first + c)) = false := by
        intro c hcm _
        rcases hcm with h | h
        · subst h
          have hs := hasymm _ _ hsel.2
          rw [show first + (2 * r + 1) + 1 = first + (2 * r + 2) from rfl] at hs
          exact hs
        · subst h
          exact less_irrefl less hasymm _
      by_cases hswap :
          less (aget dflt l (first + r)) (aget dflt l (first + (2 * r + 2))) = true
      · rw [if_pos hswap]
        obtain ⟨hha, hhb⟩ := siftDownLoop_swap_pre less dflt hasymm hi first lo0 r
          (2 * r + 2) l hlen hr (Or.inr rfl) (by omega) ha hb hdom hswap
        obtain ⟨hheap, hop⟩ := siftDownLoop_spec hasymm hletrans hi first lo0 (2 * r + 2)
          (aswap l (first + r) (first + (2 * r + 2)))
          (by rw [aswap_length]; exact hlen) (by omega) hha hhb
        refine ⟨hheap, ?_⟩
        refine rangeOp_trans ?_ (rangeOp_mono hop (by omega) (le_refl _))
        exact aswap_rangeOp (le_refl _) (by omega) (by omega) (by omega) hlen
      · rw [if_neg hswap]
        have hsf : less (aget dflt l (first + r)) (aget dflt l (first + (2 * r + 2))) =
            false := by
          rcases Bool.eq_false_or_eq_true
            (less (aget dflt l (first + r)) (aget dflt l (first + (2 * r + 2)))) with ht | hf
          · exact absurd ht hswap
          · exact hf
        refine ⟨?_, rangeOp_refl ..⟩
        intro p c hp hc hedge
        by_cases hpr : p = r
        · subst hpr
          rcases hedge with he | he
          · subst he
            exact hletrans _ _ _ (hdom (2 * p + 1) (Or.inl rfl) hc) hsf
          · subst he
            exact hsf
        · exact ha p c hp hpr hc hedge
    · have hc2 : sdChild less dflt l hi first r = 2 * r + 1 := by
        unfold sdChild
        rw [if_neg hsel]
      rw [hc2]
      have hdom : ∀ c, (c = 2 * r + 1 ∨ c = 2 * r + 2) → c < hi →
          less (aget dflt l (first + (2 * r + 1))) (aget dflt l (first + c)) = false := by
        intro c hcm hchi
        rcases hcm with h | h
        · subst h
          exact less_irrefl less hasymm _
        · subst h
          have hno : ¬ less (aget dflt l (first + (2 * r + 1)))
              (aget dflt l (first + (2 * r + 1) + 1)) = true := by
            intro hcontra
            exact hsel ⟨by omega, hcontra⟩
          rw [show first + (2 * r + 1) + 1 = first + (2 * r + 2) from rfl] at hno
          rcases Bool.eq_false_or_eq_true (less (aget dflt l (first + (2 * r + 1)))
            (aget dflt l (first + (2 * r + 2)))) with ht | hf
          · exact absurd ht hno
          · exact hf
      by_cases hswap :
          less (aget dflt l (first + r)) (aget dflt l (first + (2 * r + 1))) = true
      · rw [if_pos hswap]
        obtain ⟨hha, hhb⟩ := siftDownLoop_swap_pre less dflt hasymm hi first lo0 r
          (2 * r + 1) l hlen hr (Or.inl rfl) (by omega) ha hb hdom hswap
        obtain ⟨hheap, hop⟩ := siftDownLoop_spec hasymm hletrans hi first lo0 (2 * r + 1)
          (aswap l (first + r) (first + (2 * r + 1)))
          (by rw [aswap_length]; exact hlen) (by omega) hha hhb
        refine ⟨hheap, ?_⟩
        refine rangeOp_trans ?_ (rangeOp_mono hop (by omega) (le_refl _))
        exact aswap_rangeOp (le_refl _) (by omega) (by omega) (by omega) hlen
      · rw [if_neg hswap]
        have hsf : less (aget dflt l (first + r)) (aget dflt l (first + (2 * r + 1))) =
            false := by
          rcases Bool.eq_false_or_eq_true
            (less (aget dflt l (first + r)) (aget dflt l (first + (2 * r + 1)))) with ht | hf
          · exact absurd ht hswap
          · exact hf
        refine ⟨?_, rangeOp_refl ..⟩
        intro p c hp hc hedge
        by_cases hpr : p = r
        · subst hpr
          rcases hedge with he | he
          · subst he
            exact hsf
          · subst he
            exact hletrans _ _ _ (hdom (2 * p + 2) (Or.inr rfl) hc) hsf
        · exact ha p c hp hpr hc hedge
termination_by hi - r
decreasing_by
  · omega
  · omega

theorem heapBuild_spec [DecidableEq α]
    (hasymm : ∀ x y, less x y = true → less y x = false)
    (hletrans : ∀ x y z, less y x = false → less z y = false → less z x = false)
    (hi first : Nat) :
    ∀ (i : Nat) (l : List α), first + hi ≤ l.length →
      HeapFrom less dflt l first hi (i + 1) →
      HeapFrom less dflt (heapBuild less dflt hi first l i) first hi 0 ∧
      RangeOp l (heapBuild less dflt hi first l i) first (first + hi) := by
  intro i
  induction i with
  | zero =>
      intro l hlen hpre
      simp only [heapBuild, siftDown]
      have h := siftDownLoop_spec less dflt hasymm hletrans hi first 0 0 l hlen (le_refl 0)
        (fun p c hp hpr hc hedge => hpre p c (by omega) hc hedge)
        (fun hcon => absurd rfl hcon)
      exact ⟨h.1, rangeOp_mono h.2 (by omega) (le_refl _)⟩
  | succ i ih =>
      intro l hlen hpre
      simp only [heapBuild, siftDown]
      have h1 := siftDownLoop_spec less dflt hasymm hletrans hi first (i + 1) (i + 1) l hlen
        (le_refl _)
        (fun p c hp hpr hc hedge => hpre p c (by omega) hc hedge)
        (fun hcon => absurd rfl hcon)
      have h2 := ih (siftDownLoop less dflt hi first l (i + 1))
        (by rw [h1.2.1]; exact hlen) h1.1
      exact ⟨h2.1, rangeOp_trans (rangeOp_mono h1.2 (by omega) (le_refl _)) h2.2⟩

theorem heapFrom_root_max
    (hasymm : ∀ x y, less x y = true → less y x = false)
    (hletrans : ∀ x y z, less y x = false → less z y = false → less z x = false)
    (l : List α) (first hi : Nat) (hh : HeapFrom less dflt l first hi 0) :
    ∀ k, k < hi → less (aget dflt l first) (aget dflt l (first + k)) = false := by
  intro k
  induction k using Nat.strong_induction_on with
  | _ k ih =>
      intro hk
      by_cases hk0 : k = 0
      · subst hk0
        exact less_irrefl less hasymm _
      · have hedge : k = 2 * ((k - 1) / 2) + 1 ∨ k = 2 * ((k - 1) / 2) + 2 := by omega
        have hp := hh ((k - 1) / 2) k (Nat.zero_le _) hk hedge
        have hihp := ih ((k - 1) / 2) (by omega) (by omega)
        exact hletrans _ _ _ hp hihp

theorem aswap_self_getElem? (l : List α) (i k : Nat) : (aswap l i i)[k]? = l[k]? := by
  by_cases hi : i < l.length
  · rw [aswap_getElem? l i i k hi hi]
    by_cases hk : k = i
    · rw [if_pos hk, hk]
    · rw [if_neg hk, if_neg hk]
  · rw [aswap_out_of_range l i i (Or.inl (le_of_not_lt hi))]

theorem aswap_self_aget (l : List α) (i k : Nat) :
    aget dflt (aswap l i i) k = aget dflt l k := by
  unfold aget
  rw [List.getD_eq_getElem?_getD, List.getD_eq_getElem?_getD, aswap_self_getElem?]

theorem heapPop_spec [DecidableEq α]
    (hasymm : ∀ x y, less x y = true → less y x = false)
    (hletrans : ∀ x y z, less y x = false → less z y = false → less z x = false)
    (first hi0 : Nat) :
    ∀ (i : Nat) (l : List α), first + hi0 ≤ l.length → i < hi0 →
      HeapFrom less dflt l first (i + 1) 0 →
      SufDom less dflt l first hi0 (i + 1) →
      SortedRange less dflt (heapPop less dflt first l i) first (first + hi0) ∧
      RangeOp l (heapPop less dflt first l i) first (first + i + 1) := by
  intro i
  induction i with
  | zero =>
      intro l hlen hi0pos hheap hsuf
      have hred : heapPop less dflt first l 0 = aswap l first first := by
        simp only [heapPop, siftDown]
        unfold siftDownLoop
        rw [dif_pos (by omega)]
      rw [hred]
      constructor
      · intro p q hp hpq hq
        rw [aswap_self_aget, aswap_self_aget]
        have hs := hsuf (q - first) (p - first) (by omega) (by omega) (by omega)
        rw [show first + (q - first) = q by omega, show first + (p - first) = p by omega] at hs
        exact hs
      · exact ⟨aswap_length .., aswap_perm .., fun k _ => aswap_self_getElem? ..⟩
  | succ i ih =>
      intro l hlen harg hheap hsuf
      simp only [heapPop, siftDown]
      have hfl : first < l.length := by omega
      have hfi : first + (i + 1) < l.length := by omega
      have hgetsw := aget_aswap dflt hfl hfi
      have hmax0 := heapFrom_root_max less dflt hasymm hletrans l first (i + 1 + 1) hheap
      have h1 := siftDownLoop_spec less dflt hasymm hletrans (i + 1) first 0 0
        (aswap l first (first + (i + 1)))
        (by rw [aswap_length]; omega) (le_refl 0)
        (by
          intro p c hp hpr hc hedge
          rw [hgetsw, hgetsw, if_neg (by omega),
            if_neg (by rcases hedge with h | h <;> omega),
            if_neg (by rcases hedge with h | h <;> omega), if_neg (by omega)]
          exact hheap p c (Nat.zero_le _) (by omega) hedge)
        (fun hcon => absurd rfl hcon)
      have hsufsw : SufDom less dflt (aswap l first (first + (i + 1))) first hi0 (i + 1) := by
        intro q k hq hqhi hk
        rw [hgetsw, hgetsw, if_neg (by omega)]
        by_cases hq1 : q = i + 1
        · rw [if_pos (by omega)]
          by_cases hk0 : k = 0
          · rw [if_pos (by omega)]
            exact hmax0 (i + 1) (by omega)
          · rw [if_neg (by omega), if_neg (by omega)]
            exact hmax0 k (by omega)
        · rw [if_neg (by omega)]
          by_cases hk0 : k = 0
          · rw [if_pos (by omega)]
            exact hsuf q (i + 1) (by omega) hqhi (by omega)
          · by_cases hki : k = i + 1
            · rw [if_neg (by omega), if_pos (by omega)]
              have hs := hsuf q 0 (by omega) hqhi (by omega)
              rw [Nat.add_zero] at hs
              exact hs
            · rw [if_neg (by omega), if_neg (by omega)]
              exact hsuf q k (by omega) hqhi hk
      have hsufl2 : SufDom less dflt
          (siftDownLoop less dflt (i + 1) first (aswap l first (first + (i + 1))) 0)
          first hi0 (i + 1) := by
        intro q k hq hqhi hk
        have hqo := rangeOp_aget_outside dflt h1.2 (first + q) (Or.inr (by omega))
        rw [hqo]
        by_cases hki : k < i + 1
        · have hbnd := rangeOp_bound_aget dflt h1.2 (by omega) (by rw [aswap_length]; omega)
            (fun x => less (aget dflt (aswap l first (first + (i + 1))) (first + q)) x = false)
            ?_ (first + k) (by omega) (by omega)
          · exact hbnd
          · intro pos hpos1 hpos2
            have hs := hsufsw q (pos - first) hq hqhi (by omega)
            rw [show first + (pos - first) = pos by omega] at hs
            exact hs
        · have hko := rangeOp_aget_outside dflt h1.2 (first + k) (Or.inr (by omega))
          rw [hko]
          exact hsufsw q k hq hqhi hk
      have h2 := ih (siftDownLoop less dflt (i + 1) first (aswap l first (first + (i + 1))) 0)
        (by rw [h1.2.1, aswap_length]; exact hlen) (by omega) h1.1 hsufl2
      refine ⟨h2.1, ?_⟩
      have hsw : RangeOp l (aswap l first (first + (i + 1))) first (first + (i + 1) + 1) :=
        aswap_rangeOp (le_refl _) (by omega) (by omega) (by omega) (by omega)
      refine rangeOp_trans hsw (rangeOp_trans (rangeOp_mono h1.2 (by omega) (by omega))
        (rangeOp_mono h2.2 (by omega) (by omega)))

theorem heapSort_spec [DecidableEq α]
    (hasymm : ∀ x y, less x y = true → less y x = false)
    (hletrans : ∀ x y z, less y x = false → less z y = false → less z x = false)
    (l : List α) (a b : Nat) (hblen : b ≤ l.length) :
    SortedRange less dflt (heapSort less dflt l a b) a b ∧
    RangeOp l (heapSort less dflt l a b) a b := by
  rcases hE : b - a with _ | h
  · have hred : heapSort less dflt l a b = l := by
      unfold heapSort
      rw [hE, show (0 - 1) / 2 = 0 by omega]
      simp only [heapBuild, siftDown]
      unfold siftDownLoop
      rw [dif_pos (by omega)]
    rw [hred]
    exact ⟨sortedRange_of_le less dflt (by omega), rangeOp_refl ..⟩
  · unfold heapSort
    rw [hE, show h + 1 - 1 = h from rfl]
    have hpre : HeapFrom less dflt l a (h + 1) (h / 2 + 1) := by
      intro p c hp hc hedge
      exfalso
      rcases hedge with h1 | h1 <;> omega
    have h1 := heapBuild_spec less dflt hasymm hletrans (h + 1) a (h / 2) l (by omega) hpre
    have hsufv : SufDom less dflt (heapBuild less dflt (h + 1) a l (h / 2)) a (h + 1)
        (h + 1) := by
      intro q k hq hqhi hk
      exact absurd hqhi (by omega)
    have h2 := heapPop_spec less dflt hasymm hletrans a (h + 1) h
      (heapBuild less dflt (h + 1) a l (h / 2)) (by rw [h1.2.1]; omega) (by omega) h1.1 hsufv
    obtain ⟨hs, hr⟩ := h2
    rw [show a + (h + 1) = b by omega] at hs
    refine ⟨hs, ?_⟩
    refine rangeOp_trans (rangeOp_mono h1.2 (le_refl _) (by omega))
      (rangeOp_mono hr (le_refl _) (by omega))

theorem scanLt_ge (l : List α) (pivot c a : Nat) : a ≤ scanLt less dflt l pivot c a := by
  unfold scanLt
  split
  · next h => exact le_trans (Nat.le_succ a) (scanLt_ge l pivot c (a + 1))
  · exact le_refl a
termination_by c - a
decreasing_by omega

theorem scanLt_le_limit (l : List α) (pivot c a : Nat) (hac : a ≤ c) :
    scanLt less dflt l pivot c a ≤ c := by
  unfold scanLt
  split
  · next h => exact scanLt_le_limit l pivot c (a + 1) (by omega)
  · exact hac
termination_by c - a
decreasing_by omega

theorem scanLt_zone (l : List α) (pivot c a i : Nat) (hi : a ≤ i)
    (hilt : i < scanLt less dflt l pivot c a) :
    less (aget dflt l i) (aget dflt l pivot) = true := by
  unfold scanLt at hilt
  split at hilt
  · next h =>
      by_cases hia : i = a
      · rw [hia]
        exact h.2
      · exact scanLt_zone l pivot c (a + 1) i (by omega) hilt
  · exact absurd hilt (by omega)
termination_by c - a
decreasing_by omega

theorem scanLe_le_limit (l : List α) (pivot c b : Nat) (hbc : b ≤ c) :
    scanLe less dflt l pivot c b ≤ c := by
  unfold scanLe
  split
  · next h => exact scanLe_le_limit l pivot c (b + 1) (by omega)
  · exact hbc
termination_by c - b
decreasing_by omega

theorem scanLe_zone (l : List α) (pivot c b i : Nat) (hi : b ≤ i)
    (hilt : i < scanLe less dflt l pivot c b) :
    less (aget dflt l pivot) (aget dflt l i) = false := by
  unfold scanLe at hilt
  split at hilt
  · next h =>
      by_cases hib : i = b
      · rw [hib]
        rcases Bool.eq_false_or_eq_true (less (aget dflt l pivot) (aget dflt l b)) with
          ht | hf
        · exact absurd ht h.2
        · exact hf
      · exact scanLe_zone l pivot c (b + 1) i (by omega) hilt
  · exact absurd hilt (by omega)
termination_by c - b
decreasing_by omega

theorem scanLe_stop (l : List α) (pivot c b : Nat)
    (hlt : scanLe less dflt l pivot c b < c) :
    less (aget dflt l pivot) (aget dflt l (scanLe less dflt l pivot c b)) = true := by
  unfold scanLe at hlt ⊢
  split at hlt
  · next h =>
      have := scanLe_stop l pivot c (b + 1) hlt
      split
      · exact this
      · next hcon => exact absurd h hcon
  · next h =>
      split
      · next hcon => exact absurd hcon h
      · by_contra hneg
        exact h ⟨hlt, hneg⟩
termination_by c - b
decreasing_by omega

theorem scanGt_ge (l : List α) (pivot b c : Nat) (hbc : b ≤ c) :
    b ≤ scanGt less dflt l pivot b c := by
  unfold scanGt
  split
  · next h => exact scanGt_ge l pivot b (c - 1) (by omega)
  · exact hbc
termination_by c
decreasing_by omega

theorem scanGt_zone (l : List α) (pivot b c i : Nat)
    (hi : scanGt less dflt l pivot b c ≤ i) (hic : i < c) :
    less (aget dflt l pivot) (aget dflt l i) = true := by
  unfold scanGt at hi
  split at hi
  · next h =>
      by_cases hic1 : i = c - 1
      · rw [hic1]
        exact h.2
      · exact scanGt_zone l pivot b (c - 1) i hi (by omega)
  · exact absurd hic (by omega)
termination_by c
decreasing_by omega

theorem scanGt_stop (l : List α) (pivot b c : Nat)
    (hlt : b < scanGt less dflt l pivot b c) :
    less (aget dflt l pivot) (aget dflt l (scanGt less dflt l pivot b c - 1)) = false := by
  unfold scanGt at hlt ⊢
  split at hlt
  · next h =>
      have := scanGt_stop l pivot b (c - 1) hlt
      split
      · exact this
      · next hcon => exact absurd h hcon
  · next h =>
      split
      · next hcon => exact absurd hcon h
      · rcases Bool.eq_false_or_eq_true
          (less (aget dflt l pivot) (aget dflt l (c - 1))) with ht | hf
        · exact absurd ⟨hlt, ht⟩ h
        · exact hf
termination_by c
decreasing_by omega

theorem scanEqRight_ge (l : List α) (pivot a b : Nat) (hab : a ≤ b) :
    a ≤ scanEqRight less dflt l pivot a b := by
  unfold scanEqRight
  split
  · next h => exact scanEqRight_ge l pivot a (b - 1) (by omega)
  · exact hab
termination_by b
decreasing_by omega

theorem scanEqRight_zone (l : List α) (pivot a b i : Nat)
    (hi : scanEqRight less dflt l pivot a b ≤ i) (hib : i < b) :
    less (aget dflt l i) (aget dflt l pivot) = false := by
  unfold scanEqRight at hi
  split at hi
  · next h =>
      by_cases hib1 : i = b - 1
      · rw [hib1]
        rcases Bool.eq_false_or_eq_true (less (aget dflt l (b - 1)) (aget dflt l pivot))
          with ht | hf
        · exact absurd ht h.2
        · exact hf
      · exact scanEqRight_zone l pivot a (b - 1) i hi (by omega)
  · exact absurd hib (by omega)
termination_by b
decreasing_by omega

theorem scanEqRight_stop (l : List α) (pivot a b : Nat)
    (hlt : a < scanEqRight less dflt l pivot a b) :
    less (aget dflt l (scanEqRight less dflt l pivot a b - 1)) (aget dflt l pivot) =
      true := by
  unfold scanEqRight at hlt ⊢
  split at hlt
  · next h =>
      have := scanEqRight_stop l pivot a (b - 1) hlt
      split
      · exact this
      · next hcon => exact absurd h hcon
  · next h =>
      split
      · next hcon => exact absurd hcon h
      · by_contra hneg
        exact h ⟨hlt, hneg⟩
termination_by b
decreasing_by omega

theorem scanLtLeft_le_limit (l : List α) (pivot b a : Nat) (hab : a ≤ b) :
    scanLtLeft less dflt l pivot b a ≤ b := by
  unfold scanLtLeft
  split
  · next h => exact scanLtLeft_le_limit l pivot b (a + 1) (by omega)
  · exact hab
termination_by b - a
decreasing_by omega

theorem scanLtLeft_zone (l : List α) (pivot b a i : Nat) (hi : a ≤ i)
    (hilt : i < scanLtLeft less dflt l pivot b a) :
    less (aget dflt l i) (aget dflt l pivot) = true := by
  unfold scanLtLeft at hilt
  split at hilt
  · next h =>
      by_cases hia : i = a
      · rw [hia]
        exact h.2
      · exact scanLtLeft_zone l pivot b (a + 1) i (by omega) hilt
  · exact absurd hilt (by omega)
termination_by b - a
decreasing_by omega

theorem scanLtLeft_stop (l : List α) (pivot b a : Nat)
    (hlt : scanLtLeft less dflt l pivot b a < b) :
    less (aget dflt l (scanLtLeft less dflt l pivot b a)) (aget dflt l pivot) = false := by
  unfold scanLtLeft at hlt ⊢
  split at hlt
  · next h =>
      have := scanLtLeft_stop l pivot b (a + 1) hlt
      split
      · exact this
      · next hcon => exact absurd h hcon
  · next h =>
      split
      · next hcon => exact absurd hcon h
      · rcases Bool.eq_false_or_eq_true
          (less (aget dflt l a) (aget dflt l pivot)) with ht | hf
        · exact absurd ⟨hlt, ht⟩ h
        · exact hf
termination_by b - a
decreasing_by omega

theorem partLoop_spec [DecidableEq α]
    (hasymm : ∀ x y, less x y = true → less y x = false)
    (pivot lo hi : Nat) (p : α) :
    ∀ (n b c : Nat) (l l2 : List α) (b1 c1 : Nat),
      c - b ≤ n →
      partLoop less dflt pivot l b c = (l2, b1, c1) →
      pivot ≤ lo → lo < b → b ≤ c + 1 → c ≤ hi → hi ≤ l.length →
      aget dflt l pivot = p →
      (∀ i, lo < i → i < b → less p (aget dflt l i) = false) →
      (∀ i, c ≤ i → i < hi → less (aget dflt l i) p = false) →
      RangeOp l l2 b c ∧ b ≤ b1 ∧ c1 ≤ c ∧ c1 ≤ b1 ∧ b1 ≤ c1 + 1 ∧ (b ≤ c → b ≤ c1) ∧
      aget dflt l2 pivot = p ∧
      (∀ i, lo < i → i < b1 → less p (aget dflt l2 i) = false) ∧
      (∀ i, c1 ≤ i → i < hi → less (aget dflt l2 i) p = false) := by
  intro n
  induction n with
  | zero =>
      intro b c l l2 b1 c1 hn heq hplo hlob hbc hchi hhilen hp hleft hright
      have hb2 : scanLe less dflt l pivot c b = b := by
        unfold scanLe
        rw [dif_neg (by intro hcon; exact absurd hcon.1 (by omega))]
      have hc2 : scanGt less dflt l pivot b c = c := by
        unfold scanGt
        rw [dif_neg (by intro hcon; exact absurd hcon.1 (by omega))]
      unfold partLoop at heq
      rw [hb2, hc2, dif_neg (by omega)] at heq
      injection heq with h1 h23
      injection h23 with h2 h3
      subst h1; subst h2; subst h3
      exact ⟨rangeOp_refl .., le_refl _, le_refl _, by omega, by omega, by omega, hp,
        hleft, hright⟩
  | succ n ih =>
      intro b c l l2 b1 c1 hn heq hplo hlob hbc hchi hhilen hp hleft hright
      obtain ⟨b2, hb2⟩ : ∃ b2, scanLe less dflt l pivot c b = b2 := ⟨_, rfl⟩
      obtain ⟨c2, hc2⟩ : ∃ c2, scanGt less dflt l pivot b2 c = c2 := ⟨_, rfl⟩
      unfold partLoop at heq
      rw [hb2, hc2] at heq
      have hb2ge : b ≤ b2 := hb2 ▸ scanLe_le less dflt l pivot c b
      have hc2le : c2 ≤ c := hc2 ▸ scanGt_le less dflt l pivot b2 c
      have hzb : ∀ i, b ≤ i → i < b2 → less p (aget dflt l i) = false := by
        intro i hbi hib2
        have := scanLe_zone less dflt l pivot c b i hbi (hb2 ▸ hib2)
        rw [hp] at this
        exact this
      have hzc : ∀ i, c2 ≤ i → i < c → less (aget dflt l i) p = false := by
        intro i hc2i hic
        have := scanGt_zone less dflt l pivot b2 c i (hc2 ▸ hc2i) hic
        rw [hp] at this
        exact hasymm _ _ this
      by_cases hguard : b2 < c2
      · rw [dif_pos hguard] at heq
        have hbc' : b < c := by omega
        have hs1 : less p (aget dflt l b2) = true := by
          have := scanLe_stop less dflt l pivot c b (by omega)
          rw [hp, hb2] at this
          exact this
        have hs2 : less p (aget dflt l (c2 - 1)) = false := by
          have := scanGt_stop less dflt l pivot b2 c (by omega)
          rw [hp, hc2] at this
          exact this
        have hne : b2 < c2 - 1 := by
          rcases Nat.lt_or_ge b2 (c2 - 1) with h | h
          · exact h
          · have hco : b2 = c2 - 1 := by omega
            rw [hco] at hs1
            rw [hs1] at hs2
            simp at hs2
        have hb2len : b2 < l.length := by omega
        have hc21len : c2 - 1 < l.length := by omega
        have hgetsw := aget_aswap dflt hb2len hc21len
        have ihres := ih (b2 + 1) (c2 - 1) (aswap l b2 (c2 - 1)) l2 b1 c1 (by omega) heq
          hplo (by omega) (by omega) (by omega) (by rw [aswap_length]; exact hhilen)
          (by rw [hgetsw, if_neg (by omega), if_neg (by omega)]; exact hp)
          (by
            intro i hloi hib
            rw [hgetsw]
            by_cases hib2 : i = b2
            · rw [if_pos hib2]
              exact hs2
            · rw [if_neg hib2, if_neg (by omega)]
              by_cases hilt : i < b
              · exact hleft i hloi hilt
              · exact hzb i (by omega) (by omega))
          (by
            intro i hci hihi
            rw [hgetsw, if_neg (by omega)]
            by_cases hic21 : i = c2 - 1
            · rw [if_pos hic21]
              exact hasymm _ _ hs1
            · rw [if_neg hic21]
              by_cases hic : i < c
              · exact hzc i (by omega) hic
              · exact hright i (by omega) hihi)
        obtain ⟨hop, hbb1, hc1c, hc1b1, hb1c1, hbc1, hp2, hl2, hr2⟩ := ihres
        refine ⟨?_, by omega, by omega, hc1b1, hb1c1, fun _ => by omega, hp2, hl2, hr2⟩
        refine rangeOp_trans ?_ (rangeOp_mono hop (by omega) (by omega))
        exact aswap_rangeOp (by omega) (by omega) (by omega) (by omega) (by omega)
      · rw [dif_neg hguard] at heq
        injection heq with h1 h23
        injection h23 with h2 h3
        subst h1; subst h2; subst h3
        have hb1c1 : b2 ≤ c2 + 1 ∧ (b ≤ c → b ≤ c2) := by
          by_cases hbci : b ≤ c
          · have h1 := hb2 ▸ scanLe_le_limit less dflt l pivot c b hbci
            have h2 := hc2 ▸ scanGt_ge less dflt l pivot b2 c h1
            exact ⟨by omega, fun _ => by omega⟩
          · have hb2e : scanLe less dflt l pivot c b = b := by
              unfold scanLe
              rw [dif_neg (by intro hcon; exact absurd hcon.1 (by omega))]
            have hb2b : b2 = b := by rw [← hb2, hb2e]
            have hc2e : scanGt less dflt l pivot b2 c = c := by
              unfold scanGt
              rw [dif_neg (by intro hcon; exact absurd hcon.1 (by omega))]
            have hc2c : c2 = c := by rw [← hc2, hc2e]
            exact ⟨by omega, fun hco => absurd hco hbci⟩
        refine ⟨rangeOp_refl .., hb2ge, hc2le, by omega, hb1c1.1, hb1c1.2, hp, ?_, ?_⟩
        · intro i hloi hib2
          by_cases hilt : i < b
          · exact hleft i hloi hilt
          · exact hzb i (by omega) hib2
        · intro i hc2i hihi
          by_cases hic : i < c
          · exact hzc i hc2i hic
          · exact hright i (by omega) hihi

theorem protLoop_spec [DecidableEq α]
    (pivot lo hi : Nat) (p : α) :
    ∀ (n a b : Nat) (l l2 : List α) (a2 b3 : Nat),
      b - a ≤ n →
      protLoop less dflt pivot l a b = (l2, a2, b3) →
      pivot ≤ lo → lo < a → a ≤ b + 1 → lo < b → b ≤ hi → hi ≤ l.length →
      aget dflt l pivot = p →
      (∀ i, lo < i → i < b → less p (aget dflt l i) = false) →
      RangeOp l l2 a b ∧ lo < b3 ∧ b3 ≤ b ∧
      aget dflt l2 pivot = p ∧
      (∀ i, lo < i → i < b → less p (aget dflt l2 i) = false) ∧
      (∀ i, b3 ≤ i → i < b → less (aget dflt l2 i) p = false) := by
  intro n
  induction n with
  | zero =>
      intro a b l l2 a2 b3 hn heq hplo hloa hab hlob hbhi hhilen hp hleft
      -- b ≤ a: both scans stall
      have hb4 : scanEqRight less dflt l pivot a b = b := by
        unfold scanEqRight
        rw [dif_neg (by intro hcon; exact absurd hcon.1 (by omega))]
      have ha2 : scanLtLeft less dflt l pivot b a = a := by
        unfold scanLtLeft
        rw [dif_neg (by intro hcon; exact absurd hcon.1 (by omega))]
      unfold protLoop at heq
      rw [hb4, ha2, dif_neg (by omega)] at heq
      injection heq with h1 h23
      injection h23 with h2 h3
      subst h1; subst h2; subst h3
      refine ⟨rangeOp_refl .., hlob, le_refl _, hp, hleft, ?_⟩
      intro i hbi hib
      exact absurd (lt_of_le_of_lt hbi hib) (lt_irrefl b)
  | succ n ih =>
      intro a b l l2 a2 b3 hn heq hplo hloa hab hlob hbhi hhilen hp hleft
      obtain ⟨b4, hb4⟩ : ∃ b4, scanEqRight less dflt l pivot a b = b4 := ⟨_, rfl⟩
      obtain ⟨a2r, ha2r⟩ : ∃ a2r, scanLtLeft less dflt l pivot b4 a = a2r := ⟨_, rfl⟩
      unfold protLoop at heq
      rw [hb4, ha2r] at heq
      have hb4le : b4 ≤ b := hb4 ▸ scanEqRight_le less dflt l pivot a b
      have ha2ge : a ≤ a2r := ha2r ▸ scanLtLeft_le less dflt l pivot b4 a
      have hz4 : ∀ i, b4 ≤ i → i < b → less (aget dflt l i) p = false := by
        intro i hb4i hib
        have := scanEqRight_zone less dflt l pivot a b i (hb4 ▸ hb4i) hib
        rw [hp] at this
        exact this
      by_cases hguard : a2r < b4
      · rw [dif_pos hguard] at heq
        have hs1 : less (aget dflt l a2r) p = false := by
          have := scanLtLeft_stop less dflt l pivot b4 a (by omega)
          rw [hp, ha2r] at this
          exact this
        have hs2 : less (aget dflt l (b4 - 1)) p = true := by
          have := scanEqRight_stop less dflt l pivot a b (by omega)
          rw [hp, hb4] at this
          exact this
        have hne : a2r < b4 - 1 := by
          rcases Nat.lt_or_ge a2r (b4 - 1) with h | h
          · exact h
          · have hco : a2r = b4 - 1 := by omega
            rw [hco] at hs1
            rw [hs2] at hs1
            simp at hs1
        have ha2len : a2r < l.length := by omega
        have hb41len : b4 - 1 < l.length := by omega
        have hgetsw := aget_aswap dflt ha2len hb41len
        have ihres := ih (a2r + 1) (b4 - 1) (aswap l a2r (b4 - 1)) l2 a2 b3 (by omega) heq
          hplo (by omega) (by omega) (by omega) (by omega)
          (by rw [aswap_length]; exact hhilen)
          (by rw [hgetsw, if_neg (by omega), if_neg (by omega)]; exact hp)
          (by
            intro i hloi hib
            rw [hgetsw]
            by_cases hia : i = a2r
            · rw [if_pos hia]
              exact hleft (b4 - 1) (by omega) (by omega)
            · rw [if_neg hia, if_neg (by omega)]
              exact hleft i hloi (by omega))
        obtain ⟨hop, hlob3, hb3le, hp2, hl2, hr2⟩ := ihres
        have houts : ∀ i, b4 - 1 ≤ i → aget dflt l2 i = aget dflt (aswap l a2r (b4 - 1)) i :=
          fun i hi => rangeOp_aget_outside dflt hop i (Or.inr (by omega))
        refine ⟨?_, hlob3, by omega, hp2, ?_, ?_⟩
        · refine rangeOp_trans ?_ (rangeOp_mono hop (by omega) (by omega))
          exact aswap_rangeOp (by omega) (by omega) (by omega) (by omega) (by omega)
        · intro i hloi hib
          by_cases hilt : i < b4 - 1
          · exact hl2 i hloi hilt
          · rw [houts i (by omega), hgetsw, if_neg (by omega)]
            by_cases hib41 : i = b4 - 1
            · rw [if_pos hib41]
              exact hleft a2r (by omega) (by omega)
            · rw [if_neg hib41]
              exact hleft i hloi hib
        · intro i hb3i hib
          by_cases hilt : i < b4 - 1
          · exact hr2 i hb3i hilt
          · rw [houts i (by omega), hgetsw, if_neg (by omega)]
            by_cases hib41 : i = b4 - 1
            · rw [if_pos hib41]
              exact hs1
            · rw [if_neg hib41]
              exact hz4 i (by omega) hib
      · rw [dif_neg hguard] at heq
        injection heq with h1 h23
        injection h23 with h2 h3
        subst h1; subst h2; subst h3
        have hlob4 : lo < b4 := by
          by_cases habi : a ≤ b
          · have := hb4 ▸ scanEqRight_ge less dflt l pivot a b habi
            omega
          · have hb4e : scanEqRight less dflt l pivot a b = b := by
              unfold scanEqRight
              rw [dif_neg (by intro hcon; exact absurd hcon.1 (by omega))]
            have : b4 = b := by rw [← hb4, hb4e]
            omega
        exact ⟨rangeOp_refl .., hlob4, hb4le, hp, hleft, fun i hb4i hib => hz4 i hb4i hib⟩

theorem med3c_ord
    (hasymm : ∀ x y, less x y = true → less y x = false)
    (l : List α) (m1 m0 : Nat) (h1 : m1 < l.length) (h0 : m0 < l.length) (hne : m1 ≠ m0) :
    less (aget dflt (med3c less dflt l m1 m0) m1)
      (aget dflt (med3c less dflt l m1 m0) m0) = false := by
  unfold med3c
  split
  · next hc =>
      rw [aget_aswap dflt h1 h0, aget_aswap dflt h1 h0, if_pos rfl,
        if_neg (fun hh => hne hh.symm), if_pos rfl]
      exact hasymm _ _ hc
  · next hc =>
      rcases Bool.eq_false_or_eq_true (less (aget dflt l m1) (aget dflt l m0)) with ht | hf
      · exact absurd ht hc
      · exact hf

theorem med3c_rangeOp [DecidableEq α] (l : List α) (m1 m0 a b : Nat)
    (hm1a : a ≤ m1) (hm1b : m1 < b) (hm0a : a ≤ m0) (hm0b : m0 < b) (hb : b ≤ l.length) :
    RangeOp l (med3c less dflt l m1 m0) a b := by
  unfold med3c
  split
  · exact aswap_rangeOp hm1a hm1b hm0a hm0b hb
  · exact rangeOp_refl ..

theorem med3b_rangeOp [DecidableEq α] (l : List α) (m1 m0 m2 a b : Nat)
    (hm1a : a ≤ m1) (hm1b : m1 < b) (hm0a : a ≤ m0) (hm0b : m0 < b)
    (hm2a : a ≤ m2) (hm2b : m2 < b) (hb : b ≤ l.length) :
    RangeOp l (med3b less dflt l m1 m0 m2) a b := by
  unfold med3b
  split
  · refine rangeOp_trans (aswap_rangeOp hm2a hm2b hm1a hm1b hb) ?_
    refine med3c_rangeOp less dflt _ m1 m0 a b hm1a hm1b hm0a hm0b ?_
    rw [aswap_length]
    exact hb
  · exact rangeOp_refl ..

theorem medianOfThree_rangeOp [DecidableEq α] (l : List α) (m1 m0 m2 a b : Nat)
    (hm1a : a ≤ m1) (hm1b : m1 < b) (hm0a : a ≤ m0) (hm0b : m0 < b)
    (hm2a : a ≤ m2) (hm2b : m2 < b) (hb : b ≤ l.length) :
    RangeOp l (medianOfThree less dflt l m1 m0 m2) a b := by
  unfold medianOfThree
  have h1 := med3c_rangeOp less dflt l m1 m0 a b hm1a hm1b hm0a hm0b hb
  refine rangeOp_trans h1 ?_
  refine med3b_rangeOp less dflt _ m1 m0 m2 a b hm1a hm1b hm0a hm0b hm2a hm2b ?_
  rw [h1.1]
  exact hb

theorem medianOfThree_ord
    (hasymm : ∀ x y, less x y = true → less y x = false)
    (l : List α) (m1 m0 m2 : Nat)
    (h1 : m1 < l.length) (h0 : m0 < l.length) (h2 : m2 < l.length)
    (h10 : m1 ≠ m0) (h12 : m1 ≠ m2) (h02 : m0 ≠ m2) :
    less (aget dflt (medianOfThree less dflt l m1 m0 m2) m2)
      (aget dflt (medianOfThree less dflt l m1 m0 m2) m1) = false ∧
    less (aget dflt (medianOfThree less dflt l m1 m0 m2) m1)
      (aget dflt (medianOfThree less dflt l m1 m0 m2) m0) = false := by
  obtain ⟨la, hla⟩ : ∃ la, med3c less dflt l m1 m0 = la := ⟨_, rfl⟩
  have hlalen : la.length = l.length := by
    rw [← hla]
    unfold med3c
    split
    · exact aswap_length ..
    · rfl
  have hla10 : less (aget dflt la m1) (aget dflt la m0) = false := by
    rw [← hla]
    exact med3c_ord less dflt hasymm l m1 m0 h1 h0 h10
  have h1' : m1 < la.length := by omega
  have h0' : m0 < la.length := by omega
  have h2' : m2 < la.length := by omega
  unfold medianOfThree
  rw [hla]
  unfold med3b
  split
  · next hc2 =>
      have hgetb := aget_aswap dflt h2' h1'
      have h1b : m1 < (aswap la m2 m1).length := by rw [aswap_length]; exact h1'
      have h0b : m0 < (aswap la m2 m1).length := by rw [aswap_length]; exact h0'
      have hb2 : aget dflt (aswap la m2 m1) m2 = aget dflt la m1 := by
        rw [hgetb, if_pos rfl]
      have hb1 : aget dflt (aswap la m2 m1) m1 = aget dflt la m2 := by
        rw [hgetb, if_neg h12, if_pos rfl]
      have hb0 : aget dflt (aswap la m2 m1) m0 = aget dflt la m0 := by
        rw [hgetb, if_neg h02, if_neg (fun hh => h10 hh.symm)]
      unfold med3c
      split
      · next hc3 =>
          have hgetr := aget_aswap dflt h1b h0b
          rw [hb1, hb0] at hc3
          constructor
          · rw [hgetr, hgetr, if_neg (fun hh => h12 hh.symm),
              if_neg (fun hh => h02 hh.symm), if_pos rfl, hb2, hb0]
            exact hla10
          · rw [hgetr, hgetr, if_pos rfl, if_neg (fun hh => h10 hh.symm), if_pos rfl,
              hb0, hb1]
            exact hasymm _ _ hc3
      · next hc3 =>
          rw [hb1, hb0] at hc3
          constructor
          · rw [hb2, hb1]
            exact hasymm _ _ hc2
          · rw [hb1, hb0]
            rcases Bool.eq_false_or_eq_true
              (less (aget dflt la m2) (aget dflt la m0)) with ht | hf
            · exact absurd ht hc3
            · exact hf
  · next hc2 =>
      refine ⟨?_, hla10⟩
      rcases Bool.eq_false_or_eq_true (less (aget dflt la m2) (aget dflt la m1)) with ht | hf
      · exact absurd ht hc2
      · exact hf

theorem ninther_rangeOp [DecidableEq α] (l : List α) (lo hi : Nat)
    (hgap : lo + 13 ≤ hi) (hlen : hi ≤ l.length) :
    RangeOp l (ninther less dflt l lo hi) lo hi := by
  unfold ninther
  split
  · next hgt =>
      have hA := medianOfThree_rangeOp less dflt l lo (lo + (hi - lo) / 8)
        (lo + 2 * ((hi - lo) / 8)) lo hi (le_refl _) (by omega) (by omega) (by omega)
        (by omega) (by omega) hlen
      have hB := medianOfThree_rangeOp less dflt _ ((lo + hi) / 2)
        ((lo + hi) / 2 - (hi - lo) / 8) ((lo + hi) / 2 + (hi - lo) / 8) lo hi
        (by omega) (by omega) (by omega) (by omega) (by omega) (by omega)
        (by rw [hA.1]; exact hlen)
      have hC := medianOfThree_rangeOp less dflt _ (hi - 1) (hi - 1 - (hi - lo) / 8)
        (hi - 1 - 2 * ((hi - lo) / 8)) lo hi
        (by omega) (by omega) (by omega) (by omega) (by omega) (by omega)
        (by rw [hB.1, hA.1]; exact hlen)
      exact rangeOp_trans hA (rangeOp_trans hB hC)
  · exact rangeOp_refl ..

theorem doPivotDup_eq (pivot lo hi m : Nat) (l : List α) (b c : Nat) :
    doPivotDup less dflt pivot lo hi m (l, b, c) =
      if ¬ (hi - c < 5) ∧ hi - c < (hi - lo) / 4 then
        dupFinish
          (dupStep3 less dflt pivot m
            (dupStep2 less dflt pivot (dupStep1 less dflt pivot hi (l, c, b, 0))))
      else (l, b, c, decide (hi - c < 5)) := rfl

theorem dupStep1_eq (pivot hi : Nat) (l : List α) (c b d : Nat) :
    dupStep1 less dflt pivot hi (l, c, b, d) =
      if less (aget dflt l pivot) (aget dflt l (hi - 1)) = false then
        (aswap l c (hi - 1), c + 1, b, d + 1)
      else (l, c, b, d) := rfl

theorem dupStep2_eq (pivot : Nat) (l : List α) (c b d : Nat) :
    dupStep2 less dflt pivot (l, c, b, d) =
      if less (aget dflt l (b - 1)) (aget dflt l pivot) = false then (l, c, b - 1, d + 1)
      else (l, c, b, d) := rfl

theorem dupStep3_eq (pivot m : Nat) (l : List α) (c b d : Nat) :
    dupStep3 less dflt pivot m (l, c, b, d) =
      if less (aget dflt l m) (aget dflt l pivot) = false then
        (aswap l m (b - 1), c, b - 1, d + 1)
      else (l, c, b, d) := rfl

theorem dupFinish_eq (l : List α) (c b d : Nat) :
    dupFinish (l, c, b, d) = (l, b, c, decide (d > 1)) := rfl

theorem doPivotFinal_eq (pivot a : Nat) (l : List α) (b c : Nat) (prot : Bool) :
    doPivotFinal less dflt pivot a (l, b, c, prot) =
      if prot then
        ((protLoop less dflt pivot l a b).2.2 - 1, c,
          aswap (protLoop less dflt pivot l a b).1 pivot
            ((protLoop less dflt pivot l a b).2.2 - 1))
      else (b - 1, c, aswap l pivot (b - 1)) := rfl

theorem doPivotDup_spec [DecidableEq α]
    (hasymm : ∀ x y, less x y = true → less y x = false)
    (lo hi a : Nat) (p : α) (l2 : List α) (b1 c1 : Nat)
    (hlen : hi ≤ l2.length) (hgap : lo + 13 ≤ hi)
    (hage : lo + 1 ≤ a) (hab1 : a ≤ b1) (hc1hi : c1 ≤ hi - 1) (hac1 : a ≤ c1)
    (hc1b1 : c1 ≤ b1) (hb1c1 : b1 ≤ c1 + 1)
    (hp : aget dflt l2 lo = p)
    (hleft : ∀ i, lo ≤ i → i < b1 → less p (aget dflt l2 i) = false)
    (hright : ∀ i, c1 ≤ i → i < hi → less (aget dflt l2 i) p = false)
    (hstrict : ∀ i, lo < i → i < a → less (aget dflt l2 i) p = true) :
    ∀ l3 b2 c2 prot,
      doPivotDup less dflt lo lo hi ((lo + hi) / 2) (l2, b1, c1) = (l3, b2, c2, prot) →
      RangeOp l2 l3 lo hi ∧
      lo < b2 ∧ b2 ≤ b1 ∧ a ≤ b2 + 1 ∧ c1 ≤ c2 ∧ c2 ≤ hi ∧ b2 ≤ c2 + 1 ∧ lo < c2 ∧
      aget dflt l3 lo = p ∧
      (∀ i, lo ≤ i → i < b2 → less p (aget dflt l3 i) = false) ∧
      (∀ i, b2 ≤ i → i < c2 →
        less p (aget dflt l3 i) = false ∧ less (aget dflt l3 i) p = false) ∧
      (∀ i, c2 ≤ i → i < hi → less (aget dflt l3 i) p = false) := by
  intro l3 b2 c2 prot heq
  rw [doPivotDup_eq] at heq
  by_cases hdup : ¬ (hi - c1 < 5) ∧ hi - c1 < (hi - lo) / 4
  case neg =>
    rw [if_neg hdup] at heq
    injection heq with h1 h
    injection h with h2 h
    injection h with h3 h4
    subst h1; subst h2; subst h3
    refine ⟨rangeOp_refl .., by omega, le_refl _, by omega, le_refl _, by omega, hb1c1,
      by omega, hp, hleft, ?_, hright⟩
    intro i h1 h2
    exact absurd (lt_of_le_of_lt h1 h2) (by omega)
  case pos =>
    rw [if_pos hdup] at heq
    have harith : hi - c1 < (hi - lo) / 4 := hdup.2
    obtain ⟨lA, cA, dA, hsA, hopA, hlenA, hpA, hleftA, hmidA, hrightA, hstrictA,
        hcA1, hcA2⟩ :
        ∃ lA cA dA, dupStep1 less dflt lo hi (l2, c1, b1, 0) = (lA, cA, b1, dA) ∧
          RangeOp l2 lA a hi ∧ lA.length = l2.length ∧ aget dflt lA lo = p ∧
          (∀ i, lo ≤ i → i < b1 → less p (aget dflt lA i) = false) ∧
          (∀ i, b1 ≤ i → i < cA →
            less p (aget dflt lA i) = false ∧ less (aget dflt lA i) p = false) ∧
          (∀ i, cA ≤ i → i < hi → less (aget dflt lA i) p = false) ∧
          (∀ i, lo < i → i < a → less (aget dflt lA i) p = true) ∧
          c1 ≤ cA ∧ cA ≤ c1 + 1 := by
      rw [dupStep1_eq]
      by_cases hd1 : less (aget dflt l2 lo) (aget dflt l2 (hi - 1)) = false
      · rw [if_pos hd1]
        rw [hp] at hd1
        have hc1len : c1 < l2.length := by omega
        have hhilen : hi - 1 < l2.length := by omega
        have hget1 := aget_aswap dflt hc1len hhilen
        refine ⟨_, _, _, rfl, aswap_rangeOp (by omega) (by omega) (by omega) (by omega)
          (by omega), aswap_length .., ?_, ?_, ?_, ?_, ?_, by omega, by omega⟩
        · rw [hget1, if_neg (by omega), if_neg (by omega)]
          exact hp
        · intro i h1 h2
          rw [hget1]
          by_cases hic : i = c1
          · rw [if_pos hic]
            exact hd1
          · rw [if_neg hic, if_neg (by omega)]
            exact hleft i h1 h2
        · intro i h1 h2
          have hieq : i = c1 := by omega
          rw [hget1, if_pos hieq]
          exact ⟨hd1, hright (hi - 1) (by omega) (by omega)⟩
        · intro i h1 h2
          rw [hget1, if_neg (by omega)]
          by_cases hih : i = hi - 1
          · rw [if_pos hih]
            exact hright c1 (le_refl _) (by omega)
          · rw [if_neg hih]
            exact hright i (by omega) h2
        · intro i h1 h2
          rw [hget1, if_neg (by omega), if_neg (by omega)]
          exact hstrict i h1 h2
      · rw [if_neg hd1]
        refine ⟨_, _, _, rfl, rangeOp_refl .., rfl, hp, hleft, ?_, hright, hstrict,
          le_refl _, by omega⟩
        intro i h1 h2
        exact absurd (lt_of_le_of_lt h1 h2) (by omega)
    obtain ⟨bB, dB, hsB, habB, hbB1, hbB2, hleftB, hmidB⟩ :
        ∃ bB dB, dupStep2 less dflt lo (lA, cA, b1, dA) = (lA, cA, bB, dB) ∧
          a ≤ bB ∧ bB ≤ b1 ∧ b1 ≤ bB + 1 ∧
          (∀ i, lo ≤ i → i < bB → less p (aget dflt lA i) = false) ∧
          (∀ i, bB ≤ i → i < cA →
            less p (aget dflt lA i) = false ∧ less (aget dflt lA i) p = false) := by
      rw [dupStep2_eq]
      by_cases hd2 : less (aget dflt lA (b1 - 1)) (aget dflt lA lo) = false
      · rw [if_pos hd2]
        rw [hpA] at hd2
        have hab11 : a ≤ b1 - 1 := by
          by_contra hcon
          have hlt : b1 - 1 < a := by omega
          have hgt : lo < b1 - 1 := by omega
          have hstr := hstrictA (b1 - 1) hgt hlt
          rw [hd2] at hstr
          exact Bool.noConfusion hstr
        refine ⟨_, _, rfl, hab11, by omega, by omega, ?_, ?_⟩
        · intro i h1 h2
          exact hleftA i h1 (by omega)
        · intro i h1 h2
          by_cases hib : i = b1 - 1
          · rw [hib]
            exact ⟨hleftA (b1 - 1) (by omega) (by omega), hd2⟩
          · exact hmidA i (by omega) h2
      · rw [if_neg hd2]
        exact ⟨_, _, rfl, by omega, le_refl _, by omega, hleftA, hmidA⟩
    have hm1 : lo < (lo + hi) / 2 := by omega
    have hm2 : (lo + hi) / 2 < bB - 1 := by omega
    obtain ⟨lC, bC, dC, hsC, hopC, hlenC, hpC, habC, hbC1, hloC, hleftC, hmidC,
        hrightC⟩ :
        ∃ lC bC dC,
          dupStep3 less dflt lo ((lo + hi) / 2) (lA, cA, bB, dB) = (lC, cA, bC, dC) ∧
          RangeOp lA lC lo hi ∧ lC.length = lA.length ∧ aget dflt lC lo = p ∧
          a ≤ bC + 1 ∧ bC ≤ b1 ∧ lo < bC ∧
          (∀ i, lo ≤ i → i < bC → less p (aget dflt lC i) = false) ∧
          (∀ i, bC ≤ i → i < cA →
            less p (aget dflt lC i) = false ∧ less (aget dflt lC i) p = false) ∧
          (∀ i, cA ≤ i → i < hi → less (aget dflt lC i) p = false) := by
      rw [dupStep3_eq]
      by_cases hd3 : less (aget dflt lA ((lo + hi) / 2)) (aget dflt lA lo) = false
      · rw [if_pos hd3]
        rw [hpA] at hd3
        have hmlen : (lo + hi) / 2 < lA.length := by omega
        have hbBlen : bB - 1 < lA.length := by omega
        have hget3 := aget_aswap dflt hmlen hbBlen
        have hvalB : aget dflt (aswap lA ((lo + hi) / 2) (bB - 1)) (bB - 1) =
            aget dflt lA ((lo + hi) / 2) := by
          rw [hget3]
          by_cases hmb : bB - 1 = (lo + hi) / 2
          · rw [if_pos hmb, hmb]
          · rw [if_neg hmb, if_pos rfl]
        refine ⟨_, _, _, rfl, aswap_rangeOp (by omega) (by omega) (by omega) (by omega)
          (by omega), aswap_length .., ?_, by omega, by omega, by omega, ?_, ?_, ?_⟩
        · rw [hget3, if_neg (by omega), if_neg (by omega)]
          exact hpA
        · intro i h1 h2
          rw [hget3]
          by_cases him : i = (lo + hi) / 2
          · rw [if_pos him]
            exact hleftB (bB - 1) (by omega) (by omega)
          · rw [if_neg him, if_neg (by omega)]
            exact hleftB i h1 (by omega)
        · intro i h1 h2
          by_cases hib : i = bB - 1
          · rw [hib, hvalB]
            exact ⟨hleftB ((lo + hi) / 2) (by omega) (by omega), hd3⟩
          · rw [hget3, if_neg (by omega), if_neg hib]
            exact hmidB i (by omega) h2
        · intro i h1 h2
          by_cases hib : i = bB - 1
          · rw [hib, hvalB]
            exact hd3
          · rw [hget3, if_neg (by omega), if_neg hib]
            exact hrightA i h1 h2
      · rw [if_neg hd3]
        exact ⟨_, _, _, rfl, rangeOp_refl .., rfl, hpA, by omega, by omega, by omega,
          hleftB, hmidB, hrightA⟩
    rw [hsA, hsB, hsC, dupFinish_eq] at heq
    injection heq with h1 h
    injection h with h2 h
    injection h with h3 h4
    subst h1; subst h2; subst h3
    refine ⟨?_, hloC, hbC1, habC, hcA1, by omega, by omega, by omega, hpC, hleftC,
      hmidC, hrightC⟩
    exact rangeOp_trans (rangeOp_mono hopA (by omega) (le_refl _)) hopC

theorem doPivotAssemble [DecidableEq α]
    (hasymm : ∀ x y, less x y = true → less y x = false)
    (lo hi b3 c2 : Nat) (p : α) (l4 : List α)
    (hlen4 : hi ≤ l4.length) (hlohi : lo < hi) (hlob3 : lo < b3) (hb3hi : b3 - 1 < hi)
    (hp4 : aget dflt l4 lo = p)
    (hleB : less p (aget dflt l4 (b3 - 1)) = false)
    (hle : ∀ i, lo ≤ i → i < c2 → less p (aget dflt l4 i) = false)
    (hge : ∀ i, b3 ≤ i → i < hi → less (aget dflt l4 i) p = false) :
    RangeOp l4 (aswap l4 lo (b3 - 1)) lo hi ∧
    aget dflt (aswap l4 lo (b3 - 1)) (b3 - 1) = p ∧
    (∀ i, lo ≤ i → i < c2 → less p (aget dflt (aswap l4 lo (b3 - 1)) i) = false) ∧
    (∀ i, b3 - 1 ≤ i → i < hi →
      less (aget dflt (aswap l4 lo (b3 - 1)) i) p = false) := by
  have hlolen : lo < l4.length := by omega
  have hblen : b3 - 1 < l4.length := by omega
  have hget := aget_aswap dflt hlolen hblen
  refine ⟨aswap_rangeOp (le_refl _) hlohi (by omega) hb3hi hlen4, ?_, ?_, ?_⟩
  · rw [hget]
    by_cases hbl : b3 - 1 = lo
    · rw [if_pos hbl, hbl]
      exact hp4
    · rw [if_neg hbl, if_pos rfl]
      exact hp4
  · intro i h1 h2
    rw [hget]
    by_cases hil : i = lo
    · rw [if_pos hil]
      exact hleB
    · rw [if_neg hil]
      by_cases hib : i = b3 - 1
      · rw [if_pos hib, hp4]
        exact less_irrefl less hasymm _
      · rw [if_neg hib]
        exact hle i h1 h2
  · intro i h1 h2
    rw [hget]
    by_cases hil : i = lo
    · rw [if_pos hil]
      have hbl : b3 - 1 = lo := by omega
      rw [hbl, hp4]
      exact less_irrefl less hasymm _
    · rw [if_neg hil]
      by_cases hib : i = b3 - 1
      · rw [if_pos hib, hp4]
        exact less_irrefl less hasymm _
      · rw [if_neg hib]
        exact hge i (by omega) h2

theorem doPivot_spec [DecidableEq α]
    (hasymm : ∀ x y, less x y = true → less y x = false)
    (l : List α) (lo hi : Nat) (hlen : hi ≤ l.length) (hgap : lo + 13 ≤ hi) :
    ∀ mlo mhi lf, doPivot less dflt l lo hi = (mlo, mhi, lf) →
      RangeOp l lf lo hi ∧ lo ≤ mlo ∧ mlo ≤ mhi ∧ mhi ≤ hi ∧ mlo < hi ∧ lo < mhi ∧
      (∀ i, lo ≤ i → i < mhi → less (aget dflt lf mlo) (aget dflt lf i) = false) ∧
      (∀ i, mlo ≤ i → i < hi → less (aget dflt lf i) (aget dflt lf mlo) = false) := by
  intro mlo mhi lf heq
  unfold doPivot at heq
  obtain ⟨l0, hl0⟩ : ∃ x, ninther less dflt l lo hi = x := ⟨_, rfl⟩
  rw [hl0] at heq
  have hop0 : RangeOp l l0 lo hi := hl0 ▸ ninther_rangeOp less dflt l lo hi hgap hlen
  have hlen0 : l0.length = l.length := hop0.1
  obtain ⟨l1, hl1⟩ : ∃ x, medianOfThree less dflt l0 lo ((lo + hi) / 2) (hi - 1) = x :=
    ⟨_, rfl⟩
  rw [hl1] at heq
  have hop1 : RangeOp l0 l1 lo hi := hl1 ▸ medianOfThree_rangeOp less dflt l0 lo
    ((lo + hi) / 2) (hi - 1) lo hi (le_refl _) (by omega) (by omega) (by omega)
    (by omega) (by omega) (by omega)
  have hlen1 : l1.length = l.length := by rw [hop1.1, hlen0]
  have hord := medianOfThree_ord less dflt hasymm l0 lo ((lo + hi) / 2) (hi - 1)
    (by omega) (by omega) (by omega) (by omega) (by omega) (by omega)
  rw [hl1] at hord
  obtain ⟨a, hA⟩ : ∃ x, scanLt less dflt l1 lo (hi - 1) (lo + 1) = x := ⟨_, rfl⟩
  rw [hA] at heq
  have hage : lo + 1 ≤ a := hA ▸ scanLt_ge less dflt l1 lo (hi - 1) (lo + 1)
  have hale : a ≤ hi - 1 :=
    hA ▸ scanLt_le_limit less dflt l1 lo (hi - 1) (lo + 1) (by omega)
  have hstrict1 : ∀ i, lo < i → i < a →
      less (aget dflt l1 i) (aget dflt l1 lo) = true := by
    intro i h1 h2
    exact scanLt_zone less dflt l1 lo (hi - 1) (lo + 1) i (by omega) (hA ▸ h2)
  obtain ⟨pres, hpres⟩ : ∃ x, partLoop less dflt lo l1 a (hi - 1) = x := ⟨_, rfl⟩
  obtain ⟨l2, b1, c1⟩ := pres
  rw [hpres] at heq
  have hPL := partLoop_spec less dflt hasymm lo lo hi (aget dflt l1 lo)
    (hi - 1 - a) a (hi - 1) l1 l2 b1 c1 (le_refl _) hpres (le_refl lo) (by omega)
    (by omega) (by omega) (by omega) rfl
    (fun i h1 h2 => hasymm _ _ (hstrict1 i h1 h2))
    (by
      intro i h1 h2
      have hieq : i = hi - 1 := by omega
      rw [hieq]
      exact hord.1)
  obtain ⟨hop2, hab1, hc1hi, hc1b1, hb1c1, hac1w, hp2, hleft2, hright2⟩ := hPL
  have hac1 : a ≤ c1 := hac1w (by omega)
  have hlen2 : l2.length = l.length := by rw [hop2.1, hlen1]
  have hstrict2 : ∀ i, lo < i → i < a →
      less (aget dflt l2 i) (aget dflt l1 lo) = true := by
    intro i h1 h2
    rw [rangeOp_aget_outside dflt hop2 i (Or.inl h2)]
    exact hstrict1 i h1 h2
  have hleft2i : ∀ i, lo ≤ i → i < b1 →
      less (aget dflt l1 lo) (aget dflt l2 i) = false := by
    intro i h1 h2
    by_cases hil : i = lo
    · rw [hil, hp2]
      exact less_irrefl less hasymm _
    · exact hleft2 i (by omega) h2
  obtain ⟨dres, hdres⟩ :
      ∃ x, doPivotDup less dflt lo lo hi ((lo + hi) / 2) (l2, b1, c1) = x := ⟨_, rfl⟩
  obtain ⟨l3, b2, c2, prot⟩ := dres
  rw [hdres] at heq
  have hDS := doPivotDup_spec less dflt hasymm lo hi a (aget dflt l1 lo) l2 b1 c1
    (by omega) hgap hage hab1 hc1hi hac1 hc1b1 hb1c1 hp2 hleft2i hright2 hstrict2
    l3 b2 c2 prot hdres
  obtain ⟨hop3, hlob2, hb2b1, hab2, hc1c2, hc2hi, hb2c2, hloc2, hp3, hleft3, hmid3,
    hright3⟩ := hDS
  have hlen3 : l3.length = l.length := by rw [hop3.1, hlen2]
  rw [doPivotFinal_eq] at heq
  by_cases hprot : prot = true
  · rw [if_pos hprot] at heq
    obtain ⟨prres, hpr⟩ : ∃ x, protLoop less dflt lo l3 a b2 = x := ⟨_, rfl⟩
    obtain ⟨l4, a4, b3⟩ := prres
    have hpr1 : (protLoop less dflt lo l3 a b2).1 = l4 := by rw [hpr]
    have hpr22 : (protLoop less dflt lo l3 a b2).2.2 = b3 := by rw [hpr]
    rw [hpr1, hpr22] at heq
    have hPR := protLoop_spec less dflt lo lo hi (aget dflt l1 lo) (b2 - a) a b2 l3 l4 a4 b3
      (le_refl _) hpr (le_refl lo) (by omega) (by omega) hlob2 (by omega) (by omega)
      hp3 (fun i h1 h2 => hleft3 i (by omega) h2)
    obtain ⟨hop4, hlob3, hb3b2, hp4, hleft4, hnew4⟩ := hPR
    have hlen4 : l4.length = l.length := by rw [hop4.1, hlen3]
    have houts4 : ∀ i, b2 ≤ i → aget dflt l4 i = aget dflt l3 i := by
      intro i h1
      exact rangeOp_aget_outside dflt hop4 i (Or.inr h1)
    have hasm := doPivotAssemble less dflt hasymm lo hi b3 c2 (aget dflt l1 lo) l4
      (by omega) (by omega) hlob3 (by omega) hp4
      (by
        by_cases hbl : b3 - 1 = lo
        · rw [hbl, hp4]
          exact less_irrefl less hasymm _
        · exact hleft4 (b3 - 1) (by omega) (by omega))
      (by
        intro i h1 h2
        by_cases hib2 : i < b2
        · by_cases hil : i = lo
          · rw [hil, hp4]
            exact less_irrefl less hasymm _
          · exact hleft4 i (by omega) hib2
        · rw [houts4 i (by omega)]
          exact (hmid3 i (by omega) h2).1)
      (by
        intro i h1 h2
        by_cases hib2 : i < b2
        · exact hnew4 i h1 hib2
        · rw [houts4 i (by omega)]
          by_cases hic2 : i < c2
          · exact (hmid3 i (by omega) hic2).2
          · exact hright3 i (by omega) h2)
    obtain ⟨hopF, hctr, hAf, hBf⟩ := hasm
    injection heq with h1 h
    injection h with h2 h3
    subst h1; subst h2; subst h3
    refine ⟨?_, by omega, by omega, by omega, by omega, by omega, ?_, ?_⟩
    · exact rangeOp_trans hop0 (rangeOp_trans hop1 (rangeOp_trans
        (rangeOp_mono hop2 (by omega) (by omega)) (rangeOp_trans hop3 (rangeOp_trans
          (rangeOp_mono hop4 (by omega) (by omega)) hopF))))
    · intro i h1 h2
      rw [hctr]
      exact hAf i h1 h2
    · intro i h1 h2
      rw [hctr]
      exact hBf i h1 h2
  · rw [if_neg hprot] at heq
    have hasm := doPivotAssemble less dflt hasymm lo hi b2 c2 (aget dflt l1 lo) l3
      (by omega) (by omega) hlob2 (by omega) hp3
      (by
        by_cases hbl : b2 - 1 = lo
        · rw [hbl, hp3]
          exact less_irrefl less hasymm _
        · exact hleft3 (b2 - 1) (by omega) (by omega))
      (by
        intro i h1 h2
        by_cases hib2 : i < b2
        · exact hleft3 i h1 hib2
        · exact (hmid3 i (by omega) h2).1)
      (by
        intro i h1 h2
        by_cases hic2 : i < c2
        · exact (hmid3 i (by omega) hic2).2
        · exact hright3 i (by omega) h2)
    obtain ⟨hopF, hctr, hAf, hBf⟩ := hasm
    injection heq with h1 h
    injection h with h2 h3
    subst h1; subst h2; subst h3
    refine ⟨?_, by omega, by omega, by omega, by omega, by omega, ?_, ?_⟩
    · exact rangeOp_trans hop0 (rangeOp_trans hop1 (rangeOp_trans
        (rangeOp_mono hop2 (by omega) (by omega)) (rangeOp_trans hop3 hopF)))
    · intro i h1 h2
      rw [hctr]
      exact hAf i h1 h2
    · intro i h1 h2
      rw [hctr]
      exact hBf i h1 h2

theorem pivot_stitch
    (hletrans : ∀ x y z, less y x = false → less z y = false → less z x = false)
    (L : List α) (a mlo mhi b : Nat) (p : α)
    (hA : ∀ i, a ≤ i → i < mhi → less p (aget dflt L i) = false)
    (hB : ∀ i, mlo ≤ i → i < b → less (aget dflt L i) p = false)
    (hsl : SortedRange less dflt L a mlo) (hsr : SortedRange less dflt L mhi b) :
    SortedRange less dflt L a b := by
  intro i j hi hij hj
  by_cases hjm : j < mlo
  · exact hsl i j hi hij hjm
  · by_cases him : mhi ≤ i
    · exact hsr i j him hij hj
    · exact hletrans _ _ _ (hA i hi (by omega)) (hB j (by omega) hj)

theorem quickSort_spec [DecidableEq α]
    (hasymm : ∀ x y, less x y = true → less y x = false)
    (hletrans : ∀ x y z, less y x = false → less z y = false → less z x = false) :
    ∀ (d : Nat) (l : List α) (a b : Nat), b ≤ l.length →
      SortedRange less dflt (quickSort less dflt l a b d) a b ∧
      RangeOp l (quickSort less dflt l a b d) a b := by
  intro d
  induction d with
  | zero =>
      intro l a b hb
      have hq0 : quickSort less dflt l a b 0 =
          if b - a > 12 then heapSort less dflt l a b
          else if b - a > 1 then insertionSort less dflt (shellPass less dflt a b l) a b
          else l := by
        rw [quickSort]
      rw [hq0]
      by_cases h12 : b - a > 12
      · rw [if_pos h12]
        exact heapSort_spec less dflt hasymm hletrans l a b hb
      · rw [if_neg h12]
        by_cases h1 : b - a > 1
        · rw [if_pos h1]
          have hsp := shellPass_rangeOp less dflt a b l hb
          have his := insertionSort_spec less dflt hasymm hletrans
            (shellPass less dflt a b l) a b (by rw [hsp.1]; exact hb)
          exact ⟨his.1, rangeOp_trans hsp his.2⟩
        · rw [if_neg h1]
          exact ⟨sortedRange_of_le less dflt (by omega), rangeOp_refl ..⟩
  | succ d ih =>
      intro l a b hb
      have hq1 : quickSort less dflt l a b (d + 1) =
          if b - a > 12 then
            if (doPivot less dflt l a b).1 - a < b - (doPivot less dflt l a b).2.1 then
              quickSort less dflt (quickSort less dflt (doPivot less dflt l a b).2.2 a
                (doPivot less dflt l a b).1 d) (doPivot less dflt l a b).2.1 b d
            else
              quickSort less dflt (quickSort less dflt (doPivot less dflt l a b).2.2
                (doPivot less dflt l a b).2.1 b d) a (doPivot less dflt l a b).1 d
          else if b - a > 1 then insertionSort less dflt (shellPass less dflt a b l) a b
          else l := by
        rw [quickSort]
      rw [hq1]
      by_cases h12 : b - a > 12
      · rw [if_pos h12]
        obtain ⟨pv, hpv⟩ : ∃ x, doPivot less dflt l a b = x := ⟨_, rfl⟩
        obtain ⟨mlo, mhi, l1⟩ := pv
        have hpv1 : (doPivot less dflt l a b).1 = mlo := by rw [hpv]
        have hpv21 : (doPivot less dflt l a b).2.1 = mhi := by rw [hpv]
        have hpv22 : (doPivot less dflt l a b).2.2 = l1 := by rw [hpv]
        rw [hpv1, hpv21, hpv22]
        obtain ⟨hopP, hamlo, hmm, hmhib, hmlob, hamhi, hA1, hB1⟩ :=
          doPivot_spec less dflt hasymm l a b hb (by omega) mlo mhi l1 hpv
        have hlen1 : l1.length = l.length := hopP.1
        by_cases hcmp : mlo - a < b - mhi
        · rw [if_pos hcmp]
          obtain ⟨hs2, hop2⟩ := ih l1 a mlo (by omega)
          obtain ⟨hs3, hop3⟩ := ih (quickSort less dflt l1 a mlo d) mhi b
            (by rw [hop2.1]; omega)
          have hA2 : ∀ i, a ≤ i → i < mhi →
              less (aget dflt l1 mlo) (aget dflt (quickSort less dflt l1 a mlo d) i) =
                false := by
            intro i h1 h2
            by_cases him : i < mlo
            · exact rangeOp_bound_aget dflt hop2 (by omega) (by omega)
                (fun x => less (aget dflt l1 mlo) x = false)
                (fun k hk1 hk2 => hA1 k hk1 (by omega)) i h1 him
            · rw [rangeOp_aget_outside dflt hop2 i (Or.inr (by omega))]
              exact hA1 i h1 h2
          have hB2 : ∀ i, mlo ≤ i → i < b →
              less (aget dflt (quickSort less dflt l1 a mlo d) i) (aget dflt l1 mlo) =
                false := by
            intro i h1 h2
            rw [rangeOp_aget_outside dflt hop2 i (Or.inr h1)]
            exact hB1 i h1 h2
          have hA3 : ∀ i, a ≤ i → i < mhi →
              less (aget dflt l1 mlo)
                (aget dflt (quickSort less dflt (quickSort less dflt l1 a mlo d) mhi b d)
                  i) = false := by
            intro i h1 h2
            rw [rangeOp_aget_outside dflt hop3 i (Or.inl h2)]
            exact hA2 i h1 h2
          have hB3 : ∀ i, mlo ≤ i → i < b →
              less (aget dflt (quickSort less dflt (quickSort less dflt l1 a mlo d) mhi b d)
                  i) (aget dflt l1 mlo) = false := by
            intro i h1 h2
            by_cases him : mhi ≤ i
            · exact rangeOp_bound_aget dflt hop3 (by omega) (by rw [hop2.1]; omega)
                (fun x => less x (aget dflt l1 mlo) = false)
                (fun k hk1 hk2 => hB2 k (by omega) hk2) i him h2
            · rw [rangeOp_aget_outside dflt hop3 i (Or.inl (by omega))]
              exact hB2 i h1 h2
          have hsl3 : SortedRange less dflt
              (quickSort less dflt (quickSort less dflt l1 a mlo d) mhi b d) a mlo := by
            refine sortedRange_congr less dflt ?_ hs2
            intro k hk1 hk2
            exact rangeOp_aget_outside dflt hop3 k (Or.inl (by omega))
          refine ⟨pivot_stitch less dflt hletrans _ a mlo mhi b (aget dflt l1 mlo)
            hA3 hB3 hsl3 hs3, ?_⟩
          refine rangeOp_trans hopP (rangeOp_trans
            (rangeOp_mono hop2 (le_refl _) (by omega))
            (rangeOp_mono hop3 (by omega) (le_refl _)))
        · rw [if_neg hcmp]
          obtain ⟨hs2, hop2⟩ := ih l1 mhi b (by omega)
          obtain ⟨hs3, hop3⟩ := ih (quickSort less dflt l1 mhi b d) a mlo
            (by rw [hop2.1]; omega)
          have hA2 : ∀ i, a ≤ i → i < mhi →
              less (aget dflt l1 mlo) (aget dflt (quickSort less dflt l1 mhi b d) i) =
                false := by
            intro i h1 h2
            rw [rangeOp_aget_outside dflt hop2 i (Or.inl h2)]
            exact hA1 i h1 h2
          have hB2 : ∀ i, mlo ≤ i → i < b →
              less (aget dflt (quickSort less dflt l1 mhi b d) i) (aget dflt l1 mlo) =
                false := by
            intro i h1 h2
            by_cases him : mhi ≤ i
            · exact rangeOp_bound_aget dflt hop2 (by omega) (by omega)
                (fun x => less x (aget dflt l1 mlo) = false)
                (fun k hk1 hk2 => hB1 k (by omega) hk2) i him h2
            · rw [rangeOp_aget_outside dflt hop2 i (Or.inl (by omega))]
              exact hB1 i h1 h2
          have hA3 : ∀ i, a ≤ i → i < mhi →
              less (aget dflt l1 mlo)
                (aget dflt (quickSort less dflt (quickSort less dflt l1 mhi b d) a mlo d)
                  i) = false := by
            intro i h1 h2
            by_cases him : i < mlo
            · exact rangeOp_bound_aget dflt hop3 (by omega) (by rw [hop2.1]; omega)
                (fun x => less (aget dflt l1 mlo) x = false)
                (fun k hk1 hk2 => hA2 k hk1 (by omega)) i h1 him
            · rw [rangeOp_aget_outside dflt hop3 i (Or.inr (by omega))]
              exact hA2 i h1 h2
          have hB3 : ∀ i, mlo ≤ i → i < b →
              less (aget dflt (quickSort less dflt (quickSort less dflt l1 mhi b d) a mlo d)
                  i) (aget dflt l1 mlo) = false := by
            intro i h1 h2
            rw [rangeOp_aget_outside dflt hop3 i (Or.inr h1)]
            exact hB2 i h1 h2
          have hsr3 : SortedRange less dflt
              (quickSort less dflt (quickSort less dflt l1 mhi b d) a mlo d) mhi b := by
            refine sortedRange_congr less dflt ?_ hs2
            intro k hk1 hk2
            exact rangeOp_aget_outside dflt hop3 k (Or.inr (by omega))
          refine ⟨pivot_stitch less dflt hletrans _ a mlo mhi b (aget dflt l1 mlo)
            hA3 hB3 hs3 hsr3, ?_⟩
          refine rangeOp_trans hopP (rangeOp_trans
            (rangeOp_mono hop2 (by omega) (le_refl _))
            (rangeOp_mono hop3 (le_refl _) (by omega)))
      · rw [if_neg h12]
        by_cases h1 : b - a > 1
        · rw [if_pos h1]
          have hsp := shellPass_rangeOp less dflt a b l hb
          have his := insertionSort_spec less dflt hasymm hletrans
            (shellPass less dflt a b l) a b (by rw [hsp.1]; exact hb)
          exact ⟨his.1, rangeOp_trans hsp his.2⟩
        · rw [if_neg h1]
          exact ⟨sortedRange_of_le less dflt (by omega), rangeOp_refl ..⟩

theorem goSort_spec [DecidableEq α]
    (hasymm : ∀ x y, less x y = true → less y x = false)
    (hletrans : ∀ x y z, less y x = false → less z y = false → less z x = false)
    (l : List α) :
    SortedRange less dflt (goSort less dflt l) 0 l.length ∧
    List.Perm (goSort less dflt l) l ∧ (goSort less dflt l).length = l.length := by
  unfold goSort
  have h := quickSort_spec less dflt hasymm hletrans (2 * bitCount l.length) l 0 l.length
    (le_refl _)
  exact ⟨h.1, h.2.2.1, h.2.1⟩

end GoSortProofs

/-! ## Claims C5 and C2 (amended): the filter / sort / rank pipeline -/

theorem aget_eq_getElem {α : Type} (dflt : α) {l : List α} {i : Nat} (h : i < l.length) :
    aget dflt l i = l[i] := by
  unfold aget
  rw [List.getD_eq_getElem?_getD, List.getElem?_eq_getElem h]
  rfl

theorem revByCents_asymm : ∀ x y, revByCents x y = true → revByCents y x = false := by
  intro x y h
  simp only [revByCents, decide_eq_true_eq] at h
  simp only [revByCents, decide_eq_false_iff_not]
  omega

theorem revByCents_letrans : ∀ x y z, revByCents y x = false → revByCents z y = false →
    revByCents z x = false := by
  intro x y z h1 h2
  simp only [revByCents, decide_eq_false_iff_not] at h1 h2 ⊢
  omega

theorem sortTotalsDesc_spec (l : List Total) :
    List.Perm (sortTotalsDesc l) l ∧ (sortTotalsDesc l).length = l.length ∧
    List.Pairwise (fun x y => y.value ≤ x.value) (sortTotalsDesc l) := by
  unfold sortTotalsDesc
  obtain ⟨hs, hperm, hlen⟩ := goSort_spec revByCents dfltTotal revByCents_asymm
    revByCents_letrans l
  refine ⟨hperm, hlen, ?_⟩
  rw [List.pairwise_iff_getElem]
  intro i j hi hj hij
  have hthis := hs i j (Nat.zero_le _) hij (by omega)
  rw [aget_eq_getElem dfltTotal hj, aget_eq_getElem dfltTotal hi] at hthis
  simp only [revByCents, decide_eq_false_iff_not] at hthis
  omega

/-- Specification-side (C5): the distinct cent values of a list of totals,
in order of first appearance. -/
def specValues : List Total → List Int
  | [] => []
  | t :: ts => t.value :: (specValues ts).filter (fun v => decide (v ≠ t.value))

/-- Specification-side (C5): the rank bucket of value `v` over `sorted`,
holding the options of that value's totals in order, with rank
`1 + (number of totals strictly ahead in sort order)`. -/
def rankBucket (sorted : List Total) (v : Int) : OptionRank :=
  ⟨1 + sorted.countP (fun t => decide (v < t.value)),
   (sorted.filter (fun t => decide (t.value = v))).map (fun t => t.option), v⟩

/-- Specification-side (C5), following the spec's words: one rank bucket
per distinct value of the descending-sorted list. -/
def ranksSpec (sorted : List Total) : List OptionRank :=
  (specValues sorted).map (rankBucket sorted)

theorem rankBucket_concat_ne (P : List Total) (t : Total) (v : Int)
    (hlt : t.value < v) : rankBucket (P ++ [t]) v = rankBucket P v := by
  unfold rankBucket
  rw [List.countP_append, List.filter_append]
  have h1 : List.countP (fun u => decide (v < u.value)) [t] = 0 := by
    simp [show ¬(v < t.value) by omega]
  have h2 : List.filter (fun u => decide (u.value = v)) [t] = [] := by
    simp [show t.value ≠ v by omega]
  rw [h1, h2, List.append_nil, Nat.add_zero]

theorem rankBucket_concat_eq (P : List Total) (t : Total) :
    rankBucket (P ++ [t]) t.value =
      ⟨(rankBucket P t.value).rank, (rankBucket P t.value).options ++ [t.option],
        t.value⟩ := by
  unfold rankBucket
  rw [List.countP_append, List.filter_append]
  have h1 : List.countP (fun u => decide (t.value < u.value)) [t] = 0 := by simp
  have h2 : List.filter (fun u => decide (u.value = t.value)) [t] = [t] := by simp
  rw [h1, h2, List.map_append, Nat.add_zero]
  rfl

theorem rankBucket_concat_new (P : List Total) (t : Total)
    (hall : ∀ x ∈ P, t.value < x.value) :
    rankBucket (P ++ [t]) t.value = ⟨P.length + 1, [t.option], t.value⟩ := by
  unfold rankBucket
  rw [List.countP_append, List.filter_append]
  have h1 : List.countP (fun u => decide (t.value < u.value)) P = P.length :=
    List.countP_eq_length.mpr (fun a ha => by simpa using hall a ha)
  have h2 : List.countP (fun u => decide (t.value < u.value)) [t] = 0 := by simp
  have h3 : List.filter (fun u => decide (u.value = t.value)) P = [] :=
    List.filter_eq_nil_iff.mpr (fun a ha => by
      have := hall a ha
      simp only [decide_eq_true_eq]
      omega)
  have h4 : List.filter (fun u => decide (u.value = t.value)) [t] = [t] := by simp
  rw [h1, h2, h3, h4, Nat.add_zero, List.nil_append]
  have h5 : 1 + P.length = P.length + 1 := by omega
  rw [h5]
  rfl

theorem modifyLast_concat (f : OptionRank → OptionRank) :
    ∀ (rs : List OptionRank) (r : OptionRank), modifyLast f (rs ++ [r]) = rs ++ [f r] := by
  intro rs
  induction rs with
  | nil => intro r; rfl
  | cons x rest ih =>
      intro r
      rcases rest with _ | ⟨y, rest2⟩
      · rfl
      · show x :: modifyLast f ((y :: rest2) ++ [r]) = (x :: (y :: rest2)) ++ [f r]
        rw [ih]
        rfl

theorem specValues_concat : ∀ (P : List Total) (t : Total),
    specValues (P ++ [t]) =
      if t.value ∈ P.map (fun u => u.value) then specValues P
      else specValues P ++ [t.value] := by
  intro P
  induction P with
  | nil =>
      intro t
      rw [if_neg (by simp)]
      rfl
  | cons x P ih =>
      intro t
      have hstep : specValues ((x :: P) ++ [t]) =
          x.value :: (specValues (P ++ [t])).filter (fun v => decide (v ≠ x.value)) := rfl
      rw [hstep, ih t]
      by_cases hmem : t.value ∈ P.map (fun u => u.value)
      · rw [if_pos hmem,
          if_pos (by simp only [List.map_cons, List.mem_cons]; exact Or.inr hmem)]
        rfl
      · rw [if_neg hmem]
        by_cases hxt : t.value = x.value
        · rw [if_pos (by simp only [List.map_cons, List.mem_cons]; exact Or.inl hxt)]
          rw [List.filter_append]
          have hf : List.filter (fun v => decide (v ≠ x.value)) [t.value] = [] := by
            simp [hxt]
          rw [hf, List.append_nil]
          rfl
        · rw [if_neg (by
            simp only [List.map_cons, List.mem_cons]
            intro hcon
            rcases hcon with h | h
            · exact hxt h
            · exact hmem h)]
          rw [List.filter_append]
          have hf : List.filter (fun v => decide (v ≠ x.value)) [t.value] = [t.value] := by
            simp [hxt]
          rw [hf]
          rfl

theorem crFold_spec : ∀ L : List Total,
    List.Pairwise (fun x y => y.value ≤ x.value) L →
    (L.enum.foldl crStep [] = ranksSpec L ∧
      (L = [] ∨ ∃ vs v, specValues L = vs ++ [v] ∧ (∀ x ∈ L, v ≤ x.value) ∧
        (∃ w, w ∈ L ∧ w.value = v) ∧ (∀ v2 ∈ vs, v < v2))) := by
  intro L
  induction L using List.reverseRecOn with
  | nil => intro _; exact ⟨rfl, Or.inl rfl⟩
  | append_singleton P t ih =>
      intro hpw
      have hpwP : List.Pairwise (fun x y => y.value ≤ x.value) P :=
        (List.pairwise_append.mp hpw).1
      have hPt : ∀ x ∈ P, t.value ≤ x.value := by
        intro x hx
        exact (List.pairwise_append.mp hpw).2.2 x hx t (by simp)
      obtain ⟨hfold, hinv⟩ := ih hpwP
      have henum : (P ++ [t]).enum.foldl crStep [] =
          crStep (P.enum.foldl crStep []) (P.length, t) := by
        rw [List.enum_append, List.foldl_append]
        rfl
      rw [henum, hfold]
      rcases hinv with hnil | ⟨vs, v, hsv, hmin, ⟨w, hwmem, hwval⟩, hgt⟩
      · subst hnil
        constructor
        · show crStep (ranksSpec []) (List.length ([] : List Total), t) =
            ranksSpec ([] ++ [t])
          simp [crStep, ranksSpec, specValues, rankBucket, modifyLast]
        · refine Or.inr ⟨[], t.value, rfl, ?_, ⟨t, by simp, rfl⟩, by simp⟩
          intro x hx
          simp only [List.nil_append, List.mem_singleton] at hx
          rw [hx]
      · have hlast : (ranksSpec P).getLast? = some (rankBucket P v) := by
          unfold ranksSpec
          rw [hsv, List.map_append]
          exact List.getLast?_concat _
        have htv : t.value ≤ v := hwval ▸ hPt w hwmem
        have hspecmem : ∀ v2, v2 ∈ specValues P → v ≤ v2 := by
          intro v2 hv2
          rw [hsv] at hv2
          rcases List.mem_append.mp hv2 with h | h
          · exact le_of_lt (hgt v2 h)
          · rw [List.mem_singleton.mp h]
        by_cases hveq : v = t.value
        · -- the new total joins the last (equal-valued) bucket
          have hcr : crStep (ranksSpec P) (P.length, t) =
              modifyLast (fun r => ⟨r.rank, r.options ++ [t.option], r.value⟩)
                (ranksSpec P) := by
            simp only [crStep, hlast]
            rw [if_neg (by simp [rankBucket, hveq])]
          have hmemt : t.value ∈ P.map (fun u => u.value) := by
            rw [List.mem_map]
            exact ⟨w, hwmem, by rw [hwval, hveq]⟩
          have hsv2 : specValues (P ++ [t]) = specValues P := by
            rw [specValues_concat, if_pos hmemt]
          constructor
          · rw [hcr]
            unfold ranksSpec
            rw [hsv2, hsv, List.map_append, List.map_append]
            simp only [List.map_cons, List.map_nil]
            rw [modifyLast_concat]
            congr 1
            · refine List.map_congr_left ?_
              intro v2 hv2
              refine (rankBucket_concat_ne P t v2 ?_).symm
              have := hgt v2 hv2
              omega
            · congr 1
              rw [hveq, rankBucket_concat_eq]
              rfl
          · refine Or.inr ⟨vs, v, by rw [hsv2, hsv], ?_, ⟨w, by simp [hwmem], hwval⟩, hgt⟩
            intro x hx
            rcases List.mem_append.mp hx with h | h
            · exact hmin x h
            · rw [List.mem_singleton.mp h, hveq]
        · -- the new total opens a new bucket
          have htlt : t.value < v := by omega
          have hallgt : ∀ x ∈ P, t.value < x.value := by
            intro x hx
            have := hmin x hx
            omega
          have hmemt : t.value ∉ P.map (fun u => u.value) := by
            rw [List.mem_map]
            rintro ⟨x, hx, hxv⟩
            have := hallgt x hx
            omega
          have hsv2 : specValues (P ++ [t]) = specValues P ++ [t.value] := by
            rw [specValues_concat, if_neg hmemt]
          have hcr : crStep (ranksSpec P) (P.length, t) =
              ranksSpec P ++ [⟨P.length + 1, [t.option], t.value⟩] := by
            simp only [crStep, hlast]
            rw [if_pos (by simp [rankBucket]; omega)]
            rw [modifyLast_concat]
            rfl
          constructor
          · rw [hcr]
            unfold ranksSpec
            rw [hsv2, List.map_append]
            congr 1
            · refine (List.map_congr_left ?_).symm
              intro v2 hv2
              refine rankBucket_concat_ne P t v2 ?_
              have := hspecmem v2 hv2
              omega
            · simp only [List.map_cons, List.map_nil]
              congr 1
              rw [rankBucket_concat_new P t hallgt]
          · refine Or.inr ⟨specValues P, t.value, hsv2, ?_, ⟨t, by simp, rfl⟩, ?_⟩
            · intro x hx
              rcases List.mem_append.mp hx with h | h
              · exact le_of_lt (hallgt x h)
              · rw [List.mem_singleton.mp h]
            · intro v2 hv2
              have := hspecmem v2 hv2
              omega

theorem computeRanks_eq_ranksSpec (tt : Totals) :
    computeRanks tt = ranksSpec (sortTotalsDesc tt.openTotals) := by
  unfold computeRanks
  by_cases hlen : tt.openTotals.length = 0
  · rw [if_pos hlen]
    rw [List.length_eq_zero.mp hlen]
    rfl
  · rw [if_neg hlen]
    exact (crFold_spec (sortTotalsDesc tt.openTotals)
      (sortTotalsDesc_spec tt.openTotals).2.2).1

/-- C5: for every `Totals` value, `computeRanks` ranks the open totals by
sorting them descending by cent value (the sorted list is a permutation of
the open totals and is pairwise descending) and producing one bucket per
distinct value — equal values grouped into a single bucket — whose rank is
`1 + (number of totals strictly ahead in sort order)` (`ranksSpec`); on the
example totals `[1000, 994]` it yields two singleton buckets ranked #1 and
#2, and on `[150, 150, 150]` one bucket of size 3 ranked #1. -/
theorem computeRanks_spec (tt : Totals) :
    (List.Perm (sortTotalsDesc tt.openTotals) tt.openTotals ∧
     List.Pairwise (fun x y => y.value ≤ x.value) (sortTotalsDesc tt.openTotals) ∧
     computeRanks tt = ranksSpec (sortTotalsDesc tt.openTotals)) ∧
    computeRanks ⟨[mkT "X" 1000, mkT "Y" 994], "ALL", 1⟩ =
      [⟨1, [⟨"X", "X", [], false⟩], 1000⟩, ⟨2, [⟨"Y", "Y", [], false⟩], 994⟩] ∧
    computeRanks ⟨[mkT "X" 150, mkT "Y" 150, mkT "Z" 150], "ALL", 1⟩ =
      [⟨1, [⟨"X", "X", [], false⟩, ⟨"Y", "Y", [], false⟩, ⟨"Z", "Z", [], false⟩], 150⟩] :=
  ⟨⟨(sortTotalsDesc_spec tt.openTotals).1, (sortTotalsDesc_spec tt.openTotals).2.2,
    computeRanks_eq_ranksSpec tt⟩, by decide, by decide⟩

/-! ## Claim C2 (amended): filter and descending sort -/

theorem lookup_eraseKey_ne {β : Type} (k k2 : String) (m : List (String × β))
    (h : k2 ≠ k) : List.lookup k2 (eraseKey k m) = List.lookup k2 m := by
  induction m with
  | nil => rfl
  | cons e rest ih =>
    obtain ⟨a, b⟩ := e
    by_cases he : a = k
    · have hk2 : (k2 == a) = false := by
        simp only [beq_eq_false_iff_ne, ne_eq]
        intro hc; exact h (hc.trans he)
      simp only [eraseKey, List.filter_cons]
      rw [if_neg (by simp [he])]
      simp only [eraseKey] at ih
      rw [ih, List.lookup_cons, hk2]
    · simp only [eraseKey, List.filter_cons]
      rw [if_pos (by simp [he])]
      simp only [eraseKey] at ih
      rw [List.lookup_cons, List.lookup_cons]
      rcases hb : (k2 == a) with _ | _
      · simp only []
        exact ih
      · rfl

theorem lookup_foldl_insert_isSome (opts : List BWOption) (k : String)
    (m0 : List (String × BWOption)) :
    (List.lookup k (opts.foldl (fun m opt => insertKey opt.shortCode opt m) m0)).isSome =
      (opts.any (fun o => decide (o.shortCode = k)) || (List.lookup k m0).isSome) := by
  induction opts generalizing m0 with
  | nil => simp
  | cons o rest ih =>
    rw [List.foldl_cons, ih, List.any_cons]
    by_cases hk : o.shortCode = k
    · have h1 : List.lookup k (insertKey o.shortCode o m0) = some o := by
        unfold insertKey
        rw [List.lookup_cons]
        have : (k == o.shortCode) = true := by simp [hk]
        rw [this]
      rw [h1]
      simp [hk]
    · have h1 : List.lookup k (insertKey o.shortCode o m0) = List.lookup k m0 := by
        unfold insertKey
        rw [List.lookup_cons]
        have hb : (k == o.shortCode) = false := by
          simp only [beq_eq_false_iff_ne, ne_eq]
          intro hc; exact hk hc.symm
        rw [hb]
        exact lookup_eraseKey_ne o.shortCode k m0 (fun hc => hk hc.symm)
      rw [h1]
      simp [hk]

/-- C2 (amended): `TotalsForContest` returns exactly the totals whose option
short code belongs to the contest's option set (the result is a permutation
of that filtered list), sorted descending by cent value, with the contest's
summary style and number of winners — but the sort is Go `sort.Sort`, which
is NOT stable, so among totals with equal values the original order from
`getTotals` is not in general preserved. -/
theorem totalsForContest_spec (contest : Contest) (totals : List Total) :
    List.Perm (TotalsForContest contest totals).totals
      (totals.filter (fun tot =>
        contest.options.any (fun o => decide (o.shortCode = tot.option.shortCode)))) ∧
    List.Pairwise (fun x y => y.value ≤ x.value) (TotalsForContest contest totals).totals ∧
    (TotalsForContest contest totals).summaryStyle = contest.summaryStyle ∧
    (TotalsForContest contest totals).numberOfWinners = contest.numberOfWinners := by
  have heq : TotalsForContest contest totals =
      ⟨sortTotalsDesc (totals.filter (fun tot =>
          (List.lookup tot.option.shortCode
            (contest.options.foldl (fun m opt => insertKey opt.shortCode opt m) [])).isSome)),
       contest.summaryStyle, contest.numberOfWinners⟩ := rfl
  rw [heq]
  have hfe : totals.filter (fun tot =>
      (List.lookup tot.option.shortCode
        (contest.options.foldl (fun m opt => insertKey opt.shortCode opt m) [])).isSome) =
      totals.filter (fun tot =>
        contest.options.any (fun o => decide (o.shortCode = tot.option.shortCode))) := by
    apply List.filter_congr
    intro tot _
    rw [lookup_foldl_insert_isSome]
    simp [List.lookup]
  rw [hfe]
  exact ⟨(sortTotalsDesc_spec _).1, (sortTotalsDesc_spec _).2.2, rfl, rfl⟩

end Pizzafest
